import Mathlib

/-!
ChimeraX atomic structure core: classification, polymers, chains.

A shallow embedding of the algorithmic parts of
`src/core/atomic/atomstruct_cpp/AtomicStructure.cpp`
(`polymers`, `make_chains`, `_compute_structure_cats`) and of
`sb_pbg_map` from `src/core/blob_cpp/StructBlob.cpp`, followed by theorems
about them.

Modelling conventions
* Pointers (`Atom*`, `Residue*`, `Chain*`) are natural numbers: the pointer
  value is the identity of the object, and the order of the numbers is the
  order in which `std::set` / `std::map` keyed on pointers are traversed.
* A `std::map` that is only indexed (`operator[]`, `find`) and never
  traversed is a function from keys; a map or set that is traversed is a
  list kept in increasing key order.
* Accessors of classes whose headers are not among the sources (`Atom`,
  `Residue`, `Bond`, `Chain`, `Element`) are fields of the structure record.
* `int` and `size_t` counters are unbounded integers (residue and atom counts
  stay far below the machine limits); `unsigned int` arithmetic in
  `make_chains` is reduced modulo `2^32`.
* Where the source dereferences a null pointer or reads past the end of a
  vector its behaviour is undefined: the embedded function returns `none`.
* A function that returns `NULL` with a Python exception set returns
  `Except.error` with that exception.
-/

namespace atomstruct

/-! ## Data model -/

/-- An `Atom*`. -/
abbrev Atom := Nat

/-- A `Residue*`. -/
abbrev Residue := Nat

/-- A `Chain*`. -/
abbrev ChainPtr := Nat

/-- Chain identifier of a residue (`ChainID`). -/
abbrev ChainID := String

/-- Residue name (`ResName`). -/
abbrev ResName := String

/-- The two `Bond` methods used by `polymers`: `polymeric_start_atom()`
(`nullptr` is `none`) and `other_atom(a)`. -/
structure Bond where
  polymeric_start_atom : Option Atom
  other_atom : Atom → Atom

/-- A pseudobond, as its two end atoms `atoms()[0]` and `atoms()[1]`. -/
abbrev Pseudobond := Atom × Atom

/-- The parts of an `AtomicStructure` (and of the objects it owns) that the
embedded functions read. -/
structure AtomicStructure where
  /-- Result of `atoms()`: the atoms of the structure. -/
  atoms : List Atom
  /-- Field `_residues`, in list order. -/
  residues : List Residue
  /-- Result of `bonds()`. -/
  bonds : List Bond
  /-- Result of `_pb_mgr.get_group(PBG_MISSING_STRUCTURE, GRP_NONE)`: `none` when the
  group does not exist, otherwise its `pseudobonds()`. -/
  missing_structure : Option (List Pseudobond)
  /-- Accessor `Atom::residue()`. -/
  atom_residue : Atom → Residue
  /-- Accessor `Atom::element().number()`. -/
  element_number : Atom → Nat
  /-- Accessor `Atom::element().is_noble_gas()`. -/
  is_noble_gas : Atom → Bool
  /-- Accessor `Residue::name()`. -/
  res_name : Residue → ResName
  /-- Accessor `Residue::atoms()`. -/
  res_atoms : Residue → List Atom
  /-- Accessor `Residue::chain_id()`. -/
  chain_id : Residue → ChainID
  /-- Accessor `Residue::chain()`; `nullptr` is `none`. -/
  res_chain : Residue → Option ChainPtr
  /-- Accessor `Chain::residues()`; entries may be `nullptr`. -/
  chain_residues : ChainPtr → List (Option Residue)
  /-- Field `_input_seq_info`: the input sequence records, keyed by chain ID. -/
  input_seq_info : List (ChainID × List ResName)
  /-- Static member `Residue::std_solvent_names`. -/
  std_solvent_names : List ResName

/-- Method `num_bonds()`: the number of bonds of the structure. -/
def AtomicStructure.num_bonds (S : AtomicStructure) : Nat := S.bonds.length

/-! ## `AtomicStructure::polymers` -/

/-- Assignment `m[k] = v` on a map that is only ever indexed. -/
def map_set {α β : Type} [DecidableEq α] (m : α → β) (k : α) (v : β) : α → β :=
  fun x => if x = k then v else m x

/-- State of the first loop of `polymers`: the counter `i` and `res_lookup`.
A key that was never assigned reads as `0`, the value `operator[]` creates. -/
structure ResLookupState where
  i : Int
  res_lookup : Residue → Int

/-- One iteration of `for (auto r: _residues) res_lookup[r] = i++;`. -/
def res_lookup_step (st : ResLookupState) (r : Residue) : ResLookupState :=
  { i := st.i + 1, res_lookup := map_set st.res_lookup r st.i }

/-- The index map built by the first loop of `polymers`. -/
def build_res_lookup (residues : List Residue) : Residue → Int :=
  (residues.foldl res_lookup_step { i := 0, res_lookup := fun _ => 0 }).res_lookup

/-- One iteration of the loop over `bonds()`; `connected` maps a residue to
`some true` once `connected[sr] = true` was executed, `none` while the key is absent. -/
def bond_step (S : AtomicStructure) (consider_chain_ids : Bool) (res_lookup : Residue → Int)
    (connected : Residue → Option Bool) (b : Bond) : Residue → Option Bool :=
  match b.polymeric_start_atom with
  | none => connected
  | some start =>
    let sr := S.atom_residue start
    let nr := S.atom_residue (b.other_atom start)
    if res_lookup sr + 1 = res_lookup nr
        ∧ (consider_chain_ids = false ∨ S.chain_id sr = S.chain_id nr) then
      map_set connected sr (some true)
    else connected

/-- One iteration of the loop over the missing-structure pseudobonds. -/
def pseudobond_step (S : AtomicStructure) (res_lookup : Residue → Int)
    (connected : Residue → Option Bool) (pb : Pseudobond) : Residue → Option Bool :=
  let r1 := S.atom_residue pb.1
  let r2 := S.atom_residue pb.2
  let index1 := res_lookup r1
  let index2 := res_lookup r2
  if |index1 - index2| = 1 ∧ S.chain_id r1 = S.chain_id r2 then
    if index1 < index2 then map_set connected r1 (some true)
    else map_set connected r2 (some true)
  else connected

/-- The map `connected` when the final loop of `polymers` starts. -/
def polymers_connected (S : AtomicStructure)
    (consider_missing_structure consider_chain_ids : Bool) : Residue → Option Bool :=
  let res_lookup := build_res_lookup S.residues
  let connected := S.bonds.foldl (bond_step S consider_chain_ids res_lookup) (fun _ => none)
  if consider_missing_structure then
    match S.missing_structure with
    | none => connected
    | some pbs => pbs.foldl (pseudobond_step S res_lookup) connected
  else connected

/-- State of the final loop of `polymers`. -/
structure PolyState where
  polys : List (List Residue)
  chain : List Residue
  in_chain : Bool

/-- One iteration of the final loop of `polymers`. -/
def poly_step (connected : Residue → Option Bool) (st : PolyState) (r : Residue) : PolyState :=
  match connected r with
  | none =>
    if st.in_chain then
      { polys := st.polys ++ [st.chain ++ [r]], chain := [], in_chain := false }
    else st
  | some _ => { st with chain := st.chain ++ [r], in_chain := true }

/-- The final loop of `polymers` and the `push_back` after it. -/
def polymers_walk (connected : Residue → Option Bool) (residues : List Residue)
    (st : PolyState) : List (List Residue) :=
  let st1 := residues.foldl (poly_step connected) st
  if st1.in_chain then st1.polys ++ [st1.chain] else st1.polys

/-- Method `AtomicStructure::polymers(consider_missing_structure, consider_chain_ids)`.
Resetting the residues' polymer type and setting `_polymers_computed`
do not influence the returned list and are left out. -/
def polymers (S : AtomicStructure)
    (consider_missing_structure consider_chain_ids : Bool) : List (List Residue) :=
  polymers_walk (polymers_connected S consider_missing_structure consider_chain_ids)
    S.residues { polys := [], chain := [], in_chain := false }

/-! ## `AtomicStructure::make_chains` -/

/-- A `Chain`: its chain ID, its residue list (`nullptr` is `none`), the
characters of the underlying `Sequence`, and the `from_seqres` flag. -/
structure Chain where
  chain_id : ChainID
  residues : List (Option Residue)
  contents : List Char
  from_seqres : Bool
  deriving DecidableEq

/-- Result of `estimate_assoc_params` (declared in `seq_assoc.h`). -/
structure AssocParams where
  est_len : Nat
  segments : List (List Char)
  gaps : List Int

/-- Result of `try_assoc`: `match_map.pos_to_res()`, which `make_chains` only
searches with `find`. -/
structure AssocRetvals where
  pos_to_res : Nat → Option Residue

/-- Functions and defaults declared in headers that are not among the sources. -/
structure SeqAssoc where
  /-- Static `Sequence::rname3to1`: the letter of a residue name. -/
  rname3to1 : ResName → Char
  /-- Function `estimate_assoc_params(chain)`. -/
  estimate_assoc_params : Chain → AssocParams
  /-- Function `try_assoc(sr_seq, chain, ap, max_errs)`; `none` when it throws `SA_AssocFailure`. -/
  try_assoc : List Char → Chain → AssocParams → Nat → Option AssocRetvals
  /-- Default value of the parameter `consider_missing_structure` of `polymers`. -/
  default_consider_missing_structure : Bool
  /-- Default value of the parameter `consider_chain_ids` of `polymers`. -/
  default_consider_chain_ids : Bool

/-- What `make_chains` does with a chain after creating it from structure,
in program order. -/
inductive ChainCall where
  | set_from_seqres (b : Bool)
  | warning_incomplete
  | warning_missing
  | estimate_assoc_params
  | try_assoc (sr_seq : List Char) (est_len : Nat) (max_errs : Nat)
  deriving DecidableEq, Repr

/-- A chain of `_chains` together with the calls `make_chains` made for it. -/
structure ChainRecord where
  chain : Chain
  calls : List ChainCall
  deriving DecidableEq

/-- Machine word of `unsigned int`. -/
def UINT : Nat := 2 ^ 32

/-- Conversion of an `int` to `unsigned int`. -/
def to_unsigned (x : Int) : Nat := (x % (UINT : Int)).toNat

/-- The residue `polymer[0]`. `polymers` returns no empty polymer, for which
the index would be out of range. -/
def first_residue (polymer : List Residue) : Residue := polymer.headD 0

/-- One iteration of the loop that fills `unique_chain_id`. -/
def unique_chain_id_step (S : AtomicStructure) (unique_chain_id : ChainID → Option Bool)
    (polymer : List Residue) : ChainID → Option Bool :=
  let chain_id := S.chain_id (first_residue polymer)
  match unique_chain_id chain_id with
  | none => map_set unique_chain_id chain_id (some true)
  | some _ => map_set unique_chain_id chain_id (some false)

/-- The map `unique_chain_id` when the main loop of `make_chains` starts. -/
def build_unique_chain_id (S : AtomicStructure) (polys : List (List Residue)) :
    ChainID → Option Bool :=
  if S.input_seq_info.isEmpty then fun _ => none
  else polys.foldl (unique_chain_id_step S) (fun _ => none)

/-- The call `chain->bulk_set(polymer, nullptr)` on the chain made by `_new_chain(chain_id)`:
the chain holds the residues given and the letters of their names. -/
def chain_from_structure (E : SeqAssoc) (S : AtomicStructure) (chain_id : ChainID)
    (polymer : List Residue) : Chain :=
  { chain_id := chain_id,
    residues := polymer.map some,
    contents := polymer.map (fun r => E.rname3to1 (S.res_name r)),
    from_seqres := false }

/-- The loops counting leading (or, on reversed lists, trailing) all-`X`
segments: every segment but the last is visited, with the iterator `gi` (or
`rgi`) moving along `gaps`; returns `(existing_Xs, additional_Xs)`. The read `*gi`
for an all-`X` segment when `gaps` is exhausted is past the end of the vector:
the behaviour is undefined and the outcome is `none`. -/
def count_Xs : List (List Char) → List Int → Nat → Nat → Option (Nat × Nat)
  | seg :: next :: rest, gaps, existing_Xs, additional_Xs =>
    if seg.all (fun c => c == 'X') then
      match gaps with
      | [] => none
      | gap :: gaps =>
        count_Xs (next :: rest) gaps ((existing_Xs + seg.length) % UINT)
          (to_unsigned ((additional_Xs : Int) + gap))
    else some (existing_Xs, additional_Xs)
  | _, _, existing_Xs, additional_Xs => some (existing_Xs, additional_Xs)

/-- The sum `gap_sum` of the gaps, in `unsigned int` arithmetic. -/
def gap_sum (gaps : List Int) : Nat :=
  gaps.foldl (fun s gap => to_unsigned ((s : Int) + gap)) 0

/-- The error budget `std::min(seq_len/2, std::max(seq_len/10, gap_sum))`. -/
def max_errs (seq_len gap_sum : Nat) : Nat :=
  min (seq_len / 2) (max (seq_len / 10) gap_sum)

/-- The compensation for leading `X`s: `additional_Xs` letters `X` are put in
front of `sr_seq` when it starts with the `existing_Xs` letters `X` counted;
`none` when the counting loop reads past the end of `ap.gaps`. -/
def pad_leading (ap : AssocParams) (sr_seq : List Char) : Option (List Char) :=
  match count_Xs ap.segments ap.gaps 0 0 with
  | none => none
  | some counted =>
    let existing_Xs := counted.1
    let additional_Xs := counted.2
    if existing_Xs ≠ 0 ∧ sr_seq.length ≥ existing_Xs
        ∧ (sr_seq.take existing_Xs).count 'X' = existing_Xs then
      some (List.replicate additional_Xs 'X' ++ sr_seq)
    else some sr_seq

/-- The compensation for trailing `X`s, on the reversed segments and gaps;
`none` when the counting loop reads past the end of `ap.gaps`. -/
def pad_trailing (ap : AssocParams) (sr_seq : List Char) : Option (List Char) :=
  match count_Xs ap.segments.reverse ap.gaps.reverse 0 0 with
  | none => none
  | some counted =>
    let existing_Xs := counted.1
    let additional_Xs := counted.2
    if existing_Xs ≠ 0 ∧ sr_seq.length ≥ existing_Xs
        ∧ (sr_seq.reverse.take existing_Xs).count 'X' = existing_Xs then
      some (sr_seq ++ List.replicate additional_Xs 'X')
    else some sr_seq

/-- The statement `if (ap.est_len < sr_seq.size()) ap.est_len = sr_seq.size();`. -/
def raise_est_len (ap : AssocParams) (size : Nat) : AssocParams :=
  if ap.est_len < size then { ap with est_len := size } else ap

/-- The end of the loop body of `make_chains`: the computation of `max_errs`,
the call of `try_assoc` and the update of the chain from its result. -/
def associate (E : SeqAssoc) (chain : Chain) (ap : AssocParams) (sr_seq : List Char) :
    ChainRecord :=
  let seq_len := chain.contents.length % UINT
  let budget := max_errs seq_len (gap_sum ap.gaps)
  let attempt := [ChainCall.estimate_assoc_params,
    ChainCall.try_assoc sr_seq ap.est_len budget]
  match E.try_assoc sr_seq chain ap budget with
  | none =>
    { chain := { chain with from_seqres := false },
      calls := attempt ++ [ChainCall.set_from_seqres false] }
  | some retvals =>
    { chain := { chain with
        from_seqres := true,
        residues := (List.range sr_seq.length).map retvals.pos_to_res,
        contents := sr_seq },
      calls := attempt ++ [ChainCall.set_from_seqres true] }

/-- The part of the loop body of `make_chains` that runs when the input
sequence record is longer than the chain; `none` when a counting loop reads
past the end of `ap.gaps`. -/
def adjust_from_seqres (E : SeqAssoc) (chain : Chain) (three_let_seq : List ResName) :
    Option ChainRecord :=
  let chain_size := chain.contents.length
  let sr_seq := three_let_seq.map E.rname3to1
  if (chain.contents.count 'X') % UINT = chain_size ∧ ¬ (chain.contents <:+: sr_seq) then
    some { chain := chain, calls := [ChainCall.warning_missing] }
  else
    let ap := E.estimate_assoc_params chain
    match pad_leading ap sr_seq with
    | none => none
    | some sr_seq =>
      match pad_trailing ap sr_seq with
      | none => none
      | some sr_seq => some (associate E chain (raise_est_len ap sr_seq.length) sr_seq)

/-- The body of the main loop of `make_chains` for one polymer: the chain it
forms and the calls it makes, or `none` when it reads past the end of `ap.gaps`. -/
def make_chain (E : SeqAssoc) (S : AtomicStructure) (unique_chain_id : ChainID → Option Bool)
    (polymer : List Residue) : Option ChainRecord :=
  let chain_id := S.chain_id (first_residue polymer)
  let chain := chain_from_structure E S chain_id polymer
  match S.input_seq_info.lookup chain_id with
  | none => some { chain := chain, calls := [] }
  | some three_let_seq =>
    if (unique_chain_id chain_id).getD false then
      let seqres_size := three_let_seq.length
      let chain_size := chain.contents.length
      if seqres_size = chain_size then
        some { chain := { chain with from_seqres := true },
               calls := [ChainCall.set_from_seqres true] }
      else if seqres_size < chain_size then
        some { chain := chain, calls := [ChainCall.warning_incomplete] }
      else adjust_from_seqres E chain three_let_seq
    else some { chain := chain, calls := [] }

/-- Method `AtomicStructure::make_chains()`: the new content of `_chains`, one
record per polymer, in order; `none` when the loop body of some polymer reads
past the end of `ap.gaps` (undefined behaviour). -/
def make_chains (E : SeqAssoc) (S : AtomicStructure) : Option (List ChainRecord) :=
  let polys := polymers S E.default_consider_missing_structure E.default_consider_chain_ids
  let unique_chain_id := build_unique_chain_id S polys
  polys.mapM (make_chain E S unique_chain_id)

/-! ## `AtomicStructure::_compute_structure_cats` -/

/-- The values of `Atom::StructCat` that `_compute_structure_cats` assigns. -/
inductive StructCat where
  | Main
  | Ligand
  | Ions
  | Solvent
  deriving DecidableEq, Repr

/-- The state `_compute_structure_cats` writes: the category of each atom
(`none` while `_set_structure_category` was not called on it) and the flag
`_structure_cats_dirty`. -/
structure CatState where
  cat : Atom → Option StructCat
  structure_cats_dirty : Bool

/-- Insertion into a `std::set` of pointers, kept in increasing order. -/
def set_insert (a : Nat) : List Nat → List Nat
  | [] => [a]
  | b :: l => if a < b then a :: b :: l else if b < a then b :: set_insert a l else b :: l

/-- Removal `erase(a)` from a `std::set` of pointers. -/
def set_erase (a : Nat) (l : List Nat) : List Nat := l.filter (fun b => b ≠ a)

/-- Assignment `m[k] = v` on a traversed `std::map`, kept in increasing key
order under the order `lt`. -/
def omap_insert {K V : Type} (lt : K → K → Bool) (k : K) (v : V) : List (K × V) → List (K × V)
  | [] => [(k, v)]
  | e :: m =>
    if lt k e.1 then (k, v) :: e :: m
    else if lt e.1 k then e :: omap_insert lt k v m
    else (k, v) :: m

/-- Statement `m[k].push_back(a)` on a traversed `std::map` of vectors. -/
def omap_push {K V : Type} (lt : K → K → Bool) (k : K) (a : V) :
    List (K × List V) → List (K × List V)
  | [] => [(k, [a])]
  | e :: m =>
    if lt k e.1 then (k, [a]) :: e :: m
    else if lt e.1 k then e :: omap_push lt k a m
    else (e.1, e.2 ++ [a]) :: m

/-- Order of pointers. -/
def ptr_lt (a b : Nat) : Bool := decide (a < b)

/-- Lexicographic order on character codes. -/
def lex_lt : List Nat → List Nat → Bool
  | [], [] => false
  | [], _ :: _ => true
  | _ :: _, [] => false
  | a :: as, b :: bs => if a < b then true else if b < a then false else lex_lt as bs

/-- Order of `std::string`. -/
def string_lt (s t : String) : Bool :=
  lex_lt (s.toList.map Char.toNat) (t.toList.map Char.toNat)

/-- The maps `group_lookup` (traversed, keyed by root atom) and `atom_to_root`. -/
structure GroupMaps where
  group_lookup : List (Atom × List Atom)
  atom_to_root : Atom → Option Atom

/-- One iteration of the loop over `bonded`; `grp[0]` of an empty group is
out of range and ends the run (`none`). -/
def group_step (m : GroupMaps) (grp : List Atom) : Option GroupMaps :=
  match grp with
  | [] => none
  | root :: _ =>
    some { group_lookup := omap_insert ptr_lt root grp m.group_lookup,
           atom_to_root := grp.foldl (fun f a => map_set f a (some root)) m.atom_to_root }

/-- The group `*(group_lookup[root])`; a key that is absent yields a null
pointer, and using it ends the run (`none`). -/
def group_of (group_lookup : List (Atom × List Atom)) (root : Atom) : Option (List Atom) :=
  group_lookup.lookup root

/-- The calls `a->_set_structure_category(c)` for every atom `a` of `atoms`. -/
def assign_atoms (c : StructCat) (atoms : List Atom) (cat : Atom → Option StructCat) :
    Atom → Option StructCat :=
  atoms.foldl (fun f a => map_set f a (some c)) cat

/-- One iteration of the loop "segregate into small solvents / other";
the state is `(small_solvents, root_set)`. -/
def segregate_step (S : AtomicStructure) (st : List Atom × List Atom)
    (root_grp : Atom × List Atom) : List Atom × List Atom :=
  let root := root_grp.1
  let grp := root_grp.2
  if grp.length < 4 ∧ S.res_name (S.atom_residue root) ∈ S.std_solvent_names then
    (st.1 ++ [root], st.2)
  else if grp.length = 1 ∧ (S.res_atoms (S.atom_residue root)).length = 1
      ∧ S.element_number root > 4 ∧ S.element_number root < 9 then
    (st.1 ++ [root], st.2)
  else (st.1, set_insert root st.2)

/-- One iteration of the loop collecting potential solvents by residue name. -/
def candidate_step (S : AtomicStructure) (group_lookup : List (Atom × List Atom))
    (solvents : List (String × List Atom)) (root : Atom) : Option (List (String × List Atom)) :=
  match group_of group_lookup root with
  | none => none
  | some grp =>
    if grp.length > 10 then some solvents
    else if grp.length ≠ (S.res_atoms (S.atom_residue root)).length then some solvents
    else some (omap_push string_lt (S.res_name (S.atom_residue root)) root solvents)

/-- One iteration of the loop choosing `(best_solvent_name, best_solvent_size)`. -/
def best_solvent_step (best : String × Nat) (sn_roots : String × List Atom) : String × Nat :=
  if sn_roots.2.length < best.2 then best else (sn_roots.1, sn_roots.2.length)

/-- One iteration of a loop `for (auto a: *(group_lookup[root])) a->_set_structure_category(c)`
over roots. -/
def assign_step (group_lookup : List (Atom × List Atom)) (c : StructCat)
    (cat : Atom → Option StructCat) (root : Atom) : Option (Atom → Option StructCat) :=
  match group_of group_lookup root with
  | none => none
  | some grp => some (assign_atoms c grp cat)

/-- One iteration of a loop that erases `root` from `root_set` and assigns
category `c` to the atoms of its group; the state is `(root_set, cat)`. -/
def erase_assign_step (group_lookup : List (Atom × List Atom)) (c : StructCat)
    (st : List Atom × (Atom → Option StructCat)) (root : Atom) :
    Option (List Atom × (Atom → Option StructCat)) :=
  match group_of group_lookup root with
  | none => none
  | some grp => some (set_erase root st.1, assign_atoms c grp st.2)

/-- One iteration of the first loop of "assign ions". -/
def single_ion_step (S : AtomicStructure) (group_lookup : List (Atom × List Atom))
    (ions : List Atom) (root : Atom) : Option (List Atom) :=
  match group_of group_lookup root with
  | none => none
  | some grp =>
    if grp.length = 1 then
      if S.element_number root > 1 ∧ S.is_noble_gas root = false then some (set_insert root ions)
      else some ions
    else some ions

/-- One iteration of the loop filling `seen_roots` from the atoms of a
residue; an atom without entry in `atom_to_root` yields a null root, whose
group is then used, which ends the run (`none`). -/
def seen_roots_step (atom_to_root : Atom → Option Atom) (seen_roots : List Atom) (a : Atom) :
    Option (List Atom) :=
  match atom_to_root a with
  | none => none
  | some rt => if rt ∈ seen_roots then some seen_roots else some (set_insert rt seen_roots)

/-- The loop counting heavy atoms, which stops once `num_heavys > 4`. -/
def count_heavys (S : AtomicStructure) : List Atom → Nat → Nat
  | [], num_heavys => num_heavys
  | a :: rest, num_heavys =>
    if S.element_number a > 1 then
      if num_heavys + 1 > 4 then num_heavys + 1 else count_heavys S rest (num_heavys + 1)
    else count_heavys S rest num_heavys

/-- One iteration of the loop "add segments of less than 5 heavy atoms". -/
def add_segment_step (S : AtomicStructure) (group_lookup : List (Atom × List Atom))
    (ions : List Atom) (rt : Atom) : Option (List Atom) :=
  if rt ∈ ions then some ions
  else
    match group_of group_lookup rt with
    | none => none
    | some grp => if count_heavys S grp 0 < 5 then some (set_insert rt ions) else some ions

/-- One iteration of the loop over `ions_copy`; the state is `(checked_residues, ions)`. -/
def expand_ion_step (S : AtomicStructure) (m : GroupMaps) (st : List Residue × List Atom)
    (root : Atom) : Option (List Residue × List Atom) :=
  match group_of m.group_lookup root with
  | none => none
  | some grp =>
    if grp.length = (S.res_atoms (S.atom_residue root)).length then some st
    else if S.atom_residue root ∈ st.1 then some st
    else
      match (S.res_atoms (S.atom_residue root)).foldlM (seen_roots_step m.atom_to_root) [root] with
      | none => none
      | some seen_roots =>
        match seen_roots.foldlM (add_segment_step S m.group_lookup) st.2 with
        | none => none
        | some ions => some (set_insert (S.atom_residue root) st.1, ions)

/-- One iteration of the loop "find longest chain"; `none` is the null pointer. -/
def longest_step (group_lookup : List (Atom × List Atom)) (longest : Option (List Atom))
    (root : Atom) : Option (Option (List Atom)) :=
  match group_of group_lookup root with
  | none => none
  | some grp =>
    match longest with
    | none => some (some grp)
    | some l => if grp.length > l.length then some (some grp) else some (some l)

/-- The `std::set` of the residues of the atoms of a group. -/
def residues_of (S : AtomicStructure) (grp : List Atom) : List Residue :=
  grp.foldl (fun rs a => set_insert (S.atom_residue a) rs) []

/-- One iteration of the loop collecting `ligands`. -/
def ligand_step (S : AtomicStructure) (group_lookup : List (Atom × List Atom))
    (ligand_cutoff : Nat) (ligands : List Atom) (root : Atom) : Option (List Atom) :=
  match group_of group_lookup root with
  | none => none
  | some grp =>
    if grp.length < ligand_cutoff then
      if (residues_of S grp).length < 10 then
        let long_chain :=
          match S.res_chain (S.atom_residue root) with
          | none => false
          | some chain => if (S.chain_residues chain).length < 10 then false else true
        if long_chain = false then some (ligands ++ [root]) else some ligands
      else some ligands
    else some ligands

/-- The `std::set` `root_chains` of the chains of a set of residues. -/
def chains_of (S : AtomicStructure) (root_residues : List Residue) : List ChainPtr :=
  root_residues.foldl
    (fun cs r => match S.res_chain r with
      | none => cs
      | some chain => set_insert chain cs) []

/-- The `std::set` `seq_residues` of the non-null residues of a set of chains. -/
def seq_residues_of (S : AtomicStructure) (root_chains : List ChainPtr) : List Residue :=
  root_chains.foldl
    (fun rs chain => (S.chain_residues chain).foldl
      (fun rs r => match r with
        | none => rs
        | some r => set_insert r rs) rs) []

/-- One iteration of the loop "remainder in main category". -/
def main_step (S : AtomicStructure) (group_lookup : List (Atom × List Atom))
    (cat : Atom → Option StructCat) (root : Atom) : Option (Atom → Option StructCat) :=
  match group_of group_lookup root with
  | none => none
  | some grp =>
    let cat := assign_atoms StructCat.Main grp cat
    let root_residues := residues_of S grp
    let seq_residues := seq_residues_of S (chains_of S root_residues)
    if seq_residues.isEmpty then some cat
    else
      let bound := root_residues.filter (fun r => r ∉ seq_residues)
      some (bound.foldl (fun f br => assign_atoms StructCat.Ligand (S.res_atoms br) f) cat)

/-- The loop over `bonded` that fills `group_lookup` and `atom_to_root`. -/
def build_group_maps (bonded : List (List Atom)) : Option GroupMaps :=
  bonded.foldlM group_step { group_lookup := [], atom_to_root := fun _ => none }

/-- The small solvents and the initial `root_set`, as `(small_solvents, root_set)`. -/
def segregate (S : AtomicStructure) (group_lookup : List (Atom × List Atom)) :
    List Atom × List Atom :=
  group_lookup.foldl (segregate_step S) ([], [])

/-- The map `solvents` after the potential solvents were collected. -/
def solvent_candidates (S : AtomicStructure) (group_lookup : List (Atom × List Atom))
    (small_solvents root_set : List Atom) : Option (List (String × List Atom)) :=
  root_set.foldlM (candidate_step S group_lookup)
    (omap_insert string_lt "small solvents" small_solvents [])

/-- The value of `best_solvent_name` after the loop over `solvents`. -/
def best_solvent_name (solvents : List (String × List Atom)) : String :=
  (solvents.foldl best_solvent_step ("", 10)).1

/-- The section "determine/assign solvent" (with the segregation before it):
returns `root_set` and the categories after it. -/
def assign_solvent (S : AtomicStructure) (group_lookup : List (Atom × List Atom))
    (cat : Atom → Option StructCat) : Option (List Atom × (Atom → Option StructCat)) :=
  let small_solvents := (segregate S group_lookup).1
  let root_set := (segregate S group_lookup).2
  match solvent_candidates S group_lookup small_solvents root_set with
  | none => none
  | some solvents =>
    match small_solvents.foldlM (assign_step group_lookup StructCat.Solvent) cat with
    | none => none
    | some cat =>
      if best_solvent_name solvents ≠ "" ∧ best_solvent_name solvents ≠ "small solvents" then
        ((solvents.lookup (best_solvent_name solvents)).getD []).foldlM
          (erase_assign_step group_lookup StructCat.Solvent) (root_set, cat)
      else some (root_set, cat)

/-- The set `ions` when the loop that assigns the category `Ions` starts. -/
def collect_ions (S : AtomicStructure) (m : GroupMaps) (root_set : List Atom) :
    Option (List Atom) :=
  match root_set.foldlM (single_ion_step S m.group_lookup) [] with
  | none => none
  | some ions =>
    if S.num_bonds > 0 then
      match ions.foldlM (expand_ion_step S m) ([], ions) with
      | none => none
      | some st => some st.2
    else some ions

/-- The section "assign ions": returns `root_set` and the categories after it. -/
def assign_ions (S : AtomicStructure) (m : GroupMaps)
    (st : List Atom × (Atom → Option StructCat)) :
    Option (List Atom × (Atom → Option StructCat)) :=
  match collect_ions S m st.1 with
  | none => none
  | some ions => ions.foldlM (erase_assign_step m.group_lookup StructCat.Ions) st

/-- The value of `ligand_cutoff`. -/
def ligand_cutoff (group_lookup : List (Atom × List Atom)) (root_set : List Atom) :
    Option Nat :=
  match root_set.foldlM (longest_step group_lookup) none with
  | none => none
  | some longest => some (min ((longest.getD []).length / 4) 250)

/-- The vector `ligands`. -/
def collect_ligands (S : AtomicStructure) (group_lookup : List (Atom × List Atom))
    (root_set : List Atom) : Option (List Atom) :=
  match ligand_cutoff group_lookup root_set with
  | none => none
  | some cutoff => root_set.foldlM (ligand_step S group_lookup cutoff) []

/-- The sections "assign ligand" and "remainder in main category": returns the
categories after them. -/
def assign_ligand_main (S : AtomicStructure) (group_lookup : List (Atom × List Atom))
    (st : List Atom × (Atom → Option StructCat)) : Option (Atom → Option StructCat) :=
  match collect_ligands S group_lookup st.1 with
  | none => none
  | some ligands =>
    match ligands.foldlM (erase_assign_step group_lookup StructCat.Ligand) st with
    | none => none
    | some st1 => st1.1.foldlM (main_step S group_lookup) st1.2

/-- Method `AtomicStructure::_compute_structure_cats()`, with `bonded` the
result of `bonded_groups(&bonded, true)` and `st` the state before the call.
The outcome is `none` when the run uses an out-of-range index or a null
pointer. -/
def _compute_structure_cats (S : AtomicStructure) (bonded : List (List Atom))
    (st : CatState) : Option CatState :=
  match build_group_maps bonded with
  | none => none
  | some m =>
    match assign_solvent S m.group_lookup st.cat with
    | none => none
    | some st1 =>
      match assign_ions S m st1 with
      | none => none
      | some st2 =>
        if st2.1.isEmpty then
          some { cat := st2.2, structure_cats_dirty := false }
        else
          match assign_ligand_main S m.group_lookup st2 with
          | none => none
          | some cat => some { cat := cat, structure_cats_dirty := false }

end atomstruct

/-! ## `sb_pbg_map` of `StructBlob` -/

namespace blob

end blob

namespace atomstruct

/-! ## Predicates used to state the properties of `polymers` -/

/-- Predicate `IsRunDecomposition l ps`: the lists of `ps` are non-empty, pairwise
non-overlapping contiguous runs of `l`, in the order in which they occur in
`l`: `l = gap₀ ++ p₁ ++ gap₁ ++ p₂ ++ ... ++ pₙ ++ gapₙ`. -/
def IsRunDecomposition : List Residue → List (List Residue) → Prop
  | _, [] => True
  | l, p :: ps => p ≠ [] ∧ ∃ gap rest, l = gap ++ p ++ rest ∧ IsRunDecomposition rest ps

/-- Predicate `ListAdjacent l a b`: `a` and `b` occupy neighbouring positions of `l`, in
either order. -/
def ListAdjacent (l : List Residue) (a b : Residue) : Prop :=
  ∃ u v, l = u ++ a :: b :: v ∨ l = u ++ b :: a :: v

/-! ## A small structure used to instantiate the theorems -/

/-- Five atoms `0 .. 4` and five residues `10 .. 14`, the atom `a` being the
only atom of residue `a + 10`;
residues `10 .. 12` are in chain `A`, the others in chain `B`. Polymeric bonds
join `10`-`11` and `13`-`14`, a missing-structure pseudobond joins `12` and `11`. -/
def example_structure : AtomicStructure :=
  { atoms := [0, 1, 2, 3, 4],
    residues := [10, 11, 12, 13, 14],
    bonds := [{ polymeric_start_atom := some 0, other_atom := fun _ => 1 },
              { polymeric_start_atom := some 3, other_atom := fun _ => 4 }],
    missing_structure := some [(2, 1)],
    atom_residue := fun a => a + 10,
    element_number := fun _ => 6,
    is_noble_gas := fun _ => false,
    res_name := fun _ => "ALA",
    res_atoms := fun r => [r - 10],
    chain_id := fun r => if r < 13 then "A" else "B",
    res_chain := fun _ => none,
    chain_residues := fun _ => [],
    input_seq_info := [("A", ["ALA", "ALA", "ALA"]), ("B", ["ALA"])],
    std_solvent_names := ["HOH"] }

/-- The structure `example_structure` with all residues in chain `A`: its two
polymers `[10, 11, 12]` and `[13, 14]` share the chain ID. -/
def example_structure_one_chain : AtomicStructure :=
  { example_structure with chain_id := fun _ => "A" }

/-- A sequence-association environment: every residue name has letter `A`,
no gaps are estimated, and the alignment always fails. -/
def example_seq_assoc : SeqAssoc :=
  { rname3to1 := fun _ => 'A',
    estimate_assoc_params := fun _ => { est_len := 0, segments := [], gaps := [] },
    try_assoc := fun _ _ _ _ => none,
    default_consider_missing_structure := true,
    default_consider_chain_ids := true }

/-- Twenty atoms `0 .. 19` and twenty residues `100 .. 119` of chain `A`, the atom `a`
being the only atom of residue `a + 100`; polymeric bonds join consecutive
residues, and the input sequence record of chain `A` has 25 names. -/
def example_gapped_structure : AtomicStructure :=
  { atoms := List.range 20,
    residues := List.range' 100 20,
    bonds := (List.range 19).map
      (fun k => { polymeric_start_atom := some k, other_atom := fun _ => k + 1 }),
    missing_structure := none,
    atom_residue := fun a => a + 100,
    element_number := fun _ => 6,
    is_noble_gas := fun _ => false,
    res_name := fun _ => "ALA",
    res_atoms := fun r => [r - 100],
    chain_id := fun _ => "A",
    res_chain := fun _ => none,
    chain_residues := fun _ => [],
    input_seq_info := [("A", List.replicate 25 "ALA")],
    std_solvent_names := ["HOH"] }

/-- A sequence-association environment: every residue name has letter `A`, the
chain is estimated as two segments of 8 and 12 letters with a gap of 5 between
them, and the alignment always fails. -/
def example_gapped_assoc : SeqAssoc :=
  { rname3to1 := fun _ => 'A',
    estimate_assoc_params := fun _ =>
      { est_len := 25,
        segments := [List.replicate 8 'A', List.replicate 12 'A'],
        gaps := [5] },
    try_assoc := fun _ _ _ _ => none,
    default_consider_missing_structure := true,
    default_consider_chain_ids := true }

/-- The environment `example_gapped_assoc` with a first segment of letters `X` and no
estimated gap. -/
def example_gapless_assoc : SeqAssoc :=
  { example_gapped_assoc with
    estimate_assoc_params := fun _ =>
      { est_len := 25,
        segments := [List.replicate 8 'X', List.replicate 12 'A'],
        gaps := [] } }

/-! ## Predicates used to state the invariants of `_compute_structure_cats` -/

/-- A root is a key of `group_lookup`. -/
def HasGroup (group_lookup : List (Atom × List Atom)) (r : Atom) : Prop :=
  ∃ g, group_of group_lookup r = some g

/-- Categories only get assigned, never removed. -/
def CatMono (cat cat' : Atom → Option StructCat) : Prop :=
  ∀ a, cat a ≠ none → cat' a ≠ none

/-- Every atom of the group of root `r` has a category. -/
def Covered (group_lookup : List (Atom × List Atom)) (cat : Atom → Option StructCat)
    (r : Atom) : Prop :=
  ∀ g, group_of group_lookup r = some g → ∀ a ∈ g, cat a ≠ none

/-- What the loop over `bonded` guarantees for the groups `G` processed so far. -/
def GroupMapsFor (G : List (List Atom)) (m : GroupMaps) : Prop :=
  (∀ g ∈ G, ∃ r, g.head? = some r ∧ group_of m.group_lookup r = some g)
  ∧ (∀ r, HasGroup m.group_lookup r → ∃ g ∈ G, g.head? = some r)
  ∧ (∀ g ∈ G, ∀ a ∈ g, ∃ rt, m.atom_to_root a = some rt ∧ HasGroup m.group_lookup rt)

/-- Invariant of the loops that move roots out of `root_set`: the roots left
are keys of `group_lookup`, and the group of every key that is no longer in
`root_set` has its atoms categorised. -/
def CatInv (group_lookup : List (Atom × List Atom))
    (st : List Atom × (Atom → Option StructCat)) : Prop :=
  (∀ r ∈ st.1, HasGroup group_lookup r)
  ∧ (∀ r, HasGroup group_lookup r → r ∈ st.1 ∨ Covered group_lookup st.2 r)

/-- A structure with a water molecule (atoms `1 .. 3`, residue `100`), a sodium
ion (atom `4`, residue `101`), a chain of sixteen carbon atoms (atoms `5 .. 20`,
residue `102`) and a two-atom ligand (atoms `21`, `22`, residue `103`). -/
def example_molecule : AtomicStructure :=
  { atoms := List.range' 1 22,
    residues := [100, 101, 102, 103],
    bonds := [{ polymeric_start_atom := none, other_atom := fun _ => 1 }],
    missing_structure := none,
    atom_residue := fun a =>
      if a ≤ 3 then 100 else if a = 4 then 101 else if a ≤ 20 then 102 else 103,
    element_number := fun a => if a = 4 then 11 else 6,
    is_noble_gas := fun _ => false,
    res_name := fun r =>
      if r = 100 then "HOH" else if r = 101 then "NA" else if r = 102 then "ALA" else "LIG",
    res_atoms := fun r =>
      if r = 100 then [1, 2, 3] else if r = 101 then [4]
      else if r = 102 then List.range' 5 16 else [21, 22],
    chain_id := fun _ => "A",
    res_chain := fun _ => none,
    chain_residues := fun _ => [],
    input_seq_info := [],
    std_solvent_names := ["HOH", "WAT"] }

/-- The bonded groups of `example_molecule`. -/
def example_bonded : List (List Atom) := [[1, 2, 3], [4], List.range' 5 16, [21, 22]]

/-! ## Intermediate values of `_compute_structure_cats` -/

/-- The set `root_set` when the section "assign ligand" starts: the roots
remaining after solvent and ion assignment. -/
def remaining_roots (S : AtomicStructure) (m : GroupMaps) (cat : Atom → Option StructCat) :
    Option (List Atom) :=
  match assign_solvent S m.group_lookup cat with
  | none => none
  | some st1 =>
    match assign_ions S m st1 with
    | none => none
    | some st2 => some st2.1

/-- The maps `group_lookup` and `atom_to_root` of `example_molecule` with `example_bonded`. -/
def example_group_maps : GroupMaps :=
  { group_lookup := [(1, [1, 2, 3]), (4, [4]), (5, List.range' 5 16), (21, [21, 22])],
    atom_to_root := fun a =>
      if a = 0 then none else if a ≤ 3 then some 1 else if a = 4 then some 4
      else if a ≤ 20 then some 5 else if a ≤ 22 then some 21 else none }

/-- The roots erased from `root_set` and assigned `Solvent` on account of the
best solvent name (none when the name is empty or is "small solvents"). -/
def best_solvent_roots (solvents : List (String × List Atom)) : List Atom :=
  if best_solvent_name solvents ≠ "" ∧ best_solvent_name solvents ≠ "small solvents" then
    (solvents.lookup (best_solvent_name solvents)).getD []
  else []

/-- Predicate `RunStages S m cat final solvents cat1 st1 ions st2`: the values that a run
of `_compute_structure_cats` with maps `m`, from categories `cat` to categories
`final`, passes through: the map `solvents`, the categories `cat1` after the
small solvents, the state `st1` after the solvent section, the set `ions`, and
the state `st2` after the ion section; states are `(root_set, categories)`. -/
def RunStages (S : AtomicStructure) (m : GroupMaps) (cat final : Atom → Option StructCat)
    (solvents : List (String × List Atom)) (cat1 : Atom → Option StructCat)
    (st1 : List Atom × (Atom → Option StructCat)) (ions : List Atom)
    (st2 : List Atom × (Atom → Option StructCat)) : Prop :=
  solvent_candidates S m.group_lookup (segregate S m.group_lookup).1
      (segregate S m.group_lookup).2 = some solvents
  ∧ (segregate S m.group_lookup).1.foldlM (assign_step m.group_lookup StructCat.Solvent) cat
      = some cat1
  ∧ (best_solvent_roots solvents).foldlM (erase_assign_step m.group_lookup StructCat.Solvent)
      ((segregate S m.group_lookup).2, cat1) = some st1
  ∧ assign_solvent S m.group_lookup cat = some st1
  ∧ collect_ions S m st1.1 = some ions
  ∧ ions.foldlM (erase_assign_step m.group_lookup StructCat.Ions) st1 = some st2
  ∧ ((st2.1 = [] ∧ final = st2.2)
    ∨ (st2.1 ≠ [] ∧ ∃ ligands st3,
        collect_ligands S m.group_lookup st2.1 = some ligands
        ∧ ligands.foldlM (erase_assign_step m.group_lookup StructCat.Ligand) st2 = some st3
        ∧ st3.1.foldlM (main_step S m.group_lookup) st3.2 = some final))

/-- Predicate `SmallSolvent S root grp`: the test that puts the group `grp` with
root atom `root` among the small solvents: fewer than 4 atoms and a standard
solvent name of the root's residue, or a single atom that is the only atom
of its residue and has atomic number 5 to 8. -/
def SmallSolvent (S : AtomicStructure) (root : Atom) (grp : List Atom) : Prop :=
  (grp.length < 4 ∧ S.res_name (S.atom_residue root) ∈ S.std_solvent_names)
  ∨ (grp.length = 1 ∧ (S.res_atoms (S.atom_residue root)).length = 1
      ∧ S.element_number root > 4 ∧ S.element_number root < 9)

/-- Predicate `SortedKeys m`: the keys of a traversed map increase strictly. -/
def SortedKeys {V : Type} (m : List (Nat × V)) : Prop :=
  m.Pairwise (fun e1 e2 => e1.1 < e2.1)

/-- Predicate `Permitted Φ cat a`: atom `a` has a category, and it is one that
`Φ` permits for `a`. -/
def Permitted (Φ : Atom → StructCat → Prop) (cat : Atom → Option StructCat) (a : Atom) :
    Prop :=
  ∃ c, cat a = some c ∧ Φ a c

/-- The test `SmallSolvent` can be evaluated. -/
instance SmallSolvent.decidable (S : AtomicStructure) (root : Atom) (grp : List Atom) :
    Decidable (SmallSolvent S root grp) := by
  unfold SmallSolvent
  exact inferInstance

/-! ## Structures on which later sections overwrite an earlier category -/

/-- A water oxygen (atom `1`, residue `100` named `HOH`) bonded to a carbon (atom `2`) of
residue `101`, which also holds an unbonded sodium ion (atom `3`). -/
def example_bound_water : AtomicStructure :=
  { atoms := [1, 2, 3],
    residues := [100, 101],
    bonds := [{ polymeric_start_atom := none, other_atom := fun _ => 2 }],
    missing_structure := none,
    atom_residue := fun a => if a = 1 then 100 else 101,
    element_number := fun a => if a = 1 then 8 else if a = 2 then 6 else 11,
    is_noble_gas := fun _ => false,
    res_name := fun r => if r = 100 then "HOH" else "FOO",
    res_atoms := fun r => if r = 100 then [1] else [2, 3],
    chain_id := fun _ => "A",
    res_chain := fun _ => none,
    chain_residues := fun _ => [],
    input_seq_info := [],
    std_solvent_names := ["HOH"] }

/-- The bonded groups of `example_bound_water`. -/
def example_bound_water_groups : List (List Atom) := [[1, 2], [3]]

/-- A chain residue `200` (atoms `1 .. 7`, in chain `1`) bonded to atom `8` of a heme-like
residue `201` that belongs to no chain and also holds an unbonded iron atom `9`. -/
def example_bound_heme : AtomicStructure :=
  { atoms := List.range' 1 9,
    residues := [200, 201],
    bonds := [{ polymeric_start_atom := none, other_atom := fun _ => 2 }],
    missing_structure := none,
    atom_residue := fun a => if a ≤ 7 then 200 else 201,
    element_number := fun a => if a = 9 then 26 else 6,
    is_noble_gas := fun _ => false,
    res_name := fun r => if r = 200 then "CYS" else "HEM",
    res_atoms := fun r => if r = 200 then List.range' 1 7 else [8, 9],
    chain_id := fun _ => "A",
    res_chain := fun r => if r = 200 then some 1 else none,
    chain_residues := fun _ => [some 200],
    input_seq_info := [],
    std_solvent_names := ["HOH"] }

/-- The bonded groups of `example_bound_heme`. -/
def example_bound_heme_groups : List (List Atom) := [List.range' 1 8, [9]]

/-- The set `root_set` when the section "assign ions" starts, and the set `ions`
when the loop that assigns category `Ions` starts. -/
def ion_section_sets (S : AtomicStructure) (bonded : List (List Atom))
    (cat : Atom → Option StructCat) : Option (List Atom × List Atom) :=
  match build_group_maps bonded with
  | none => none
  | some m =>
    match assign_solvent S m.group_lookup cat with
    | none => none
    | some st1 =>
      match collect_ions S m st1.1 with
      | none => none
      | some ions => some (st1.1, ions)

/-- Test `potential_solvent S group_lookup root`: the test by which the loop
over `root_set` takes a root as a potential solvent: its group has at most
10 atoms and as many atoms as the root's residue. -/
def potential_solvent (S : AtomicStructure) (group_lookup : List (Atom × List Atom))
    (root : Atom) : Bool :=
  match group_of group_lookup root with
  | none => false
  | some grp =>
    decide (¬ grp.length > 10 ∧ ¬ grp.length ≠ (S.res_atoms (S.atom_residue root)).length)

/-- Predicate `CandidateRoot S bonded n r`: atom `r` is the root of a bonded group
that is not a small solvent, has at most 10 atoms and as many atoms as the
residue of `r`, and that residue has name `n`. -/
def CandidateRoot (S : AtomicStructure) (bonded : List (List Atom)) (n : String)
    (r : Atom) : Prop :=
  ∃ g ∈ bonded, g.head? = some r ∧ ¬ SmallSolvent S r g ∧ g.length ≤ 10
    ∧ g.length = (S.res_atoms (S.atom_residue r)).length
    ∧ S.res_name (S.atom_residue r) = n

/-- Ten unbonded xenon atoms `1 .. 10`, each the only atom of its residue (`301 .. 310`,
named `XE`), and a water molecule (atoms `11, 12, 13`, residue `400` named `HOH`). -/
def example_solvent_box : AtomicStructure :=
  { atoms := List.range' 1 13,
    residues := List.range' 301 10 ++ [400],
    bonds := [{ polymeric_start_atom := none, other_atom := fun _ => 11 },
              { polymeric_start_atom := none, other_atom := fun _ => 11 }],
    missing_structure := none,
    atom_residue := fun a => if a ≤ 10 then 300 + a else 400,
    element_number := fun a => if a ≤ 10 then 54 else if a = 11 then 8 else 1,
    is_noble_gas := fun a => decide (a ≤ 10),
    res_name := fun r => if r = 400 then "HOH" else "XE",
    res_atoms := fun r => if r = 400 then [11, 12, 13] else [r - 300],
    chain_id := fun _ => "A",
    res_chain := fun _ => none,
    chain_residues := fun _ => [],
    input_seq_info := [],
    std_solvent_names := ["HOH"] }

/-- The bonded groups of `example_solvent_box`. -/
def example_solvent_box_groups : List (List Atom) :=
  (List.range' 1 10).map (fun a => [a]) ++ [[11, 12, 13]]

end atomstruct
namespace blob

end blob

namespace atomstruct

/-! ## Lemmas about the loops of `polymers` -/

theorem map_set_same {α β : Type} [DecidableEq α] (m : α → β) (k : α) (v : β) :
    map_set m k v k = v := by
  simp [map_set]

theorem map_set_other {α β : Type} [DecidableEq α] (m : α → β) (k x : α) (v : β) (h : x ≠ k) :
    map_set m k v x = m x := by
  simp [map_set, h]

theorem res_lookup_foldl (r : Residue) :
    ∀ (l : List Residue) (st : ResLookupState),
      (r ∉ l → (l.foldl res_lookup_step st).res_lookup r = st.res_lookup r) ∧
      (l.Nodup → r ∈ l →
        (l.foldl res_lookup_step st).res_lookup r = st.i + (l.indexOf r : Int)) := by
  intro l
  induction l with
  | nil => intro st; simp
  | cons a l ih =>
    intro st
    have ih1 := ih (res_lookup_step st a)
    constructor
    · intro hr
      have hra : r ≠ a := fun h => hr (by simp [h])
      have hrl : r ∉ l := fun h => hr (by simp [h])
      rw [List.foldl_cons, ih1.1 hrl]
      simp [res_lookup_step, map_set, hra]
    · intro hnd hr
      rw [List.foldl_cons]
      have hnd' := List.nodup_cons.mp hnd
      by_cases hra : r = a
      · subst hra
        rw [ih1.1 hnd'.1]
        simp [res_lookup_step, map_set]
      · have hrl : r ∈ l := by
          rcases List.mem_cons.mp hr with h | h
          · exact absurd h hra
          · exact h
        rw [ih1.2 hnd'.2 hrl, List.indexOf_cons_ne _ (Ne.symm hra)]
        simp [res_lookup_step]
        ring

theorem build_res_lookup_not_mem (l : List Residue) (r : Residue) (h : r ∉ l) :
    build_res_lookup l r = 0 := by
  unfold build_res_lookup
  rw [(res_lookup_foldl r l _).1 h]

theorem build_res_lookup_mem (l : List Residue) (r : Residue) (hnd : l.Nodup) (h : r ∈ l) :
    build_res_lookup l r = (l.indexOf r : Int) := by
  unfold build_res_lookup
  rw [(res_lookup_foldl r l _).2 hnd h]
  simp

theorem indexOf_append_cons (u v : List Residue) (x : Residue) (hnd : (u ++ x :: v).Nodup) :
    (u ++ x :: v).indexOf x = u.length := by
  have hx : x ∉ u := by
    intro h
    have := List.nodup_append.mp hnd
    exact this.2.2 h (by simp)
  rw [List.indexOf_append_of_not_mem hx]
  simp

theorem bond_step_linked (S : AtomicStructure) (rl : Residue → Int)
    (c : Residue → Option Bool) (b : Bond) (x : Residue)
    (h : bond_step S true rl c b x ≠ none) :
    c x ≠ none ∨ ∃ r, rl x + 1 = rl r ∧ S.chain_id x = S.chain_id r := by
  unfold bond_step at h
  cases hps : b.polymeric_start_atom with
  | none => rw [hps] at h; exact Or.inl h
  | some start =>
    rw [hps] at h
    simp only at h
    by_cases hcond : rl (S.atom_residue start) + 1 = rl (S.atom_residue (b.other_atom start))
        ∧ (true = false ∨ S.chain_id (S.atom_residue start)
          = S.chain_id (S.atom_residue (b.other_atom start)))
    · rw [if_pos hcond] at h
      by_cases hx : x = S.atom_residue start
      · right
        refine ⟨S.atom_residue (b.other_atom start), ?_, ?_⟩
        · rw [hx]; exact hcond.1
        · rw [hx]
          rcases hcond.2 with h2 | h2
          · exact absurd h2 (by decide)
          · exact h2
      · left
        rw [map_set_other _ _ _ _ hx] at h
        exact h
    · rw [if_neg hcond] at h
      exact Or.inl h

theorem pseudobond_step_linked (S : AtomicStructure) (rl : Residue → Int)
    (c : Residue → Option Bool) (pb : Pseudobond) (x : Residue)
    (h : pseudobond_step S rl c pb x ≠ none) :
    c x ≠ none ∨ ∃ r, rl x + 1 = rl r ∧ S.chain_id x = S.chain_id r := by
  unfold pseudobond_step at h
  by_cases hcond : |rl (S.atom_residue pb.1) - rl (S.atom_residue pb.2)| = 1
      ∧ S.chain_id (S.atom_residue pb.1) = S.chain_id (S.atom_residue pb.2)
  · rw [if_pos hcond] at h
    have habs := hcond.1
    rw [abs_eq (by norm_num)] at habs
    by_cases hlt : rl (S.atom_residue pb.1) < rl (S.atom_residue pb.2)
    · rw [if_pos hlt] at h
      by_cases hx : x = S.atom_residue pb.1
      · right
        refine ⟨S.atom_residue pb.2, ?_, ?_⟩
        · rw [hx]; omega
        · rw [hx]; exact hcond.2
      · left
        rw [map_set_other _ _ _ _ hx] at h
        exact h
    · rw [if_neg hlt] at h
      by_cases hx : x = S.atom_residue pb.2
      · right
        refine ⟨S.atom_residue pb.1, ?_, ?_⟩
        · rw [hx]; omega
        · rw [hx]; exact hcond.2.symm
      · left
        rw [map_set_other _ _ _ _ hx] at h
        exact h
  · rw [if_neg hcond] at h
    exact Or.inl h

/-- After the loops over bonds and pseudobonds with `consider_chain_ids = true`,
a key of `connected` has index one less than some residue with the same chain ID. -/
theorem polymers_connected_linked (S : AtomicStructure) (cms : Bool) (x : Residue)
    (h : polymers_connected S cms true x ≠ none) :
    ∃ r, build_res_lookup S.residues x + 1 = build_res_lookup S.residues r
      ∧ S.chain_id x = S.chain_id r := by
  have hb : ∀ (bs : List Bond) (c : Residue → Option Bool),
      (bs.foldl (bond_step S true (build_res_lookup S.residues)) c) x ≠ none →
      c x ≠ none ∨ ∃ r, build_res_lookup S.residues x + 1 = build_res_lookup S.residues r
        ∧ S.chain_id x = S.chain_id r := by
    intro bs
    induction bs with
    | nil => intro c hc; exact Or.inl hc
    | cons b bs ih =>
      intro c hc
      rw [List.foldl_cons] at hc
      rcases ih _ hc with h1 | h1
      · exact bond_step_linked S _ c b x h1
      · exact Or.inr h1
  have hp : ∀ (pbs : List Pseudobond) (c : Residue → Option Bool),
      (pbs.foldl (pseudobond_step S (build_res_lookup S.residues)) c) x ≠ none →
      c x ≠ none ∨ ∃ r, build_res_lookup S.residues x + 1 = build_res_lookup S.residues r
        ∧ S.chain_id x = S.chain_id r := by
    intro pbs
    induction pbs with
    | nil => intro c hc; exact Or.inl hc
    | cons pb pbs ih =>
      intro c hc
      rw [List.foldl_cons] at hc
      rcases ih _ hc with h1 | h1
      · exact pseudobond_step_linked S _ c pb x h1
      · exact Or.inr h1
  have hbonds := hb S.bonds (fun _ => none)
  unfold polymers_connected at h
  cases cms with
  | false =>
    simp only [Bool.false_eq_true, if_false] at h
    rcases hbonds h with h1 | h1
    · exact absurd rfl h1
    · exact h1
  | true =>
    simp only [if_true] at h
    cases hms : S.missing_structure with
    | none =>
      rw [hms] at h
      rcases hbonds h with h1 | h1
      · exact absurd rfl h1
      · exact h1
    | some pbs =>
      rw [hms] at h
      rcases hp _ _ h with h1 | h1
      · rcases hbonds h1 with h2 | h2
        · exact absurd rfl h2
        · exact h2
      · exact h1

/-- With distinct residues, a key of `connected` has the same chain ID as the residue after it
in the list. -/
theorem polymers_connected_next (S : AtomicStructure) (cms : Bool) (hnd : S.residues.Nodup)
    (u v : List Residue) (x y : Residue) (hl : S.residues = u ++ x :: y :: v)
    (h : polymers_connected S cms true x ≠ none) :
    S.chain_id x = S.chain_id y := by
  obtain ⟨r, hr, hid⟩ := polymers_connected_linked S cms x h
  have hxm : x ∈ S.residues := by rw [hl]; simp
  have hym : y ∈ S.residues := by rw [hl]; simp
  have hx : build_res_lookup S.residues x = (u.length : Int) := by
    rw [build_res_lookup_mem _ _ hnd hxm]
    have := indexOf_append_cons u (y :: v) x (hl ▸ hnd)
    rw [hl, this]
  have hy : build_res_lookup S.residues y = (u.length : Int) + 1 := by
    rw [build_res_lookup_mem _ _ hnd hym]
    have hl' : S.residues = (u ++ [x]) ++ y :: v := by rw [hl]; simp
    have := indexOf_append_cons (u ++ [x]) v y (hl' ▸ hnd)
    rw [hl', this]
    simp
  have hrm : r ∈ S.residues := by
    by_contra hn
    rw [build_res_lookup_not_mem _ _ hn, hx] at hr
    omega
  have hri : build_res_lookup S.residues r = build_res_lookup S.residues y := by
    rw [← hr, hx, hy]
  rw [build_res_lookup_mem _ _ hnd hrm, build_res_lookup_mem _ _ hnd hym] at hri
  have : r = y := (List.indexOf_inj hrm hym).mp (by exact_mod_cast hri)
  rw [← this]
  exact hid

theorem polymers_walk_cons (c : Residue → Option Bool) (r : Residue) (rs : List Residue)
    (st : PolyState) :
    polymers_walk c (r :: rs) st = polymers_walk c rs (poly_step c st r) := by
  simp [polymers_walk]

theorem isRunDecomposition_cons (a : Residue) (l : List Residue) (Q : List (List Residue))
    (h : IsRunDecomposition l Q) : IsRunDecomposition (a :: l) Q := by
  cases Q with
  | nil => trivial
  | cons p ps =>
    obtain ⟨hp, gap, rest, hl, hrest⟩ := h
    exact ⟨hp, a :: gap, rest, by rw [hl]; simp, hrest⟩

/-- Shape of the result of the final loop of `polymers`, from any loop state. -/
theorem polymers_walk_spec (c : Residue → Option Bool) :
    ∀ (rs : List Residue) (st : PolyState),
      (st.in_chain = false → st.chain = [] →
        ∃ Q, polymers_walk c rs st = st.polys ++ Q ∧ IsRunDecomposition rs Q) ∧
      (st.in_chain = true → st.chain ≠ [] →
        ∃ p rest Q, rs = p ++ rest ∧ polymers_walk c rs st = st.polys ++ (st.chain ++ p) :: Q
          ∧ IsRunDecomposition rest Q) := by
  intro rs
  induction rs with
  | nil =>
    intro st
    constructor
    · intro hic _
      exact ⟨[], by simp [polymers_walk, hic], trivial⟩
    · intro hic _
      exact ⟨[], [], [], rfl, by simp [polymers_walk, hic], trivial⟩
  | cons r rs ih =>
    intro st
    constructor
    · intro hic hch
      rw [polymers_walk_cons]
      cases hc : c r with
      | none =>
        have hst : poly_step c st r = st := by simp [poly_step, hc, hic]
        rw [hst]
        obtain ⟨Q, hQ, hdec⟩ := (ih st).1 hic hch
        exact ⟨Q, hQ, isRunDecomposition_cons r rs Q hdec⟩
      | some b =>
        have hst : poly_step c st r = { st with chain := st.chain ++ [r], in_chain := true } := by
          simp [poly_step, hc]
        rw [hst]
        obtain ⟨p, rest, Q, hrs, hQ, hdec⟩ :=
          (ih { st with chain := st.chain ++ [r], in_chain := true }).2 rfl (by simp)
        refine ⟨(r :: p) :: Q, ?_, ?_⟩
        · rw [hQ]; simp [hch]
        · exact ⟨by simp, [], rest, by rw [hrs]; simp, hdec⟩
    · intro hic hch
      rw [polymers_walk_cons]
      cases hc : c r with
      | none =>
        have hst : poly_step c st r
            = { polys := st.polys ++ [st.chain ++ [r]], chain := [], in_chain := false } := by
          simp [poly_step, hc, hic]
        rw [hst]
        obtain ⟨Q, hQ, hdec⟩ :=
          (ih { polys := st.polys ++ [st.chain ++ [r]], chain := [], in_chain := false }).1
            rfl rfl
        exact ⟨[r], rs, Q, rfl, by rw [hQ]; simp, hdec⟩
      | some b =>
        have hst : poly_step c st r = { st with chain := st.chain ++ [r], in_chain := true } := by
          simp [poly_step, hc]
        rw [hst]
        obtain ⟨p, rest, Q, hrs, hQ, hdec⟩ :=
          (ih { st with chain := st.chain ++ [r], in_chain := true }).2 rfl (by simp)
        exact ⟨r :: p, rest, Q, by rw [hrs]; simp, by rw [hQ]; simp, hdec⟩

theorem polymers_isRunDecomposition (S : AtomicStructure) (cms cci : Bool) :
    IsRunDecomposition S.residues (polymers S cms cci) := by
  obtain ⟨Q, hQ, hdec⟩ := (polymers_walk_spec (polymers_connected S cms cci) S.residues
    { polys := [], chain := [], in_chain := false }).1 rfl rfl
  unfold polymers
  rw [hQ]
  simpa using hdec

theorem isRunDecomposition_mem (l : List Residue) (ps : List (List Residue))
    (h : IsRunDecomposition l ps) : ∀ p ∈ ps, p ≠ [] ∧ p <:+: l := by
  induction ps generalizing l with
  | nil => intro p hp; cases hp
  | cons q ps ih =>
    obtain ⟨hq, gap, rest, hl, hrest⟩ := h
    intro p hp
    rcases List.mem_cons.mp hp with h1 | h1
    · subst h1
      exact ⟨hq, ⟨gap, rest, hl.symm⟩⟩
    · obtain ⟨hne, s, t, hst⟩ := ih rest hrest p h1
      refine ⟨hne, ⟨gap ++ q ++ s, t, ?_⟩⟩
      rw [hl, ← hst]
      simp

theorem isRunDecomposition_sublist (l : List Residue) (ps : List (List Residue))
    (h : IsRunDecomposition l ps) : ps.flatten.Sublist l := by
  induction ps generalizing l with
  | nil => simp
  | cons q ps ih =>
    obtain ⟨_, gap, rest, hl, hrest⟩ := h
    have h1 := ih rest hrest
    rw [hl, List.flatten_cons, List.append_assoc]
    exact List.Sublist.trans (List.Sublist.append (List.Sublist.refl q) h1)
      (List.sublist_append_right gap (q ++ rest))

/-- In every polymer, every residue but the last is a key of `connected`. -/
theorem polymers_walk_connected (c : Residue → Option Bool) :
    ∀ (rs : List Residue) (st : PolyState),
      (∀ x ∈ st.chain, c x ≠ none) →
      (∀ p ∈ st.polys, ∀ x ∈ p.dropLast, c x ≠ none) →
      ∀ p ∈ polymers_walk c rs st, ∀ x ∈ p.dropLast, c x ≠ none := by
  intro rs
  induction rs with
  | nil =>
    intro st hch hpolys p hp
    unfold polymers_walk at hp
    simp only [List.foldl_nil] at hp
    split at hp
    · rcases List.mem_append.mp hp with h1 | h1
      · exact hpolys p h1
      · simp only [List.mem_singleton] at h1
        subst h1
        intro x hx
        exact hch x (List.dropLast_subset _ hx)
    · exact hpolys p hp
  | cons r rs ih =>
    intro st hch hpolys
    rw [polymers_walk_cons]
    apply ih
    · intro x hx
      unfold poly_step at hx
      cases hc : c r with
      | none =>
        rw [hc] at hx
        simp only at hx
        split at hx
        · cases hx
        · exact hch x hx
      | some b =>
        rw [hc] at hx
        simp only [List.mem_append, List.mem_singleton] at hx
        rcases hx with h1 | h1
        · exact hch x h1
        · rw [h1, hc]; simp
    · intro p hp
      unfold poly_step at hp
      cases hc : c r with
      | none =>
        rw [hc] at hp
        simp only at hp
        split at hp
        · simp only [List.mem_append, List.mem_singleton] at hp
          rcases hp with h1 | h1
          · exact hpolys p h1
          · subst h1
            intro x hx
            rw [List.dropLast_concat] at hx
            exact hch x hx
        · exact hpolys p hp
      | some b =>
        rw [hc] at hp
        exact hpolys p hp

theorem uniform_of_steps {β : Type} (f : Residue → β) :
    ∀ (p : List Residue),
      (∀ u x y v, p = u ++ x :: y :: v → f x = f y) →
      ∀ a ∈ p, ∀ b ∈ p, f a = f b := by
  intro p
  induction p with
  | nil => intro _ a ha; cases ha
  | cons x t ih =>
    intro h
    have ht : ∀ a ∈ t, ∀ b ∈ t, f a = f b :=
      ih (fun u x' y v hp => h (x :: u) x' y v (by rw [hp]; simp))
    have hx : ∀ a ∈ t, f x = f a := by
      intro a ha
      cases t with
      | nil => cases ha
      | cons y v =>
        have h1 : f x = f y := h [] x y v rfl
        rw [h1]
        exact ht y (by simp) a ha
    intro a ha b hb
    rcases List.mem_cons.mp ha with h1 | h1 <;> rcases List.mem_cons.mp hb with h2 | h2
    · rw [h1, h2]
    · rw [h1]; exact hx b h2
    · rw [h2]; exact (hx a h1).symm
    · exact ht a h1 b h2

theorem polymers_walk_mem_polys (c : Residue → Option Bool) (rs : List Residue)
    (st : PolyState) (p : List Residue) (hp : p ∈ st.polys) : p ∈ polymers_walk c rs st := by
  induction rs generalizing st with
  | nil =>
    unfold polymers_walk
    simp only [List.foldl_nil]
    split
    · exact List.mem_append_left _ hp
    · exact hp
  | cons r rs ih =>
    rw [polymers_walk_cons]
    apply ih
    unfold poly_step
    cases c r with
    | none =>
      simp only
      split
      · exact List.mem_append_left _ hp
      · exact hp
    | some b => exact hp

theorem polymers_walk_mem_chain (c : Residue → Option Bool) (rs : List Residue)
    (st : PolyState) (hic : st.in_chain = true) (hch : st.chain ≠ []) :
    ∃ p ∈ polymers_walk c rs st, ∀ x ∈ st.chain, x ∈ p := by
  obtain ⟨p, rest, Q, _, hQ, _⟩ := (polymers_walk_spec c rs st).2 hic hch
  refine ⟨st.chain ++ p, ?_, fun x hx => List.mem_append_left _ hx⟩
  rw [hQ]
  simp

/-- A key of `connected` ends up in the same polymer as the residue after it. -/
theorem polymers_walk_pair (c : Residue → Option Bool) (a b : Residue) (v : List Residue)
    (ha : c a ≠ none) :
    ∀ (u : List Residue) (st : PolyState),
      ∃ p ∈ polymers_walk c (u ++ a :: b :: v) st, a ∈ p ∧ b ∈ p := by
  intro u
  induction u with
  | nil =>
    intro st
    simp only [List.nil_append]
    rw [polymers_walk_cons, polymers_walk_cons]
    obtain ⟨w, hw⟩ := Option.ne_none_iff_exists'.mp ha
    have h1 : poly_step c st a = { st with chain := st.chain ++ [a], in_chain := true } := by
      simp [poly_step, hw]
    rw [h1]
    cases hb : c b with
    | none =>
      have h2 : poly_step c { st with chain := st.chain ++ [a], in_chain := true } b
          = { polys := st.polys ++ [st.chain ++ [a] ++ [b]], chain := [], in_chain := false } := by
        simp [poly_step, hb]
      rw [h2]
      refine ⟨st.chain ++ [a] ++ [b], ?_, by simp, by simp⟩
      apply polymers_walk_mem_polys
      simp
    | some w2 =>
      have h2 : poly_step c { st with chain := st.chain ++ [a], in_chain := true } b
          = { st with chain := st.chain ++ [a] ++ [b], in_chain := true } := by
        simp [poly_step, hb]
      rw [h2]
      obtain ⟨p, hp, hall⟩ := polymers_walk_mem_chain c v
        { st with chain := st.chain ++ [a] ++ [b], in_chain := true } rfl (by simp)
      exact ⟨p, hp, hall a (by simp), hall b (by simp)⟩
  | cons r u ih =>
    intro st
    rw [List.cons_append, polymers_walk_cons]
    exact ih _

theorem polymers_walk_congr (c1 c2 : Residue → Option Bool) :
    ∀ (rs : List Residue) (st : PolyState), (∀ r ∈ rs, c1 r = c2 r) →
      polymers_walk c1 rs st = polymers_walk c2 rs st := by
  intro rs
  induction rs with
  | nil => intro st _; simp [polymers_walk]
  | cons r rs ih =>
    intro st h
    rw [polymers_walk_cons, polymers_walk_cons]
    have hr : poly_step c1 st r = poly_step c2 st r := by
      unfold poly_step
      rw [h r (by simp)]
    rw [hr]
    exact ih _ (fun x hx => h x (by simp [hx]))

theorem pseudobond_step_mono (S : AtomicStructure) (rl : Residue → Int)
    (c : Residue → Option Bool) (pb : Pseudobond) (x : Residue) (h : c x ≠ none) :
    pseudobond_step S rl c pb x ≠ none := by
  unfold pseudobond_step
  split
  · split
    · unfold map_set
      split
      · simp
      · exact h
    · unfold map_set
      split
      · simp
      · exact h
  · exact h

theorem pseudobond_foldl_mono (S : AtomicStructure) (rl : Residue → Int) (x : Residue) :
    ∀ (pbs : List Pseudobond) (c : Residue → Option Bool), c x ≠ none →
      (pbs.foldl (pseudobond_step S rl) c) x ≠ none := by
  intro pbs
  induction pbs with
  | nil => intro c h; exact h
  | cons pb pbs ih =>
    intro c h
    rw [List.foldl_cons]
    exact ih _ (pseudobond_step_mono S rl c pb x h)

theorem pseudobond_foldl_agree (S : AtomicStructure) (rl : Residue → Int) (x : Residue) :
    ∀ (pbs : List Pseudobond) (c1 c2 : Residue → Option Bool), c1 x = c2 x →
      (pbs.foldl (pseudobond_step S rl) c1) x = (pbs.foldl (pseudobond_step S rl) c2) x := by
  intro pbs
  induction pbs with
  | nil => intro c1 c2 h; exact h
  | cons pb pbs ih =>
    intro c1 c2 h
    rw [List.foldl_cons, List.foldl_cons]
    apply ih
    unfold pseudobond_step
    split
    · split
      · unfold map_set
        split
        · rfl
        · exact h
      · unfold map_set
        split
        · rfl
        · exact h
    · exact h

theorem adjacent_of_indexOf_succ (l : List Residue) (a b : Residue) (hnd : l.Nodup)
    (ha : a ∈ l) (hb : b ∈ l) (h : l.indexOf b = l.indexOf a + 1) :
    ∃ u v, l = u ++ a :: b :: v := by
  obtain ⟨u, w, hl⟩ := List.append_of_mem ha
  have hia : l.indexOf a = u.length := by
    rw [hl]; exact indexOf_append_cons u w a (hl ▸ hnd)
  have hbu : b ∉ u := by
    intro hbu
    have h1 : l.indexOf b < u.length := by
      rw [hl, List.indexOf_append_of_mem hbu]
      exact List.indexOf_lt_length.mpr hbu
    omega
  have hba : b ≠ a := by
    intro hba
    rw [hba] at h
    omega
  have hib : l.indexOf b = u.length + (1 + w.indexOf b) := by
    rw [hl, List.indexOf_append_of_not_mem hbu, List.indexOf_cons_ne _ (Ne.symm hba)]
    omega
  have hbw : b ∈ w := by
    rw [hl] at hb
    rcases List.mem_append.mp hb with h1 | h1
    · exact absurd h1 hbu
    · rcases List.mem_cons.mp h1 with h2 | h2
      · exact absurd h2 hba
      · exact h2
  have hw0 : w.indexOf b = 0 := by omega
  cases w with
  | nil => cases hbw
  | cons c v =>
    have hcb : c = b := by
      by_contra hne
      rw [List.indexOf_cons_ne _ hne] at hw0
      omega
    exact ⟨u, v, by rw [hl, hcb]⟩

theorem build_res_lookup_nonneg (l : List Residue) (r : Residue) (hnd : l.Nodup) :
    0 ≤ build_res_lookup l r := by
  by_cases h : r ∈ l
  · rw [build_res_lookup_mem l r hnd h]; omega
  · rw [build_res_lookup_not_mem l r h]

theorem build_res_lookup_pos_mem (l : List Residue) (r : Residue)
    (h : 0 < build_res_lookup l r) : r ∈ l := by
  by_contra hn
  rw [build_res_lookup_not_mem l r hn] at h
  omega

/-- A missing-structure pseudobond whose end residues are not neighbours in the
list, or differ in chain ID, leaves `connected` unchanged on the residues of the list. -/
theorem pseudobond_step_not_adjacent (S : AtomicStructure) (hnd : S.residues.Nodup)
    (c : Residue → Option Bool) (pb : Pseudobond)
    (h : ¬ ListAdjacent S.residues (S.atom_residue pb.1) (S.atom_residue pb.2)
      ∨ S.chain_id (S.atom_residue pb.1) ≠ S.chain_id (S.atom_residue pb.2))
    (x : Residue) (hx : x ∈ S.residues) :
    pseudobond_step S (build_res_lookup S.residues) c pb x = c x := by
  unfold pseudobond_step
  by_cases hcond : |build_res_lookup S.residues (S.atom_residue pb.1)
        - build_res_lookup S.residues (S.atom_residue pb.2)| = 1
      ∧ S.chain_id (S.atom_residue pb.1) = S.chain_id (S.atom_residue pb.2)
  · rw [if_pos hcond]
    have hadj : ¬ ListAdjacent S.residues (S.atom_residue pb.1) (S.atom_residue pb.2) := by
      rcases h with h1 | h1
      · exact h1
      · exact absurd hcond.2 h1
    have habs := hcond.1
    rw [abs_eq (by norm_num)] at habs
    have hn1 := build_res_lookup_nonneg S.residues (S.atom_residue pb.1) hnd
    have hn2 := build_res_lookup_nonneg S.residues (S.atom_residue pb.2) hnd
    by_cases hlt : build_res_lookup S.residues (S.atom_residue pb.1)
        < build_res_lookup S.residues (S.atom_residue pb.2)
    · rw [if_pos hlt]
      apply map_set_other
      intro hxe
      rw [hxe] at hx
      have h2 : S.atom_residue pb.2 ∈ S.residues :=
        build_res_lookup_pos_mem _ _ (by omega)
      apply hadj
      rw [build_res_lookup_mem _ _ hnd hx, build_res_lookup_mem _ _ hnd h2] at habs hlt
      obtain ⟨u, v, huv⟩ := adjacent_of_indexOf_succ S.residues _ _ hnd hx h2 (by omega)
      exact ⟨u, v, Or.inl huv⟩
    · rw [if_neg hlt]
      apply map_set_other
      intro hxe
      rw [hxe] at hx
      have h1 : S.atom_residue pb.1 ∈ S.residues :=
        build_res_lookup_pos_mem _ _ (by omega)
      apply hadj
      rw [build_res_lookup_mem _ _ hnd hx, build_res_lookup_mem _ _ hnd h1] at habs hlt
      obtain ⟨u, v, huv⟩ := adjacent_of_indexOf_succ S.residues _ _ hnd hx h1 (by omega)
      exact ⟨u, v, Or.inr huv⟩
  · rw [if_neg hcond]

theorem build_res_lookup_append_cons (u v : List Residue) (x : Residue)
    (hnd : (u ++ x :: v).Nodup) : build_res_lookup (u ++ x :: v) x = (u.length : Int) := by
  rw [build_res_lookup_mem _ _ hnd (by simp), indexOf_append_cons u v x hnd]

/-- A missing-structure pseudobond between neighbours of the list with equal
chain IDs makes the earlier of the two a key of `connected`. -/
theorem pseudobond_step_adjacent (S : AtomicStructure) (hnd : S.residues.Nodup)
    (c : Residue → Option Bool) (pb : Pseudobond) (u v : List Residue) (a b : Residue)
    (hl : S.residues = u ++ a :: b :: v)
    (hends : (S.atom_residue pb.1 = a ∧ S.atom_residue pb.2 = b)
      ∨ (S.atom_residue pb.1 = b ∧ S.atom_residue pb.2 = a))
    (hid : S.chain_id (S.atom_residue pb.1) = S.chain_id (S.atom_residue pb.2)) :
    pseudobond_step S (build_res_lookup S.residues) c pb a ≠ none := by
  have hia : build_res_lookup S.residues a = (u.length : Int) := by
    rw [hl]; exact build_res_lookup_append_cons u (b :: v) a (hl ▸ hnd)
  have hib : build_res_lookup S.residues b = (u.length : Int) + 1 := by
    have hl' : S.residues = (u ++ [a]) ++ b :: v := by rw [hl]; simp
    rw [hl', build_res_lookup_append_cons (u ++ [a]) v b (hl' ▸ hnd)]
    simp
  unfold pseudobond_step
  rcases hends with ⟨h1, h2⟩ | ⟨h1, h2⟩
  · rw [h1, h2] at hid ⊢
    rw [hia, hib]
    have hc : |(u.length : Int) - ((u.length : Int) + 1)| = 1 ∧ S.chain_id a = S.chain_id b :=
      ⟨by rw [abs_eq (by norm_num)]; omega, hid⟩
    rw [if_pos hc, if_pos (by omega)]
    simp [map_set]
  · rw [h1, h2] at hid ⊢
    rw [hia, hib]
    have hc : |(u.length : Int) + 1 - (u.length : Int)| = 1 ∧ S.chain_id b = S.chain_id a :=
      ⟨by rw [abs_eq (by norm_num)]; omega, hid⟩
    rw [if_pos hc, if_neg (by omega)]
    simp [map_set]

theorem pseudobond_foldl_adjacent (S : AtomicStructure) (hnd : S.residues.Nodup)
    (u v : List Residue) (a b : Residue) (hl : S.residues = u ++ a :: b :: v)
    (pb : Pseudobond)
    (hends : (S.atom_residue pb.1 = a ∧ S.atom_residue pb.2 = b)
      ∨ (S.atom_residue pb.1 = b ∧ S.atom_residue pb.2 = a))
    (hid : S.chain_id (S.atom_residue pb.1) = S.chain_id (S.atom_residue pb.2)) :
    ∀ (pbs : List Pseudobond) (c : Residue → Option Bool), pb ∈ pbs →
      (pbs.foldl (pseudobond_step S (build_res_lookup S.residues)) c) a ≠ none := by
  intro pbs
  induction pbs with
  | nil => intro c h; cases h
  | cons q pbs ih =>
    intro c h
    rw [List.foldl_cons]
    rcases List.mem_cons.mp h with h1 | h1
    · subst h1
      exact pseudobond_foldl_mono S _ a pbs _
        (pseudobond_step_adjacent S hnd c pb u v a b hl hends hid)
    · exact ih _ h1

/-- The polymers of a structure whose missing-structure group is replaced, when
the group is not considered. -/
theorem polymers_without_missing_structure (S : AtomicStructure)
    (pbg : Option (List Pseudobond)) (cci : Bool) :
    polymers { S with missing_structure := pbg } false cci
      = polymers_walk
          (S.bonds.foldl (bond_step S cci (build_res_lookup S.residues)) (fun _ => none))
          S.residues { polys := [], chain := [], in_chain := false } := rfl

/-- The polymers of a structure whose missing-structure group is replaced, when
the group is considered. -/
theorem polymers_with_missing_structure (S : AtomicStructure)
    (pbs : List Pseudobond) (cci : Bool) :
    polymers { S with missing_structure := some pbs } true cci
      = polymers_walk
          (pbs.foldl (pseudobond_step S (build_res_lookup S.residues))
            (S.bonds.foldl (bond_step S cci (build_res_lookup S.residues)) (fun _ => none)))
          S.residues { polys := [], chain := [], in_chain := false } := rfl

/-! ## Theorems about `polymers` -/

/-- C2: for a residue list of distinct residues, all residues of each
polymer returned by `polymers` with `consider_chain_ids = true` have the same
chain ID, whatever `consider_missing_structure` is. -/
theorem polymers_chain_id_uniform (S : AtomicStructure) (consider_missing_structure : Bool)
    (hnd : S.residues.Nodup) :
    ∀ p ∈ polymers S consider_missing_structure true, ∀ r1 ∈ p, ∀ r2 ∈ p,
      S.chain_id r1 = S.chain_id r2 := by
  intro p hp
  obtain ⟨_, s, t, hst⟩ :=
    isRunDecomposition_mem _ _ (polymers_isRunDecomposition S consider_missing_structure true) p hp
  have hconn := polymers_walk_connected (polymers_connected S consider_missing_structure true)
    S.residues { polys := [], chain := [], in_chain := false }
    (by intro x hx; cases hx) (by intro q hq; cases hq) p hp
  apply uniform_of_steps S.chain_id p
  intro u x y v hpe
  have hx : x ∈ p.dropLast := by
    rw [hpe, List.dropLast_append_of_ne_nil _ (by simp)]
    simp
  apply polymers_connected_next S consider_missing_structure hnd (s ++ u) (v ++ t) x y
  · rw [← hst, hpe]; simp
  · exact hconn x hx

/-- Instance of C2 on `example_structure`: residues `10` and `12` of the polymer
`[10, 11, 12]` have the same chain ID. -/
theorem polymers_chain_id_uniform_witness :
    example_structure.residues.Nodup
      ∧ example_structure.chain_id 10 = example_structure.chain_id 12 :=
  ⟨by decide,
   polymers_chain_id_uniform example_structure true (by decide) [10, 11, 12] (by decide)
     10 (by decide) 12 (by decide)⟩

/-- C3: with `consider_missing_structure = false` the list returned by
`polymers` does not depend on the missing-structure pseudobonds: two
structures that differ only in them yield the same polymers. -/
theorem polymers_ignores_missing_structure (S : AtomicStructure)
    (pbg1 pbg2 : Option (List Pseudobond)) (consider_chain_ids : Bool) :
    polymers { S with missing_structure := pbg1 } false consider_chain_ids
      = polymers { S with missing_structure := pbg2 } false consider_chain_ids := by
  rw [polymers_without_missing_structure, polymers_without_missing_structure]

/-- C4: for a residue list of distinct residues, the polymers returned by
`polymers` are non-empty contiguous runs of the residue list, in list order,
one after the other (`IsRunDecomposition`); in particular each is an infix of
the residue list, and no residue belongs to two polymers. -/
theorem polymers_contiguous_runs (S : AtomicStructure)
    (consider_missing_structure consider_chain_ids : Bool) (hnd : S.residues.Nodup) :
    IsRunDecomposition S.residues (polymers S consider_missing_structure consider_chain_ids)
      ∧ (∀ p ∈ polymers S consider_missing_structure consider_chain_ids,
          p ≠ [] ∧ p <:+: S.residues)
      ∧ (polymers S consider_missing_structure consider_chain_ids).Pairwise List.Disjoint := by
  have hdec := polymers_isRunDecomposition S consider_missing_structure consider_chain_ids
  refine ⟨hdec, isRunDecomposition_mem _ _ hdec, ?_⟩
  have hsub := isRunDecomposition_sublist _ _ hdec
  exact (List.nodup_flatten.mp (List.Nodup.sublist hsub hnd)).2

/-- Instance of C4 on `example_structure`. -/
theorem polymers_contiguous_runs_witness :
    example_structure.residues.Nodup
      ∧ (polymers example_structure true true).Pairwise List.Disjoint :=
  ⟨by decide, (polymers_contiguous_runs example_structure true true (by decide)).2.2⟩

/-- C5: with `consider_missing_structure = true` and distinct residues, a
missing-structure pseudobond whose end residues are neighbours in the
residue list (in either order) and have the same chain ID puts both in one
returned polymer; a missing-structure pseudobond whose end residues are not
neighbours, or differ in chain ID, does not change the returned polymers. -/
theorem missing_structure_pseudobond_effect (S : AtomicStructure) (consider_chain_ids : Bool)
    (hnd : S.residues.Nodup) :
    (∀ (pbs : List Pseudobond) (pb : Pseudobond),
        S.missing_structure = some pbs → pb ∈ pbs →
        ListAdjacent S.residues (S.atom_residue pb.1) (S.atom_residue pb.2) →
        S.chain_id (S.atom_residue pb.1) = S.chain_id (S.atom_residue pb.2) →
        ∃ p ∈ polymers S true consider_chain_ids,
          S.atom_residue pb.1 ∈ p ∧ S.atom_residue pb.2 ∈ p)
    ∧ (∀ (before after : List Pseudobond) (pb : Pseudobond),
        (¬ ListAdjacent S.residues (S.atom_residue pb.1) (S.atom_residue pb.2)
          ∨ S.chain_id (S.atom_residue pb.1) ≠ S.chain_id (S.atom_residue pb.2)) →
        polymers { S with missing_structure := some (before ++ pb :: after) } true
            consider_chain_ids
          = polymers { S with missing_structure := some (before ++ after) } true
            consider_chain_ids) := by
  constructor
  · intro pbs pb hms hpb hadj hid
    obtain ⟨u, v, hl | hl⟩ := hadj
    · have hc : polymers_connected S true consider_chain_ids (S.atom_residue pb.1) ≠ none := by
        unfold polymers_connected
        simp only [if_true, hms]
        exact pseudobond_foldl_adjacent S hnd u v _ _ hl pb (Or.inl ⟨rfl, rfl⟩) hid pbs _ hpb
      obtain ⟨p, hp, h1, h2⟩ := polymers_walk_pair _ _ (S.atom_residue pb.2) v hc u
        { polys := [], chain := [], in_chain := false }
      refine ⟨p, ?_, h1, h2⟩
      unfold polymers
      rw [hl]
      exact hp
    · have hc : polymers_connected S true consider_chain_ids (S.atom_residue pb.2) ≠ none := by
        unfold polymers_connected
        simp only [if_true, hms]
        exact pseudobond_foldl_adjacent S hnd u v _ _ hl pb (Or.inr ⟨rfl, rfl⟩) hid pbs _ hpb
      obtain ⟨p, hp, h1, h2⟩ := polymers_walk_pair _ _ (S.atom_residue pb.1) v hc u
        { polys := [], chain := [], in_chain := false }
      refine ⟨p, ?_, h2, h1⟩
      unfold polymers
      rw [hl]
      exact hp
  · intro before after pb h
    rw [polymers_with_missing_structure, polymers_with_missing_structure]
    apply polymers_walk_congr
    intro r hr
    simp only [List.foldl_append, List.foldl_cons]
    rw [pseudobond_foldl_agree S _ r after _
      (before.foldl (pseudobond_step S (build_res_lookup S.residues))
        (S.bonds.foldl (bond_step S consider_chain_ids (build_res_lookup S.residues))
          (fun _ => none)))]
    exact pseudobond_step_not_adjacent S hnd _ pb h r hr

/-- Instance of C5 on `example_structure`: the pseudobond between atoms `2` and `1`
puts residues `12` and `11` in one polymer. -/
theorem missing_structure_pseudobond_effect_witness :
    example_structure.residues.Nodup
      ∧ ∃ p ∈ polymers example_structure true true, 12 ∈ p ∧ 11 ∈ p :=
  ⟨by decide,
   (missing_structure_pseudobond_effect example_structure true (by decide)).1
     [(2, 1)] (2, 1) rfl (by decide) ⟨[10], [13, 14], Or.inr rfl⟩ rfl⟩

/-! ## Lemmas about `make_chains` -/

theorem unique_chain_id_step_other (S : AtomicStructure) (u : ChainID → Option Bool)
    (p : List Residue) (cid : ChainID) (h : S.chain_id (first_residue p) ≠ cid) :
    unique_chain_id_step S u p cid = u cid := by
  unfold unique_chain_id_step
  cases u (S.chain_id (first_residue p)) <;> exact map_set_other _ _ _ _ (Ne.symm h)

theorem unique_chain_id_step_fresh (S : AtomicStructure) (u : ChainID → Option Bool)
    (p : List Residue) (hu : u (S.chain_id (first_residue p)) = none) :
    unique_chain_id_step S u p (S.chain_id (first_residue p)) = some true := by
  unfold unique_chain_id_step
  simp only [hu]
  exact map_set_same _ _ _

theorem unique_chain_id_step_seen (S : AtomicStructure) (u : ChainID → Option Bool)
    (p : List Residue) (hu : u (S.chain_id (first_residue p)) ≠ none) :
    unique_chain_id_step S u p (S.chain_id (first_residue p)) = some false := by
  unfold unique_chain_id_step
  obtain ⟨w, hw⟩ := Option.ne_none_iff_exists'.mp hu
  simp only [hw]
  exact map_set_same _ _ _

theorem unique_foldl_absent (S : AtomicStructure) (cid : ChainID) :
    ∀ (L : List (List Residue)) (u : ChainID → Option Bool),
      (∀ p ∈ L, S.chain_id (first_residue p) ≠ cid) →
      (L.foldl (unique_chain_id_step S) u) cid = u cid := by
  intro L
  induction L with
  | nil => intro u _; rfl
  | cons p L ih =>
    intro u h
    rw [List.foldl_cons, ih _ (fun q hq => h q (by simp [hq]))]
    exact unique_chain_id_step_other S u p cid (h p (by simp))

theorem unique_foldl_false (S : AtomicStructure) (cid : ChainID) :
    ∀ (L : List (List Residue)) (u : ChainID → Option Bool), u cid = some false →
      (L.foldl (unique_chain_id_step S) u) cid = some false := by
  intro L
  induction L with
  | nil => intro u h; exact h
  | cons p L ih =>
    intro u h
    rw [List.foldl_cons]
    apply ih
    by_cases hp : S.chain_id (first_residue p) = cid
    · subst hp
      exact unique_chain_id_step_seen S u p (by rw [h]; simp)
    · rw [unique_chain_id_step_other S u p cid hp]
      exact h

theorem unique_foldl_seen (S : AtomicStructure) (cid : ChainID) :
    ∀ (L : List (List Residue)) (u : ChainID → Option Bool), u cid ≠ none →
      (∃ p ∈ L, S.chain_id (first_residue p) = cid) →
      (L.foldl (unique_chain_id_step S) u) cid = some false := by
  intro L
  induction L with
  | nil => intro u _ h; obtain ⟨p, hp, _⟩ := h; cases hp
  | cons p L ih =>
    intro u hu h
    rw [List.foldl_cons]
    by_cases hp : S.chain_id (first_residue p) = cid
    · subst hp
      exact unique_foldl_false S _ L _ (unique_chain_id_step_seen S u p hu)
    · apply ih
      · rw [unique_chain_id_step_other S u p cid hp]
        exact hu
      · obtain ⟨q, hq, hqc⟩ := h
        rcases List.mem_cons.mp hq with h1 | h1
        · subst h1; exact absurd hqc hp
        · exact ⟨q, h1, hqc⟩

/-- Two polymers with the same chain ID make `unique_chain_id` false for it. -/
theorem unique_foldl_shared (S : AtomicStructure) (cid : ChainID) :
    ∀ (L : List (List Residue)) (u : ChainID → Option Bool) (i j : Nat)
      (pi pj : List Residue), L[i]? = some pi → L[j]? = some pj → i ≠ j →
      S.chain_id (first_residue pi) = cid → S.chain_id (first_residue pj) = cid →
      (L.foldl (unique_chain_id_step S) u) cid = some false := by
  intro L
  induction L with
  | nil => intro u i j pi pj hi; simp at hi
  | cons p L ih =>
    intro u i j pi pj hi hj hij hci hcj
    rw [List.foldl_cons]
    cases i with
    | zero =>
      cases j with
      | zero => exact absurd rfl hij
      | succ j =>
        simp only [List.getElem?_cons_zero, Option.some.injEq] at hi
        simp only [List.getElem?_cons_succ] at hj
        subst hi
        apply unique_foldl_seen S cid L
        · rw [← hci]
          by_cases hu : u (S.chain_id (first_residue p)) = none
          · rw [unique_chain_id_step_fresh S u p hu]; simp
          · rw [unique_chain_id_step_seen S u p hu]; simp
        · exact ⟨pj, List.getElem?_mem hj, hcj⟩
    | succ i =>
      cases j with
      | zero =>
        simp only [List.getElem?_cons_zero, Option.some.injEq] at hj
        simp only [List.getElem?_cons_succ] at hi
        subst hj
        apply unique_foldl_seen S cid L
        · rw [← hcj]
          by_cases hu : u (S.chain_id (first_residue p)) = none
          · rw [unique_chain_id_step_fresh S u p hu]; simp
          · rw [unique_chain_id_step_seen S u p hu]; simp
        · exact ⟨pi, List.getElem?_mem hi, hci⟩
      | succ j =>
        simp only [List.getElem?_cons_succ] at hi hj
        exact ih _ i j pi pj hi hj (fun h => hij (by rw [h])) hci hcj

/-- A chain ID carried by exactly one polymer gets `unique_chain_id` true. -/
theorem unique_foldl_single (S : AtomicStructure) (cid : ChainID) :
    ∀ (L : List (List Residue)) (u : ChainID → Option Bool) (i : Nat) (pi : List Residue),
      u cid = none → L[i]? = some pi → S.chain_id (first_residue pi) = cid →
      (∀ j pj, L[j]? = some pj → S.chain_id (first_residue pj) = cid → j = i) →
      (L.foldl (unique_chain_id_step S) u) cid = some true := by
  intro L
  induction L with
  | nil => intro u i pi _ hi; simp at hi
  | cons p L ih =>
    intro u i pi hu hi hci huniq
    rw [List.foldl_cons]
    cases i with
    | zero =>
      simp only [List.getElem?_cons_zero, Option.some.injEq] at hi
      subst hi
      rw [unique_foldl_absent S cid L]
      · rw [← hci] at hu ⊢
        exact unique_chain_id_step_fresh S u p hu
      · intro q hq hqc
        obtain ⟨j, hj⟩ := List.getElem?_of_mem hq
        have := huniq (j + 1) q (by simpa using hj) hqc
        omega
    | succ i =>
      simp only [List.getElem?_cons_succ] at hi
      have hp : S.chain_id (first_residue p) ≠ cid := by
        intro hpc
        have := huniq 0 p (by simp) hpc
        omega
      apply ih _ i pi _ hi hci
      · intro j pj hj hjc
        have := huniq (j + 1) pj (by simpa using hj) hjc
        omega
      · rw [unique_chain_id_step_other S u p cid hp]
        exact hu

theorem mapM_getElem? {α β : Type} (f : α → Option β) :
    ∀ (l : List α) (r : List β), l.mapM f = some r →
      ∀ (i : Nat) (a : α), l[i]? = some a → ∃ b, f a = some b ∧ r[i]? = some b := by
  intro l
  induction l with
  | nil => intro r _ i a h; simp at h
  | cons x l ih =>
    intro r h i a hi
    rw [List.mapM_cons] at h
    cases hx : f x with
    | none => rw [hx] at h; simp at h
    | some b =>
      rw [hx] at h
      cases hl : l.mapM f with
      | none => rw [hl] at h; simp at h
      | some r' =>
        rw [hl] at h
        simp at h
        subst h
        cases i with
        | zero =>
          simp at hi
          subst hi
          exact ⟨b, hx, by simp⟩
        | succ i =>
          simp at hi
          obtain ⟨b', hb', hr'⟩ := ih r' hl i a hi
          exact ⟨b', hb', by simpa using hr'⟩

/-- When `make_chains` returns, its `i`-th chain is the one that the loop body forms
for the `i`-th polymer. -/
theorem make_chains_getElem? (E : SeqAssoc) (S : AtomicStructure) (chains : List ChainRecord)
    (h : make_chains E S = some chains) (i : Nat) (pi : List Residue)
    (hi : (polymers S E.default_consider_missing_structure E.default_consider_chain_ids)[i]?
      = some pi) :
    ∃ cr, make_chain E S (build_unique_chain_id S
          (polymers S E.default_consider_missing_structure E.default_consider_chain_ids)) pi
        = some cr
      ∧ chains[i]? = some cr :=
  mapM_getElem? _ _ chains h i pi hi

/-- The chain of `make_chains` at the position of a polymer, given the chain that
the loop body forms for the polymer. -/
theorem make_chains_of_make_chain (E : SeqAssoc) (S : AtomicStructure) (i : Nat)
    (pi : List Residue) (cr : ChainRecord)
    (hi : (polymers S E.default_consider_missing_structure E.default_consider_chain_ids)[i]?
      = some pi)
    (hcr : make_chain E S (build_unique_chain_id S
          (polymers S E.default_consider_missing_structure E.default_consider_chain_ids)) pi
        = some cr) :
    ∀ chains, make_chains E S = some chains → chains[i]? = some cr := by
  intro chains h
  obtain ⟨cr', h1, h2⟩ := make_chains_getElem? E S chains h i pi hi
  rw [hcr] at h1
  rw [h2, ← Option.some.inj h1]

/-- A chain whose ID is not marked unique is the chain made from structure. -/
theorem make_chain_structure_only (E : SeqAssoc) (S : AtomicStructure)
    (u : ChainID → Option Bool) (polymer : List Residue)
    (h : (u (S.chain_id (first_residue polymer))).getD false = false) :
    make_chain E S u polymer
      = some { chain := chain_from_structure E S (S.chain_id (first_residue polymer)) polymer,
               calls := [] } := by
  unfold make_chain
  simp only [h]
  cases S.input_seq_info.lookup (S.chain_id (first_residue polymer)) <;> simp

theorem lookup_some_not_isEmpty {β : Type} (l : List (ChainID × β)) (k : ChainID) (v : β)
    (h : l.lookup k = some v) : l.isEmpty = false := by
  cases l with
  | nil => simp at h
  | cons e l => rfl

/-- The sum `gap_sum` is the sum of the gaps modulo `2 ^ 32`. -/
theorem gap_sum_eq (gaps : List Int) :
    gap_sum gaps = (gaps.sum % 4294967296).toNat := by
  have main : ∀ (gaps : List Int) (s : Nat), s < 4294967296 →
      gaps.foldl (fun s gap => to_unsigned ((s : Int) + gap)) s
        = (((s : Int) + gaps.sum) % 4294967296).toNat := by
    intro gaps
    induction gaps with
    | nil =>
      intro s hs
      simp only [List.foldl_nil, List.sum_nil, add_zero]
      have : ((s : Int) % 4294967296) = (s : Int) := Int.emod_eq_of_lt (by omega) (by omega)
      rw [this]
      simp
    | cons g gaps ih =>
      intro s hs
      rw [List.foldl_cons, List.sum_cons]
      have hlt : to_unsigned ((s : Int) + g) < 4294967296 := by
        unfold to_unsigned UINT
        have h1 : ((s : Int) + g) % ((2 ^ 32 : Nat) : Int) < ((2 ^ 32 : Nat) : Int) :=
          Int.emod_lt_of_pos _ (by norm_num)
        have h0 : 0 ≤ ((s : Int) + g) % ((2 ^ 32 : Nat) : Int) :=
          Int.emod_nonneg _ (by norm_num)
        omega
      rw [ih _ hlt]
      have hcast : ((to_unsigned ((s : Int) + g) : Nat) : Int) = ((s : Int) + g) % 4294967296 := by
        unfold to_unsigned UINT
        have h0 : 0 ≤ ((s : Int) + g) % ((2 ^ 32 : Nat) : Int) :=
          Int.emod_nonneg _ (by norm_num)
        rw [Int.toNat_of_nonneg h0]
        norm_num
      rw [hcast, Int.emod_add_emod, add_assoc]
  unfold gap_sum
  have := main gaps 0 (by norm_num)
  simpa using this

theorem raise_est_len_gaps (ap : AssocParams) (size : Nat) :
    (raise_est_len ap size).gaps = ap.gaps := by
  unfold raise_est_len
  split <;> rfl

/-- The only `try_assoc` call recorded by `associate` carries the budget `max_errs`. -/
theorem associate_try_assoc (E : SeqAssoc) (chain : Chain) (ap : AssocParams)
    (sr_seq sr : List Char) (est_len m : Nat)
    (h : ChainCall.try_assoc sr est_len m ∈ (associate E chain ap sr_seq).calls) :
    m = max_errs (chain.contents.length % UINT) (gap_sum ap.gaps) := by
  unfold associate at h
  cases hres : E.try_assoc sr_seq chain ap
      (max_errs (chain.contents.length % UINT) (gap_sum ap.gaps)) with
  | none =>
    simp only [hres] at h
    simp only [List.cons_append, List.nil_append, List.mem_cons, reduceCtorEq,
      ChainCall.try_assoc.injEq, List.mem_singleton, false_or, or_false, List.not_mem_nil] at h
    exact h.2.2
  | some retvals =>
    simp only [hres] at h
    simp only [List.cons_append, List.nil_append, List.mem_cons, reduceCtorEq,
      ChainCall.try_assoc.injEq, List.mem_singleton, false_or, or_false, List.not_mem_nil] at h
    exact h.2.2

/-- A `try_assoc` call of `adjust_from_seqres` carries the budget computed from the
chain size and the gaps estimated for the chain. -/
theorem adjust_from_seqres_try_assoc (E : SeqAssoc) (chain : Chain)
    (three_let_seq : List ResName) (cr : ChainRecord) (sr : List Char) (est_len m : Nat)
    (hcr : adjust_from_seqres E chain three_let_seq = some cr)
    (h : ChainCall.try_assoc sr est_len m ∈ cr.calls) :
    m = max_errs (chain.contents.length % UINT)
          (gap_sum (E.estimate_assoc_params chain).gaps) := by
  unfold adjust_from_seqres at hcr
  simp only at hcr
  split at hcr
  · have heq := Option.some.inj hcr
    rw [← heq] at h
    simp at h
  · cases h1 : pad_leading (E.estimate_assoc_params chain)
        (three_let_seq.map E.rname3to1) with
    | none => rw [h1] at hcr; cases hcr
    | some s1 =>
      rw [h1] at hcr
      simp only at hcr
      cases h2 : pad_trailing (E.estimate_assoc_params chain) s1 with
      | none => rw [h2] at hcr; cases hcr
      | some s2 =>
        rw [h2] at hcr
        simp only at hcr
        have heq := Option.some.inj hcr
        rw [← heq] at h
        rw [associate_try_assoc E chain _ _ sr est_len m h, raise_est_len_gaps]

/-- A `try_assoc` call of the loop body of `make_chains` carries the budget computed
from the size of the polymer and the gaps estimated for its chain. -/
theorem make_chain_try_assoc (E : SeqAssoc) (S : AtomicStructure)
    (u : ChainID → Option Bool) (polymer : List Residue) (cr : ChainRecord)
    (sr : List Char) (est_len m : Nat)
    (hcr : make_chain E S u polymer = some cr)
    (h : ChainCall.try_assoc sr est_len m ∈ cr.calls) :
    m = max_errs (polymer.length % UINT)
          (gap_sum (E.estimate_assoc_params
            (chain_from_structure E S (S.chain_id (first_residue polymer)) polymer)).gaps) := by
  unfold make_chain at hcr
  simp only at hcr
  cases hl : S.input_seq_info.lookup (S.chain_id (first_residue polymer)) with
  | none =>
    rw [hl] at hcr
    have heq := Option.some.inj hcr
    rw [← heq] at h
    simp at h
  | some three_let_seq =>
    rw [hl] at hcr
    simp only at hcr
    split at hcr
    · split at hcr
      · have heq := Option.some.inj hcr
        rw [← heq] at h
        simp at h
      · split at hcr
        · have heq := Option.some.inj hcr
          rw [← heq] at h
          simp at h
        · have := adjust_from_seqres_try_assoc E _ three_let_seq cr sr est_len m hcr h
          rw [this]
          simp [chain_from_structure]
    · have heq := Option.some.inj hcr
      rw [← heq] at h
      simp at h

/-- The run of `make_chains` on `example_structure` returns. -/
theorem example_structure_make_chains_returns :
    ∃ chains, make_chains example_seq_assoc example_structure = some chains :=
  Option.isSome_iff_exists.mp (by decide)

/-- The run of `make_chains` on `example_structure_one_chain` returns. -/
theorem example_structure_one_chain_make_chains_returns :
    ∃ chains, make_chains example_seq_assoc example_structure_one_chain = some chains :=
  Option.isSome_iff_exists.mp (by decide)

/-- On `example_gapped_structure` with `example_gapless_assoc` the loop counting leading `X`s
reads a gap past the end of the empty vector `gaps`: the run has no defined result. -/
theorem example_gapless_make_chains_undefined :
    make_chains example_gapless_assoc example_gapped_structure = none := by
  decide

/-! ## Theorems about `make_chains` -/

/-- C6: when the first residues of two different polymers carry the same
chain ID, the chain that `make_chains` forms for either of them is formed
from structure only: its residues are the polymer's residues and no call
(`set_from_seqres`, `estimate_assoc_params`, `try_assoc`, warning) is made
for it, whatever the input sequence records are. The loop body forms this
chain for the polymer, and it is the chain at the polymer's position
whenever `make_chains` returns. -/
theorem make_chains_shared_chain_id (E : SeqAssoc) (S : AtomicStructure) (i j : Nat)
    (pi pj : List Residue)
    (hi : (polymers S E.default_consider_missing_structure E.default_consider_chain_ids)[i]?
      = some pi)
    (hj : (polymers S E.default_consider_missing_structure E.default_consider_chain_ids)[j]?
      = some pj)
    (hij : i ≠ j)
    (hid : S.chain_id (first_residue pi) = S.chain_id (first_residue pj)) :
    ∃ cr, make_chain E S (build_unique_chain_id S
          (polymers S E.default_consider_missing_structure E.default_consider_chain_ids)) pi
        = some cr
      ∧ (∀ chains, make_chains E S = some chains → chains[i]? = some cr)
      ∧ cr.chain.residues = pi.map some
      ∧ cr.chain.from_seqres = false
      ∧ cr.calls = [] := by
  have hu : (build_unique_chain_id S
      (polymers S E.default_consider_missing_structure E.default_consider_chain_ids)
      (S.chain_id (first_residue pi))).getD false = false := by
    unfold build_unique_chain_id
    split
    · rfl
    · rw [unique_foldl_shared S _ _ _ i j pi pj hi hj hij rfl hid.symm]
      rfl
  have hmk := make_chain_structure_only E S _ pi hu
  exact ⟨_, hmk, make_chains_of_make_chain E S i pi _ hi hmk, rfl, rfl, rfl⟩

/-- Instance of C6 on `example_structure_one_chain`, where a record for chain `A` exists:
the run returns, and its first chain is formed from structure only. -/
theorem make_chains_shared_chain_id_witness :
    ∃ chains cr, make_chains example_seq_assoc example_structure_one_chain = some chains
      ∧ chains[0]? = some cr
      ∧ cr.chain.residues = [some 10, some 11, some 12]
      ∧ cr.chain.from_seqres = false
      ∧ cr.calls = [] :=
  Exists.elim example_structure_one_chain_make_chains_returns (fun chains hchains =>
    Exists.elim
      (make_chains_shared_chain_id example_seq_assoc example_structure_one_chain 0 1
        [10, 11, 12] [13, 14] (by decide) (by decide) (by decide) (by decide))
      (fun cr hcr => ⟨chains, cr, hchains, hcr.2.1 chains hchains, hcr.2.2⟩))

/-- C7: the error budget is `max_errs n g = min (n / 2) (max (n / 10) g)`; for
all `n` and `g` it lies between `n / 10` and `n / 2` and equals `g` when
`n / 10 ≤ g ≤ n / 2`; and every `try_assoc` call that the loop body of `make_chains`
makes for a polymer carries the budget `min (n / 2) (max (n / 10) g)` with `n` the
number of residues of the polymer and `g` the sum of the gaps estimated for
its chain, both as `unsigned int` (modulo `2 ^ 32`): the values themselves when
the size is below `2 ^ 32`, no gap is negative and their sum is below `2 ^ 32`. -/
theorem max_errs_bounded :
    (∀ n g : Nat, max_errs n g = min (n / 2) (max (n / 10) g)
        ∧ n / 10 ≤ max_errs n g ∧ max_errs n g ≤ n / 2
        ∧ (n / 10 ≤ g → g ≤ n / 2 → max_errs n g = g))
    ∧ (∀ (E : SeqAssoc) (S : AtomicStructure) (i : Nat) (pi : List Residue)
        (cr : ChainRecord) (sr_seq : List Char) (est_len m : Nat),
        (polymers S E.default_consider_missing_structure E.default_consider_chain_ids)[i]?
          = some pi →
        make_chain E S (build_unique_chain_id S
            (polymers S E.default_consider_missing_structure E.default_consider_chain_ids)) pi
          = some cr →
        ChainCall.try_assoc sr_seq est_len m ∈ cr.calls →
        m = min (pi.length % 4294967296 / 2)
              (max (pi.length % 4294967296 / 10)
                (((E.estimate_assoc_params
                    (chain_from_structure E S (S.chain_id (first_residue pi)) pi)).gaps.sum
                  % 4294967296).toNat))
        ∧ (pi.length < 4294967296 →
            (∀ gap ∈ (E.estimate_assoc_params
                (chain_from_structure E S (S.chain_id (first_residue pi)) pi)).gaps, 0 ≤ gap) →
            (E.estimate_assoc_params
                (chain_from_structure E S (S.chain_id (first_residue pi)) pi)).gaps.sum
              < 4294967296 →
            m = min (pi.length / 2)
                  (max (pi.length / 10)
                    ((E.estimate_assoc_params
                      (chain_from_structure E S (S.chain_id (first_residue pi)) pi)).gaps.sum
                      ).toNat))) := by
  constructor
  · intro n g
    refine ⟨rfl, ?_, ?_, ?_⟩
    · unfold max_errs
      have : n / 10 ≤ n / 2 := by omega
      omega
    · unfold max_errs
      omega
    · intro h1 h2
      unfold max_errs
      omega
  · intro E S i pi cr sr_seq est_len m _ hcr h
    have hm := make_chain_try_assoc E S _ pi cr sr_seq est_len m hcr h
    rw [gap_sum_eq] at hm
    have hU : UINT = 4294967296 := by norm_num [UINT]
    rw [hU] at hm
    unfold max_errs at hm
    refine ⟨hm, ?_⟩
    intro hlen hnn hsum
    have h0 : 0 ≤ (E.estimate_assoc_params
        (chain_from_structure E S (S.chain_id (first_residue pi)) pi)).gaps.sum :=
      List.sum_nonneg hnn
    rw [hm, Nat.mod_eq_of_lt hlen, Int.emod_eq_of_lt h0 hsum]

/-- Instance of C7 on `example_gapped_structure`: the chain has 20 residues and one
estimated gap of 5; the loop body calls `try_assoc` with budget 5, which is
`min (20 / 2) (max (20 / 10) 5)`. -/
theorem max_errs_bounded_witness :
    make_chains example_gapped_assoc example_gapped_structure
        = some [{ chain := { chain_id := "A",
                             residues := (List.range' 100 20).map some,
                             contents := List.replicate 20 'A',
                             from_seqres := false },
                  calls := [ChainCall.estimate_assoc_params,
                    ChainCall.try_assoc (List.replicate 25 'A') 25 5,
                    ChainCall.set_from_seqres false] }]
      ∧ (5 : Nat) = min (20 / 2) (max (20 / 10) (5 : Int).toNat) :=
  ⟨by decide,
   ((max_errs_bounded.2 example_gapped_assoc example_gapped_structure 0 (List.range' 100 20)
      { chain := { chain_id := "A",
                   residues := (List.range' 100 20).map some,
                   contents := List.replicate 20 'A',
                   from_seqres := false },
        calls := [ChainCall.estimate_assoc_params,
          ChainCall.try_assoc (List.replicate 25 'A') 25 5,
          ChainCall.set_from_seqres false] }
      (List.replicate 25 'A') 25 5 (by decide) (by decide) (by decide)).2
      (by decide) (by decide) (by decide))⟩

/-- C8: when the chain ID of a polymer is carried by no other polymer and
its input sequence record has exactly as many entries as the polymer has
residues, the chain is marked `from_seqres`, keeps the polymer's residues in
order, and the only call made for it is `set_from_seqres(true)` (no
alignment), whatever the names in the record are. The loop body forms this
chain for the polymer, and it is the chain at the polymer's position
whenever `make_chains` returns. -/
theorem make_chains_seqres_same_size (E : SeqAssoc) (S : AtomicStructure) (i : Nat)
    (pi : List Residue) (three_let_seq : List ResName)
    (hi : (polymers S E.default_consider_missing_structure E.default_consider_chain_ids)[i]?
      = some pi)
    (hseq : S.input_seq_info.lookup (S.chain_id (first_residue pi)) = some three_let_seq)
    (huniq : ∀ j pj,
      (polymers S E.default_consider_missing_structure E.default_consider_chain_ids)[j]?
        = some pj →
      S.chain_id (first_residue pj) = S.chain_id (first_residue pi) → j = i)
    (hlen : three_let_seq.length = pi.length) :
    ∃ cr, make_chain E S (build_unique_chain_id S
          (polymers S E.default_consider_missing_structure E.default_consider_chain_ids)) pi
        = some cr
      ∧ (∀ chains, make_chains E S = some chains → chains[i]? = some cr)
      ∧ cr.chain.from_seqres = true
      ∧ cr.chain.residues = pi.map some
      ∧ cr.calls = [ChainCall.set_from_seqres true] := by
  have hu : build_unique_chain_id S
      (polymers S E.default_consider_missing_structure E.default_consider_chain_ids)
      (S.chain_id (first_residue pi)) = some true := by
    unfold build_unique_chain_id
    rw [lookup_some_not_isEmpty _ _ _ hseq]
    simp only [Bool.false_eq_true, if_false]
    exact unique_foldl_single S _ _ _ i pi rfl hi rfl huniq
  have hmk : make_chain E S (build_unique_chain_id S
      (polymers S E.default_consider_missing_structure E.default_consider_chain_ids)) pi
      = some { chain := { chain_from_structure E S (S.chain_id (first_residue pi)) pi with
                 from_seqres := true },
               calls := [ChainCall.set_from_seqres true] } := by
    unfold make_chain
    simp only [hseq, hu, Option.getD_some, if_true]
    rw [if_pos (by simp [chain_from_structure, hlen])]
  exact ⟨_, hmk, make_chains_of_make_chain E S i pi _ hi hmk, rfl, rfl, rfl⟩

/-- Instance of C8 on `example_structure`: chain `A` has three residues and a
record of three names; the run returns, and its first chain is marked `from_seqres`. -/
theorem make_chains_seqres_same_size_witness :
    ∃ chains cr, make_chains example_seq_assoc example_structure = some chains
      ∧ chains[0]? = some cr
      ∧ cr.chain.from_seqres = true
      ∧ cr.chain.residues = [some 10, some 11, some 12]
      ∧ cr.calls = [ChainCall.set_from_seqres true] :=
  Exists.elim example_structure_make_chains_returns (fun chains hchains =>
    Exists.elim
      (make_chains_seqres_same_size example_seq_assoc example_structure 0 [10, 11, 12]
        ["ALA", "ALA", "ALA"] (by decide) (by decide)
        (by
          intro j pj hj hc
          have h2 : polymers example_structure true true = [[10, 11, 12], [13, 14]] := by
            decide
          change (polymers example_structure true true)[j]? = some pj at hj
          rw [h2] at hj
          match j, hj with
          | 0, _ => rfl
          | 1, hj =>
            simp only [List.getElem?_cons_succ, List.getElem?_cons_zero,
              Option.some.injEq] at hj
            subst hj
            exact absurd hc (by decide)
          | j + 2, hj => simp at hj)
        (by decide))
      (fun cr hcr => ⟨chains, cr, hchains, hcr.2.1 chains hchains, hcr.2.2⟩))

/-- C9: when the input sequence record for the chain ID of a polymer has
fewer entries than the polymer has residues, the chain keeps the polymer's
residues, is not marked `from_seqres`, and neither `set_from_seqres` nor the
alignment (`estimate_assoc_params`, `try_assoc`) is called for it. The loop body
forms this chain for the polymer, and it is the chain at the polymer's
position whenever `make_chains` returns. -/
theorem make_chains_seqres_incomplete (E : SeqAssoc) (S : AtomicStructure) (i : Nat)
    (pi : List Residue) (three_let_seq : List ResName)
    (hi : (polymers S E.default_consider_missing_structure E.default_consider_chain_ids)[i]?
      = some pi)
    (hseq : S.input_seq_info.lookup (S.chain_id (first_residue pi)) = some three_let_seq)
    (hlen : three_let_seq.length < pi.length) :
    ∃ cr, make_chain E S (build_unique_chain_id S
          (polymers S E.default_consider_missing_structure E.default_consider_chain_ids)) pi
        = some cr
      ∧ (∀ chains, make_chains E S = some chains → chains[i]? = some cr)
      ∧ cr.chain.residues = pi.map some
      ∧ cr.chain.from_seqres = false
      ∧ (∀ b, ChainCall.set_from_seqres b ∉ cr.calls)
      ∧ ChainCall.estimate_assoc_params ∉ cr.calls
      ∧ (∀ sr_seq est_len m, ChainCall.try_assoc sr_seq est_len m ∉ cr.calls) := by
  have hne : ¬ three_let_seq.length
      = (chain_from_structure E S (S.chain_id (first_residue pi)) pi).contents.length := by
    simp [chain_from_structure]; omega
  have hlt : three_let_seq.length
      < (chain_from_structure E S (S.chain_id (first_residue pi)) pi).contents.length := by
    simp [chain_from_structure]; omega
  have hmk : ∃ calls, make_chain E S (build_unique_chain_id S
      (polymers S E.default_consider_missing_structure E.default_consider_chain_ids)) pi
      = some { chain := chain_from_structure E S (S.chain_id (first_residue pi)) pi,
               calls := calls }
      ∧ (calls = [] ∨ calls = [ChainCall.warning_incomplete]) := by
    unfold make_chain
    simp only [hseq]
    rw [if_neg hne, if_pos hlt]
    split
    · exact ⟨_, rfl, Or.inr rfl⟩
    · exact ⟨_, rfl, Or.inl rfl⟩
  obtain ⟨calls, hmk, hcalls⟩ := hmk
  refine ⟨_, hmk, make_chains_of_make_chain E S i pi _ hi hmk, rfl, rfl, ?_⟩
  rcases hcalls with h | h
  · rw [h]
    refine ⟨?_, ?_, ?_⟩ <;> simp
  · rw [h]
    refine ⟨?_, ?_, ?_⟩ <;> simp

/-- Instance of C9 on `example_structure`: chain `B` has two residues and a
record of one name; the run returns, and its second chain is formed from
structure without alignment. -/
theorem make_chains_seqres_incomplete_witness :
    ∃ chains cr, make_chains example_seq_assoc example_structure = some chains
      ∧ chains[1]? = some cr
      ∧ cr.chain.residues = [some 13, some 14]
      ∧ cr.chain.from_seqres = false
      ∧ (∀ b, ChainCall.set_from_seqres b ∉ cr.calls)
      ∧ ChainCall.estimate_assoc_params ∉ cr.calls
      ∧ (∀ sr_seq est_len m, ChainCall.try_assoc sr_seq est_len m ∉ cr.calls) :=
  Exists.elim example_structure_make_chains_returns (fun chains hchains =>
    Exists.elim
      (make_chains_seqres_incomplete example_seq_assoc example_structure 1 [13, 14] ["ALA"]
        (by decide) (by decide) (by decide))
      (fun cr hcr => ⟨chains, cr, hchains, hcr.2.1 chains hchains, hcr.2.2⟩))

end atomstruct

/-! ## Lemmas about association lists -/

theorem lookup_of_mem_of_nodup {α β : Type} [BEq α] [LawfulBEq α] :
    ∀ (l : List (α × β)) (k : α) (v : β), (l.map Prod.fst).Nodup → (k, v) ∈ l →
      l.lookup k = some v := by
  intro l
  induction l with
  | nil => intro k v _ h; cases h
  | cons e t ih =>
    intro k v hnd h
    obtain ⟨k', v'⟩ := e
    simp only [List.map_cons, List.nodup_cons] at hnd
    rcases List.mem_cons.mp h with h1 | h1
    · cases h1
      simp [List.lookup]
    · have hne : k ≠ k' := by
        intro hk
        apply hnd.1
        rw [← hk]
        exact List.mem_map_of_mem Prod.fst h1
      have hbeq : (k == k') = false := by simpa using hne
      rw [List.lookup, hbeq]
      exact ih k v hnd.2 h1

theorem mem_of_lookup_eq_some {α β : Type} [BEq α] [LawfulBEq α] :
    ∀ (l : List (α × β)) (k : α) (v : β), l.lookup k = some v → (k, v) ∈ l := by
  intro l
  induction l with
  | nil => intro k v h; simp at h
  | cons e t ih =>
    intro k v h
    obtain ⟨k', v'⟩ := e
    by_cases hk : k = k'
    · subst hk
      simp [List.lookup] at h
      simp [h]
    · have hbeq : (k == k') = false := by simpa using hk
      rw [List.lookup, hbeq] at h
      exact List.mem_cons_of_mem _ (ih k v h)

namespace blob

/-! ## Lemmas about `sb_pbg_map` -/

end blob

namespace atomstruct

/-! ## Lemmas about the containers of `_compute_structure_cats` -/

theorem mem_set_insert (a x : Nat) : ∀ (l : List Nat), x ∈ set_insert a l ↔ x = a ∨ x ∈ l := by
  intro l
  induction l with
  | nil => simp [set_insert]
  | cons b l ih =>
    unfold set_insert
    by_cases h1 : a < b
    · rw [if_pos h1]; simp
    · rw [if_neg h1]
      by_cases h2 : b < a
      · rw [if_pos h2, List.mem_cons, ih, List.mem_cons]
        tauto
      · rw [if_neg h2]
        have : a = b := by omega
        subst this
        simp

theorem mem_set_erase (a x : Nat) (l : List Nat) : x ∈ set_erase a l ↔ x ∈ l ∧ x ≠ a := by
  simp [set_erase]

theorem lookup_omap_insert_same {V : Type} (k : Nat) (v : V) :
    ∀ (m : List (Nat × V)), (omap_insert ptr_lt k v m).lookup k = some v := by
  intro m
  induction m with
  | nil => simp [omap_insert, List.lookup]
  | cons e m ih =>
    unfold omap_insert
    by_cases h1 : k < e.1
    · simp [ptr_lt, h1, List.lookup]
    · by_cases h2 : e.1 < k
      · have hne : (k == e.1) = false := by simp; omega
        obtain ⟨k', v'⟩ := e
        simp only [ptr_lt, h1, h2, decide_False, decide_True, Bool.false_eq_true, if_false,
          if_true, List.lookup]
        simp only at hne
        rw [hne]
        exact ih
      · simp [ptr_lt, h1, h2, List.lookup]

theorem lookup_omap_insert_other {V : Type} (k k' : Nat) (v : V) (hne : k' ≠ k) :
    ∀ (m : List (Nat × V)), (omap_insert ptr_lt k v m).lookup k' = m.lookup k' := by
  intro m
  have hb : (k' == k) = false := by simpa using hne
  induction m with
  | nil => simp [omap_insert, List.lookup, hb]
  | cons e m ih =>
    obtain ⟨k2, v2⟩ := e
    unfold omap_insert
    by_cases h1 : k < k2
    · simp only [ptr_lt, h1, decide_True, if_true]
      rw [List.lookup, hb]
    · by_cases h2 : k2 < k
      · simp only [ptr_lt, h1, h2, decide_False, decide_True, Bool.false_eq_true, if_false,
          if_true]
        by_cases h3 : k' = k2
        · subst h3
          simp [List.lookup]
        · have hb2 : (k' == k2) = false := by simpa using h3
          rw [List.lookup, hb2, List.lookup, hb2]
          exact ih
      · have hk : k = k2 := by omega
        subst hk
        simp only [ptr_lt, h1, decide_False, Bool.false_eq_true, if_false]
        rw [List.lookup, hb, List.lookup, hb]

theorem hasGroup_of_mem (gl : List (Atom × List Atom)) (r : Atom) (g : List Atom)
    (h : (r, g) ∈ gl) : HasGroup gl r := by
  induction gl with
  | nil => cases h
  | cons e gl ih =>
    obtain ⟨k, v⟩ := e
    unfold HasGroup group_of
    by_cases hk : r = k
    · subst hk
      exact ⟨v, by simp [List.lookup]⟩
    · have hb : (r == k) = false := by simpa using hk
      rw [List.lookup, hb]
      rcases List.mem_cons.mp h with h1 | h1
      · cases h1; exact absurd rfl hk
      · exact ih h1

theorem mem_of_hasGroup (gl : List (Atom × List Atom)) (r : Atom) (h : HasGroup gl r) :
    ∃ g, (r, g) ∈ gl := by
  obtain ⟨g, hg⟩ := h
  exact ⟨g, mem_of_lookup_eq_some gl r g hg⟩

theorem catMono_refl (cat : Atom → Option StructCat) : CatMono cat cat := fun _ h => h

theorem catMono_trans (c1 c2 c3 : Atom → Option StructCat) (h12 : CatMono c1 c2)
    (h23 : CatMono c2 c3) : CatMono c1 c3 := fun a h => h23 a (h12 a h)

theorem assign_atoms_spec (c : StructCat) :
    ∀ (atoms : List Atom) (cat : Atom → Option StructCat),
      CatMono cat (assign_atoms c atoms cat) ∧ ∀ a ∈ atoms, assign_atoms c atoms cat a ≠ none := by
  intro atoms
  induction atoms with
  | nil => intro cat; exact ⟨catMono_refl cat, fun a h => by cases h⟩
  | cons x atoms ih =>
    intro cat
    unfold assign_atoms
    rw [List.foldl_cons]
    have ih1 := ih (map_set cat x (some c))
    unfold assign_atoms at ih1
    have hm : CatMono cat (map_set cat x (some c)) := by
      intro a ha
      unfold map_set
      split
      · simp
      · exact ha
    constructor
    · exact catMono_trans _ _ _ hm ih1.1
    · intro a ha
      rcases List.mem_cons.mp ha with h1 | h1
      · subst h1
        exact ih1.1 a (by simp [map_set])
      · exact ih1.2 a h1

theorem covered_mono (gl : List (Atom × List Atom)) (cat cat' : Atom → Option StructCat)
    (r : Atom) (hm : CatMono cat cat') (h : Covered gl cat r) : Covered gl cat' r :=
  fun g hg a ha => hm a (h g hg a ha)

/-- Invariant scheme for a loop with failure: `P` holds of the state
throughout, `R` relates an earlier to a later state, and `D a` holds of the
state once element `a` was processed. -/
theorem foldlM_option_spec {σ α : Type} (f : σ → α → Option σ) (P : σ → Prop)
    (R : σ → σ → Prop) (Q : α → Prop) (D : α → σ → Prop)
    (hrefl : ∀ s, R s s) (htrans : ∀ a b c, R a b → R b c → R a c)
    (hD : ∀ a s s', D a s → R s s' → D a s')
    (hstep : ∀ s a, P s → Q a → ∃ s', f s a = some s' ∧ P s' ∧ R s s' ∧ D a s') :
    ∀ (L : List α) (s : σ), P s → (∀ a ∈ L, Q a) →
      ∃ s', L.foldlM f s = some s' ∧ P s' ∧ R s s' ∧ ∀ a ∈ L, D a s' := by
  intro L
  induction L with
  | nil =>
    intro s hP _
    exact ⟨s, rfl, hP, hrefl s, fun a h => by cases h⟩
  | cons x L ih =>
    intro s hP hQ
    obtain ⟨s1, h1, hP1, hR1, hD1⟩ := hstep s x hP (hQ x (by simp))
    obtain ⟨s2, h2, hP2, hR2, hD2⟩ := ih s1 hP1 (fun a ha => hQ a (by simp [ha]))
    refine ⟨s2, ?_, hP2, htrans _ _ _ hR1 hR2, ?_⟩
    · rw [List.foldlM_cons, h1]
      exact h2
    · intro a ha
      rcases List.mem_cons.mp ha with h3 | h3
      · subst h3
        exact hD _ _ _ hD1 hR2
      · exact hD2 a h3

/-! ## The maps built from the bonded groups -/

theorem hasGroup_omap_insert (gl : List (Atom × List Atom)) (k r : Atom) (g : List Atom) :
    HasGroup (omap_insert ptr_lt k g gl) r ↔ r = k ∨ HasGroup gl r := by
  unfold HasGroup group_of
  by_cases h : r = k
  · subst h
    rw [lookup_omap_insert_same]
    simp
  · rw [lookup_omap_insert_other k r g h]
    simp [h]

theorem atom_to_root_foldl (root : Atom) :
    ∀ (grp : List Atom) (f : Atom → Option Atom) (a : Atom),
      (a ∈ grp → grp.foldl (fun f a => map_set f a (some root)) f a = some root) ∧
      (a ∉ grp → grp.foldl (fun f a => map_set f a (some root)) f a = f a) := by
  intro grp
  induction grp with
  | nil => intro f a; simp
  | cons x grp ih =>
    intro f a
    rw [List.foldl_cons]
    have ih1 := ih (map_set f x (some root)) a
    constructor
    · intro ha
      by_cases hg : a ∈ grp
      · exact ih1.1 hg
      · rw [ih1.2 hg]
        rcases List.mem_cons.mp ha with h1 | h1
        · subst h1; simp [map_set]
        · exact absurd h1 hg
    · intro ha
      have hx : a ≠ x := fun h => ha (by simp [h])
      have hg : a ∉ grp := fun h => ha (by simp [h])
      rw [ih1.2 hg]
      exact map_set_other _ _ _ _ hx

theorem build_group_maps_foldlM :
    ∀ (rest prev : List (List Atom)) (m0 : GroupMaps),
      (∀ g ∈ prev ++ rest, g ≠ []) → (prev ++ rest).Pairwise List.Disjoint →
      GroupMapsFor prev m0 →
      ∃ m, rest.foldlM group_step m0 = some m ∧ GroupMapsFor (prev ++ rest) m := by
  intro rest
  induction rest with
  | nil =>
    intro prev m0 _ _ h0
    exact ⟨m0, rfl, by simpa using h0⟩
  | cons g rest ih =>
    intro prev m0 hne hdis h0
    have hg : g ≠ [] := hne g (by simp)
    obtain ⟨r, t, hrt⟩ := List.exists_cons_of_ne_nil hg
    have hstep : group_step m0 g
        = some { group_lookup := omap_insert ptr_lt r g m0.group_lookup,
                 atom_to_root := g.foldl (fun f a => map_set f a (some r)) m0.atom_to_root } := by
      subst hrt
      rfl
    have hprev : GroupMapsFor (prev ++ [g])
        { group_lookup := omap_insert ptr_lt r g m0.group_lookup,
          atom_to_root := g.foldl (fun f a => map_set f a (some r)) m0.atom_to_root } := by
      obtain ⟨h1, h2, h3⟩ := h0
      have hrg : r ∈ g := by rw [hrt]; simp
      have hhead : g.head? = some r := by rw [hrt]; rfl
      refine ⟨?_, ?_, ?_⟩
      · intro g' hg'
        rcases List.mem_append.mp hg' with h4 | h4
        · obtain ⟨r', hr', hl'⟩ := h1 g' h4
          refine ⟨r', hr', ?_⟩
          have hr'g : r' ∈ g' := List.mem_of_mem_head? hr'
          have hne' : r' ≠ r := by
            intro he
            have hd : List.Disjoint g' g := by
              have := (List.pairwise_append.mp hdis).2.2 g' h4 g (by simp)
              exact this
            exact hd hr'g (he ▸ hrg)
          unfold group_of
          simp only
          rw [lookup_omap_insert_other r r' g hne']
          exact hl'
        · simp only [List.mem_singleton] at h4
          subst h4
          exact ⟨r, hhead, by unfold group_of; simp only; exact lookup_omap_insert_same r g' _⟩
      · intro k hk
        rcases (hasGroup_omap_insert _ _ _ _).mp hk with h4 | h4
        · subst h4
          exact ⟨g, by simp, hhead⟩
        · obtain ⟨g', hg', hh⟩ := h2 k h4
          exact ⟨g', by simp [hg'], hh⟩
      · intro g' hg' a ha
        by_cases hag : a ∈ g
        · refine ⟨r, (atom_to_root_foldl r g _ a).1 hag, ?_⟩
          exact (hasGroup_omap_insert _ _ _ _).mpr (Or.inl rfl)
        · have hg'p : g' ∈ prev := by
            rcases List.mem_append.mp hg' with h4 | h4
            · exact h4
            · simp only [List.mem_singleton] at h4
              subst h4
              exact absurd ha hag
          obtain ⟨rt, hrt', hh⟩ := h3 g' hg'p a ha
          refine ⟨rt, ?_, (hasGroup_omap_insert _ _ _ _).mpr (Or.inr hh)⟩
          simp only
          rw [(atom_to_root_foldl r g _ a).2 hag]
          exact hrt'
    have happ : prev ++ g :: rest = (prev ++ [g]) ++ rest := by simp
    obtain ⟨m, hm, hfor⟩ := ih (prev ++ [g]) _ (happ ▸ hne) (happ ▸ hdis) hprev
    refine ⟨m, ?_, happ ▸ hfor⟩
    rw [List.foldlM_cons, hstep]
    exact hm

theorem build_group_maps_spec (bonded : List (List Atom)) (hne : ∀ g ∈ bonded, g ≠ [])
    (hdis : bonded.Pairwise List.Disjoint) :
    ∃ m, build_group_maps bonded = some m ∧ GroupMapsFor bonded m := by
  have h0 : GroupMapsFor [] { group_lookup := [], atom_to_root := fun _ => none } := by
    refine ⟨?_, ?_, ?_⟩
    · intro g h
      cases h
    · intro r h
      obtain ⟨g, hg⟩ := h
      simp [group_of] at hg
    · intro g h
      cases h
  have h := build_group_maps_foldlM bonded [] { group_lookup := [], atom_to_root := fun _ => none }
    (by simpa using hne) (by simpa using hdis) h0
  simpa [build_group_maps] using h

/-! ## The solvent section -/

theorem segregate_foldl (S : AtomicStructure) :
    ∀ (L : List (Atom × List Atom)) (st : List Atom × List Atom) (r : Atom),
      (r ∈ (L.foldl (segregate_step S) st).1 ∨ r ∈ (L.foldl (segregate_step S) st).2)
        ↔ (r ∈ st.1 ∨ r ∈ st.2 ∨ ∃ g, (r, g) ∈ L) := by
  intro L
  induction L with
  | nil => intro st r; simp
  | cons e L ih =>
    intro st r
    rw [List.foldl_cons, ih]
    have hstep : (r ∈ (segregate_step S st e).1 ∨ r ∈ (segregate_step S st e).2)
        ↔ (r ∈ st.1 ∨ r ∈ st.2 ∨ r = e.1) := by
      unfold segregate_step
      simp only
      split
      · simp only [List.mem_append, List.mem_singleton]; tauto
      · split
        · simp only [List.mem_append, List.mem_singleton]; tauto
        · simp only [mem_set_insert]; tauto
    constructor
    · intro h
      rcases h with h | h | ⟨g, hg⟩
      · rcases hstep.mp (Or.inl h) with h1 | h1 | h1
        · exact Or.inl h1
        · exact Or.inr (Or.inl h1)
        · exact Or.inr (Or.inr ⟨e.2, by rw [h1]; simp⟩)
      · rcases hstep.mp (Or.inr h) with h1 | h1 | h1
        · exact Or.inl h1
        · exact Or.inr (Or.inl h1)
        · exact Or.inr (Or.inr ⟨e.2, by rw [h1]; simp⟩)
      · exact Or.inr (Or.inr ⟨g, by simp [hg]⟩)
    · intro h
      rcases h with h | h | ⟨g, hg⟩
      · rcases hstep.mpr (Or.inl h) with h1 | h1
        · exact Or.inl h1
        · exact Or.inr (Or.inl h1)
      · rcases hstep.mpr (Or.inr (Or.inl h)) with h1 | h1
        · exact Or.inl h1
        · exact Or.inr (Or.inl h1)
      · rcases List.mem_cons.mp hg with h1 | h1
        · have : r = e.1 := by rw [← h1]
          rcases hstep.mpr (Or.inr (Or.inr this)) with h2 | h2
          · exact Or.inl h2
          · exact Or.inr (Or.inl h2)
        · exact Or.inr (Or.inr ⟨g, h1⟩)

/-- The small solvents and the initial `root_set` together are the keys of `group_lookup`. -/
theorem segregate_spec (S : AtomicStructure) (gl : List (Atom × List Atom)) (r : Atom) :
    (r ∈ (segregate S gl).1 ∨ r ∈ (segregate S gl).2) ↔ HasGroup gl r := by
  unfold segregate
  rw [segregate_foldl]
  constructor
  · intro h
    rcases h with h | h | ⟨g, hg⟩
    · cases h
    · cases h
    · exact hasGroup_of_mem gl r g hg
  · intro h
    exact Or.inr (Or.inr (mem_of_hasGroup gl r h))

theorem erase_assign_step_inv (gl : List (Atom × List Atom)) (c : StructCat)
    (s : List Atom × (Atom → Option StructCat)) (r : Atom) (g : List Atom)
    (hs : CatInv gl s) (hg : group_of gl r = some g) :
    CatInv gl (set_erase r s.1, assign_atoms c g s.2) := by
  constructor
  · intro k hk
    exact hs.1 k ((mem_set_erase r k s.1).mp hk).1
  · intro k hk
    rcases hs.2 k hk with h4 | h4
    · by_cases hkr : k = r
      · right
        subst hkr
        intro g' hg' a ha
        rw [hg] at hg'
        cases hg'
        exact (assign_atoms_spec c g s.2).2 a ha
      · left
        exact (mem_set_erase r k s.1).mpr ⟨h4, hkr⟩
    · right
      exact covered_mono gl _ _ k (assign_atoms_spec c g s.2).1 h4

theorem erase_assign_foldlM (gl : List (Atom × List Atom)) (c : StructCat)
    (L : List Atom) (st : List Atom × (Atom → Option StructCat))
    (hL : ∀ r ∈ L, HasGroup gl r) (hinv : CatInv gl st) :
    ∃ st', L.foldlM (erase_assign_step gl c) st = some st' ∧ CatInv gl st'
      ∧ CatMono st.2 st'.2 := by
  obtain ⟨st', h1, h2, h3, _⟩ := foldlM_option_spec (erase_assign_step gl c) (CatInv gl)
    (fun s s' => CatMono s.2 s'.2) (HasGroup gl) (fun _ _ => True)
    (fun s => catMono_refl s.2) (fun a b c h1 h2 => catMono_trans _ _ _ h1 h2)
    (fun _ _ _ _ _ => trivial)
    (by
      intro s r hs hr
      obtain ⟨g, hg⟩ := hr
      refine ⟨(set_erase r s.1, assign_atoms c g s.2), ?_,
        erase_assign_step_inv gl c s r g hs hg, (assign_atoms_spec c g s.2).1, trivial⟩
      unfold erase_assign_step
      rw [hg])
    L st hinv hL
  exact ⟨st', h1, h2, h3⟩

/-- Whenever a loop that erases and assigns runs to its end, it keeps the invariant. -/
theorem erase_assign_foldlM_inv (gl : List (Atom × List Atom)) (c : StructCat) :
    ∀ (L : List Atom) (st st' : List Atom × (Atom → Option StructCat)),
      CatInv gl st → L.foldlM (erase_assign_step gl c) st = some st' → CatInv gl st' := by
  intro L
  induction L with
  | nil =>
    intro st st' hinv h
    simp only [List.foldlM_nil] at h
    cases h
    exact hinv
  | cons r L ih =>
    intro st st' hinv h
    rw [List.foldlM_cons] at h
    cases hg : group_of gl r with
    | none =>
      have : erase_assign_step gl c st r = none := by
        unfold erase_assign_step
        rw [hg]
      rw [this] at h
      cases h
    | some g =>
      have : erase_assign_step gl c st r = some (set_erase r st.1, assign_atoms c g st.2) := by
        unfold erase_assign_step
        rw [hg]
      rw [this] at h
      exact ih _ st' (erase_assign_step_inv gl c st r g hinv hg) h

theorem assign_foldlM (gl : List (Atom × List Atom)) (c : StructCat)
    (L : List Atom) (cat : Atom → Option StructCat) (hL : ∀ r ∈ L, HasGroup gl r) :
    ∃ cat', L.foldlM (assign_step gl c) cat = some cat' ∧ CatMono cat cat'
      ∧ ∀ r ∈ L, Covered gl cat' r := by
  obtain ⟨cat', h1, _, h3, h4⟩ := foldlM_option_spec (assign_step gl c) (fun _ => True)
    CatMono (HasGroup gl) (fun r s => Covered gl s r)
    catMono_refl catMono_trans
    (fun r s s' hD hR => covered_mono gl s s' r hR hD)
    (by
      intro s r _ hr
      obtain ⟨g, hg⟩ := hr
      refine ⟨assign_atoms c g s, ?_, trivial, (assign_atoms_spec c g s).1, ?_⟩
      · unfold assign_step
        rw [hg]
      · intro g' hg' a ha
        rw [hg] at hg'
        cases hg'
        exact (assign_atoms_spec c g s).2 a ha)
    L cat trivial hL
  exact ⟨cat', h1, h3, h4⟩

theorem omap_push_values {K : Type} (lt : K → K → Bool) (Q : Atom → Prop) (k : K) (a : Atom)
    (ha : Q a) :
    ∀ (m : List (K × List Atom)), (∀ e ∈ m, ∀ r ∈ e.2, Q r) →
      ∀ e ∈ omap_push lt k a m, ∀ r ∈ e.2, Q r := by
  intro m
  induction m with
  | nil =>
    intro _ e he r hr
    simp only [omap_push, List.mem_singleton] at he
    subst he
    simp only [List.mem_singleton] at hr
    subst hr
    exact ha
  | cons x m ih =>
    intro hm e he r hr
    unfold omap_push at he
    split at he
    · rcases List.mem_cons.mp he with h1 | h1
      · subst h1
        simp only [List.mem_singleton] at hr
        subst hr
        exact ha
      · exact hm e h1 r hr
    · split at he
      · rcases List.mem_cons.mp he with h1 | h1
        · subst h1
          exact hm e (by simp) r hr
        · exact ih (fun e' he' => hm e' (by simp [he'])) e h1 r hr
      · rcases List.mem_cons.mp he with h1 | h1
        · subst h1
          simp only [List.mem_append, List.mem_singleton] at hr
          rcases hr with h2 | h2
          · exact hm x (by simp) r h2
          · subst h2
            exact ha
        · exact hm e (by simp [h1]) r hr

theorem solvent_candidates_spec (S : AtomicStructure) (gl : List (Atom × List Atom))
    (small_solvents root_set : List Atom) (hs : ∀ r ∈ small_solvents, HasGroup gl r)
    (hr : ∀ r ∈ root_set, HasGroup gl r) :
    ∃ solvents, solvent_candidates S gl small_solvents root_set = some solvents
      ∧ ∀ e ∈ solvents, ∀ r ∈ e.2, HasGroup gl r := by
  obtain ⟨solvents, h1, h2, _, _⟩ := foldlM_option_spec (candidate_step S gl)
    (fun solvents : List (String × List Atom) => ∀ e ∈ solvents, ∀ r ∈ e.2, HasGroup gl r)
    (fun _ _ => True) (HasGroup gl) (fun _ _ => True)
    (fun _ => trivial) (fun _ _ _ _ _ => trivial) (fun _ _ _ _ _ => trivial)
    (by
      intro s r hs' hr'
      obtain ⟨g, hg⟩ := hr'
      unfold candidate_step
      rw [hg]
      simp only
      split
      · exact ⟨s, rfl, hs', trivial, trivial⟩
      · split
        · exact ⟨s, rfl, hs', trivial, trivial⟩
        · exact ⟨_, rfl, omap_push_values string_lt (HasGroup gl) _ r ⟨g, hg⟩ s hs',
            trivial, trivial⟩)
    root_set (omap_insert string_lt "small solvents" small_solvents [])
    (by
      intro e he r hr'
      simp only [omap_insert, List.mem_singleton] at he
      subst he
      exact hs r hr')
    hr
  exact ⟨solvents, h1, h2⟩

/-- The solvent section succeeds and establishes the invariant. -/
theorem assign_solvent_spec (S : AtomicStructure) (gl : List (Atom × List Atom))
    (cat : Atom → Option StructCat) :
    ∃ st1, assign_solvent S gl cat = some st1 ∧ CatInv gl st1 := by
  have hsmall : ∀ r ∈ (segregate S gl).1, HasGroup gl r :=
    fun r hr => (segregate_spec S gl r).mp (Or.inl hr)
  have hroot : ∀ r ∈ (segregate S gl).2, HasGroup gl r :=
    fun r hr => (segregate_spec S gl r).mp (Or.inr hr)
  obtain ⟨solvents, hsol, hvals⟩ := solvent_candidates_spec S gl _ _ hsmall hroot
  obtain ⟨cat1, hcat1, _, hcov⟩ := assign_foldlM gl StructCat.Solvent _ cat hsmall
  have hinv : CatInv gl ((segregate S gl).2, cat1) := by
    constructor
    · exact hroot
    · intro r hr
      rcases (segregate_spec S gl r).mpr hr with h | h
      · exact Or.inr (hcov r h)
      · exact Or.inl h
  unfold assign_solvent
  simp only [hsol, hcat1]
  split
  · have hbest : ∀ r ∈ (solvents.lookup (best_solvent_name solvents)).getD [],
        HasGroup gl r := by
      intro r hr
      cases hl : solvents.lookup (best_solvent_name solvents) with
      | none => rw [hl] at hr; cases hr
      | some v =>
        rw [hl] at hr
        exact hvals _ (mem_of_lookup_eq_some solvents _ v hl) r hr
    obtain ⟨st', h1, h2, _⟩ := erase_assign_foldlM gl StructCat.Solvent _ _ hbest hinv
    exact ⟨st', h1, h2⟩
  · exact ⟨_, rfl, hinv⟩

/-! ## The ion section -/

theorem single_ion_foldlM (S : AtomicStructure) (gl : List (Atom × List Atom))
    (L ions : List Atom) (hL : ∀ r ∈ L, HasGroup gl r) (hi : ∀ r ∈ ions, HasGroup gl r) :
    ∃ ions', L.foldlM (single_ion_step S gl) ions = some ions'
      ∧ ∀ r ∈ ions', HasGroup gl r := by
  obtain ⟨ions', h1, h2, _, _⟩ := foldlM_option_spec (single_ion_step S gl)
    (fun ions : List Atom => ∀ r ∈ ions, HasGroup gl r)
    (fun _ _ => True) (HasGroup gl) (fun _ _ => True)
    (fun _ => trivial) (fun _ _ _ _ _ => trivial) (fun _ _ _ _ _ => trivial)
    (by
      intro s r hs hr
      obtain ⟨g, hg⟩ := hr
      unfold single_ion_step
      rw [hg]
      simp only
      split
      · split
        · refine ⟨_, rfl, ?_, trivial, trivial⟩
          intro k hk
          rcases (mem_set_insert r k s).mp hk with h3 | h3
          · subst h3; exact ⟨g, hg⟩
          · exact hs k h3
        · exact ⟨s, rfl, hs, trivial, trivial⟩
      · exact ⟨s, rfl, hs, trivial, trivial⟩)
    L ions hi hL
  exact ⟨ions', h1, h2⟩

theorem seen_roots_foldlM (gl : List (Atom × List Atom)) (atom_to_root : Atom → Option Atom)
    (L seen : List Atom)
    (hL : ∀ a ∈ L, ∃ rt, atom_to_root a = some rt ∧ HasGroup gl rt)
    (hs : ∀ r ∈ seen, HasGroup gl r) :
    ∃ seen', L.foldlM (seen_roots_step atom_to_root) seen = some seen'
      ∧ ∀ r ∈ seen', HasGroup gl r := by
  obtain ⟨seen', h1, h2, _, _⟩ := foldlM_option_spec (seen_roots_step atom_to_root)
    (fun seen : List Atom => ∀ r ∈ seen, HasGroup gl r)
    (fun _ _ => True) (fun a => ∃ rt, atom_to_root a = some rt ∧ HasGroup gl rt)
    (fun _ _ => True)
    (fun _ => trivial) (fun _ _ _ _ _ => trivial) (fun _ _ _ _ _ => trivial)
    (by
      intro s a hs' ha
      obtain ⟨rt, hrt, hg⟩ := ha
      unfold seen_roots_step
      rw [hrt]
      simp only
      split
      · exact ⟨s, rfl, hs', trivial, trivial⟩
      · refine ⟨_, rfl, ?_, trivial, trivial⟩
        intro k hk
        rcases (mem_set_insert rt k s).mp hk with h3 | h3
        · subst h3; exact hg
        · exact hs' k h3)
    L seen hs hL
  exact ⟨seen', h1, h2⟩

theorem add_segment_foldlM (S : AtomicStructure) (gl : List (Atom × List Atom))
    (L ions : List Atom) (hL : ∀ r ∈ L, HasGroup gl r) (hi : ∀ r ∈ ions, HasGroup gl r) :
    ∃ ions', L.foldlM (add_segment_step S gl) ions = some ions'
      ∧ ∀ r ∈ ions', HasGroup gl r := by
  obtain ⟨ions', h1, h2, _, _⟩ := foldlM_option_spec (add_segment_step S gl)
    (fun ions : List Atom => ∀ r ∈ ions, HasGroup gl r)
    (fun _ _ => True) (HasGroup gl) (fun _ _ => True)
    (fun _ => trivial) (fun _ _ _ _ _ => trivial) (fun _ _ _ _ _ => trivial)
    (by
      intro s r hs hr
      obtain ⟨g, hg⟩ := hr
      unfold add_segment_step
      split
      · exact ⟨s, rfl, hs, trivial, trivial⟩
      · rw [hg]
        simp only
        split
        · refine ⟨_, rfl, ?_, trivial, trivial⟩
          intro k hk
          rcases (mem_set_insert r k s).mp hk with h3 | h3
          · subst h3; exact ⟨g, hg⟩
          · exact hs k h3
        · exact ⟨s, rfl, hs, trivial, trivial⟩)
    L ions hi hL
  exact ⟨ions', h1, h2⟩

theorem expand_ion_foldlM (S : AtomicStructure) (m : GroupMaps)
    (hatoms : ∀ r, HasGroup m.group_lookup r → ∀ b ∈ S.res_atoms (S.atom_residue r),
      ∃ rt, m.atom_to_root b = some rt ∧ HasGroup m.group_lookup rt)
    (L : List Atom) (st : List Residue × List Atom)
    (hL : ∀ r ∈ L, HasGroup m.group_lookup r) (hi : ∀ r ∈ st.2, HasGroup m.group_lookup r) :
    ∃ st', L.foldlM (expand_ion_step S m) st = some st'
      ∧ ∀ r ∈ st'.2, HasGroup m.group_lookup r := by
  obtain ⟨st', h1, h2, _, _⟩ := foldlM_option_spec (expand_ion_step S m)
    (fun st : List Residue × List Atom => ∀ r ∈ st.2, HasGroup m.group_lookup r)
    (fun _ _ => True) (HasGroup m.group_lookup) (fun _ _ => True)
    (fun _ => trivial) (fun _ _ _ _ _ => trivial) (fun _ _ _ _ _ => trivial)
    (by
      intro s r hs hr
      obtain ⟨g, hg⟩ := hr
      unfold expand_ion_step
      rw [hg]
      simp only
      split
      · exact ⟨s, rfl, hs, trivial, trivial⟩
      · split
        · exact ⟨s, rfl, hs, trivial, trivial⟩
        · obtain ⟨seen, hseen, hsg⟩ := seen_roots_foldlM m.group_lookup m.atom_to_root
            (S.res_atoms (S.atom_residue r)) [r] (hatoms r ⟨g, hg⟩)
            (by intro k hk; simp only [List.mem_singleton] at hk; subst hk; exact ⟨g, hg⟩)
          obtain ⟨ions', hions, hig⟩ := add_segment_foldlM S m.group_lookup seen s.2 hsg hs
          rw [hseen]
          simp only
          rw [hions]
          exact ⟨_, rfl, hig, trivial, trivial⟩)
    L st hi hL
  exact ⟨st', h1, h2⟩

theorem collect_ions_spec (S : AtomicStructure) (m : GroupMaps)
    (hatoms : ∀ r, HasGroup m.group_lookup r → ∀ b ∈ S.res_atoms (S.atom_residue r),
      ∃ rt, m.atom_to_root b = some rt ∧ HasGroup m.group_lookup rt)
    (root_set : List Atom) (hroot : ∀ r ∈ root_set, HasGroup m.group_lookup r) :
    ∃ ions, collect_ions S m root_set = some ions ∧ ∀ r ∈ ions, HasGroup m.group_lookup r := by
  obtain ⟨ions0, h0, hg0⟩ := single_ion_foldlM S m.group_lookup root_set [] hroot
    (fun r hr => by cases hr)
  unfold collect_ions
  rw [h0]
  simp only
  split
  · obtain ⟨st', h1, hg1⟩ := expand_ion_foldlM S m hatoms ions0 ([], ions0) hg0 hg0
    rw [h1]
    exact ⟨st'.2, rfl, hg1⟩
  · exact ⟨ions0, rfl, hg0⟩

/-- The ion section succeeds and keeps the invariant. -/
theorem assign_ions_spec (S : AtomicStructure) (m : GroupMaps)
    (hatoms : ∀ r, HasGroup m.group_lookup r → ∀ b ∈ S.res_atoms (S.atom_residue r),
      ∃ rt, m.atom_to_root b = some rt ∧ HasGroup m.group_lookup rt)
    (st : List Atom × (Atom → Option StructCat)) (hinv : CatInv m.group_lookup st) :
    ∃ st2, assign_ions S m st = some st2 ∧ CatInv m.group_lookup st2 := by
  obtain ⟨ions, hions, hg⟩ := collect_ions_spec S m hatoms st.1 hinv.1
  obtain ⟨st2, h2, hinv2, _⟩ := erase_assign_foldlM m.group_lookup StructCat.Ions ions st hg hinv
  unfold assign_ions
  rw [hions]
  exact ⟨st2, h2, hinv2⟩

/-- Whenever the ion section runs to its end, it keeps the invariant. -/
theorem assign_ions_inv (S : AtomicStructure) (m : GroupMaps)
    (st st2 : List Atom × (Atom → Option StructCat)) (hinv : CatInv m.group_lookup st)
    (h : assign_ions S m st = some st2) : CatInv m.group_lookup st2 := by
  unfold assign_ions at h
  cases hions : collect_ions S m st.1 with
  | none => rw [hions] at h; cases h
  | some ions =>
    rw [hions] at h
    exact erase_assign_foldlM_inv m.group_lookup StructCat.Ions ions st st2 hinv h

/-! ## The ligand and main sections -/

theorem longest_foldlM (gl : List (Atom × List Atom)) (L : List Atom)
    (longest : Option (List Atom)) (hL : ∀ r ∈ L, HasGroup gl r) :
    ∃ longest', L.foldlM (longest_step gl) longest = some longest' := by
  obtain ⟨l', h1, _⟩ := foldlM_option_spec (longest_step gl)
    (fun _ => True) (fun _ _ => True) (HasGroup gl) (fun _ _ => True)
    (fun _ => trivial) (fun _ _ _ _ _ => trivial) (fun _ _ _ _ _ => trivial)
    (by
      intro s r _ hr
      obtain ⟨g, hg⟩ := hr
      unfold longest_step
      rw [hg]
      simp only
      cases s with
      | none => exact ⟨_, rfl, trivial, trivial, trivial⟩
      | some l =>
        simp only
        split <;> exact ⟨_, rfl, trivial, trivial, trivial⟩)
    L longest trivial hL
  exact ⟨l', h1⟩

theorem ligand_foldlM (S : AtomicStructure) (gl : List (Atom × List Atom)) (cutoff : Nat)
    (L ligands : List Atom) (hL : ∀ r ∈ L, HasGroup gl r)
    (hl : ∀ r ∈ ligands, HasGroup gl r) :
    ∃ ligands', L.foldlM (ligand_step S gl cutoff) ligands = some ligands'
      ∧ ∀ r ∈ ligands', HasGroup gl r := by
  obtain ⟨l', h1, h2, _, _⟩ := foldlM_option_spec (ligand_step S gl cutoff)
    (fun ligands : List Atom => ∀ r ∈ ligands, HasGroup gl r)
    (fun _ _ => True) (HasGroup gl) (fun _ _ => True)
    (fun _ => trivial) (fun _ _ _ _ _ => trivial) (fun _ _ _ _ _ => trivial)
    (by
      intro s r hs hr
      obtain ⟨g, hg⟩ := hr
      unfold ligand_step
      rw [hg]
      simp only
      split
      · split
        · split
          · refine ⟨_, rfl, ?_, trivial, trivial⟩
            intro k hk
            rcases List.mem_append.mp hk with h3 | h3
            · exact hs k h3
            · simp only [List.mem_singleton] at h3
              subst h3
              exact ⟨g, hg⟩
          · exact ⟨s, rfl, hs, trivial, trivial⟩
        · exact ⟨s, rfl, hs, trivial, trivial⟩
      · exact ⟨s, rfl, hs, trivial, trivial⟩)
    L ligands hl hL
  exact ⟨l', h1, h2⟩

theorem collect_ligands_spec (S : AtomicStructure) (gl : List (Atom × List Atom))
    (root_set : List Atom) (hroot : ∀ r ∈ root_set, HasGroup gl r) :
    ∃ ligands, collect_ligands S gl root_set = some ligands
      ∧ ∀ r ∈ ligands, HasGroup gl r := by
  obtain ⟨longest, hlong⟩ := longest_foldlM gl root_set none hroot
  unfold collect_ligands ligand_cutoff
  rw [hlong]
  simp only
  exact ligand_foldlM S gl _ root_set [] hroot (fun r hr => by cases hr)

theorem bound_foldl_mono (S : AtomicStructure) :
    ∀ (bound : List Residue) (cat : Atom → Option StructCat),
      CatMono cat
        (bound.foldl (fun f br => assign_atoms StructCat.Ligand (S.res_atoms br) f) cat) := by
  intro bound
  induction bound with
  | nil => intro cat; exact catMono_refl cat
  | cons br bound ih =>
    intro cat
    rw [List.foldl_cons]
    exact catMono_trans _ _ _ (assign_atoms_spec StructCat.Ligand (S.res_atoms br) cat).1 (ih _)

theorem main_foldlM (S : AtomicStructure) (gl : List (Atom × List Atom))
    (L : List Atom) (cat : Atom → Option StructCat) (hL : ∀ r ∈ L, HasGroup gl r) :
    ∃ cat', L.foldlM (main_step S gl) cat = some cat' ∧ CatMono cat cat'
      ∧ ∀ r ∈ L, Covered gl cat' r := by
  obtain ⟨cat', h1, _, h3, h4⟩ := foldlM_option_spec (main_step S gl) (fun _ => True)
    CatMono (HasGroup gl) (fun r s => Covered gl s r)
    catMono_refl catMono_trans
    (fun r s s' hD hR => covered_mono gl s s' r hR hD)
    (by
      intro s r _ hr
      obtain ⟨g, hg⟩ := hr
      have hmain := assign_atoms_spec StructCat.Main g s
      unfold main_step
      rw [hg]
      simp only
      split
      · refine ⟨_, rfl, trivial, hmain.1, ?_⟩
        intro g' hg' a ha
        rw [hg] at hg'
        cases hg'
        exact hmain.2 a ha
      · refine ⟨_, rfl, trivial, catMono_trans _ _ _ hmain.1 (bound_foldl_mono S _ _), ?_⟩
        intro g' hg' a ha
        rw [hg] at hg'
        cases hg'
        exact bound_foldl_mono S _ _ a (hmain.2 a ha))
    L cat trivial hL
  exact ⟨cat', h1, h3, h4⟩

/-- The ligand and main sections succeed and leave every group categorised. -/
theorem assign_ligand_main_spec (S : AtomicStructure) (gl : List (Atom × List Atom))
    (st : List Atom × (Atom → Option StructCat)) (hinv : CatInv gl st) :
    ∃ cat', assign_ligand_main S gl st = some cat'
      ∧ ∀ r, HasGroup gl r → Covered gl cat' r := by
  obtain ⟨ligands, hlig, hg⟩ := collect_ligands_spec S gl st.1 hinv.1
  obtain ⟨st1, h1, hinv1, _⟩ := erase_assign_foldlM gl StructCat.Ligand ligands st hg hinv
  obtain ⟨cat', h2, hmono, hcov⟩ := main_foldlM S gl st1.1 st1.2 hinv1.1
  unfold assign_ligand_main
  rw [hlig]
  simp only
  rw [h1]
  refine ⟨cat', h2, ?_⟩
  intro r hr
  rcases hinv1.2 r hr with h3 | h3
  · exact hcov r h3
  · exact covered_mono gl _ _ r hmono h3

/-! ## Theorem about `_compute_structure_cats` -/

/-- After the ion section, the rest of `_compute_structure_cats` returns with
every group categorised and the dirty flag cleared. -/
theorem compute_structure_cats_finish (S : AtomicStructure) (m : GroupMaps)
    (st2 : List Atom × (Atom → Option StructCat)) (hinv : CatInv m.group_lookup st2) :
    ∃ st', (if st2.1.isEmpty then
          some ({ cat := st2.2, structure_cats_dirty := false } : CatState)
        else
          match assign_ligand_main S m.group_lookup st2 with
          | none => none
          | some cat => some { cat := cat, structure_cats_dirty := false }) = some st'
      ∧ (∀ r, HasGroup m.group_lookup r → Covered m.group_lookup st'.cat r)
      ∧ st'.structure_cats_dirty = false := by
  by_cases hempty : st2.1.isEmpty = true
  · rw [if_pos hempty]
    refine ⟨_, rfl, ?_, rfl⟩
    intro r hr
    rcases hinv.2 r hr with h3 | h3
    · rw [List.isEmpty_iff] at hempty
      rw [hempty] at h3
      cases h3
    · exact h3
  · rw [if_neg hempty]
    obtain ⟨cat', h3, hcov⟩ := assign_ligand_main_spec S m.group_lookup st2 hinv
    rw [h3]
    exact ⟨_, rfl, hcov, rfl⟩

/-- C1: let `bonded` be the bonded groups of the structure: non-empty,
pairwise disjoint lists of atoms that together contain every atom of the
structure. Whenever `_compute_structure_cats` returns (on either return
path), every atom of the structure has one of the categories `Solvent`,
`Ions`, `Ligand`, `Main`, and the flag `_structure_cats_dirty` is false. And it
does return when the groups consist of atoms of the structure and the atoms
listed by the residue of an atom of the structure belong to the structure. -/
theorem compute_structure_cats_classifies_all (S : AtomicStructure)
    (bonded : List (List Atom)) (st : CatState)
    (hne : ∀ g ∈ bonded, g ≠ [])
    (hcover : ∀ a ∈ S.atoms, ∃ g ∈ bonded, a ∈ g)
    (hdis : bonded.Pairwise (fun g h => ∀ a ∈ g, a ∉ h)) :
    (∀ st', _compute_structure_cats S bonded st = some st' →
        (∀ a ∈ S.atoms,
          st'.cat a = some StructCat.Solvent ∨ st'.cat a = some StructCat.Ions
            ∨ st'.cat a = some StructCat.Ligand ∨ st'.cat a = some StructCat.Main)
        ∧ st'.structure_cats_dirty = false)
    ∧ ((∀ g ∈ bonded, ∀ a ∈ g, a ∈ S.atoms) →
        (∀ a ∈ S.atoms, ∀ b ∈ S.res_atoms (S.atom_residue a), b ∈ S.atoms) →
        ∃ st', _compute_structure_cats S bonded st = some st') := by
  have hdis' : bonded.Pairwise List.Disjoint :=
    List.Pairwise.imp (fun {g h} hgh a ha hb => hgh a ha hb) hdis
  obtain ⟨m, hm, hfor1, hfor2, hfor3⟩ := build_group_maps_spec bonded hne hdis'
  obtain ⟨st1, h1, hinv1⟩ := assign_solvent_spec S m.group_lookup st.cat
  constructor
  · intro st' hrun
    unfold _compute_structure_cats at hrun
    simp only [hm, h1] at hrun
    cases h2 : assign_ions S m st1 with
    | none => rw [h2] at hrun; cases hrun
    | some st2 =>
      rw [h2] at hrun
      simp only at hrun
      have hinv2 := assign_ions_inv S m st1 st2 hinv1 h2
      obtain ⟨stf, hfin, hcov, hdirty⟩ := compute_structure_cats_finish S m st2 hinv2
      rw [hfin] at hrun
      have heq : stf = st' := Option.some.inj hrun
      subst heq
      refine ⟨?_, hdirty⟩
      intro a ha
      obtain ⟨g, hg, hag⟩ := hcover a ha
      obtain ⟨r, _, hlook⟩ := hfor1 g hg
      have hsome : stf.cat a ≠ none := hcov r ⟨g, hlook⟩ g hlook a hag
      cases hc : stf.cat a with
      | none => exact absurd hc hsome
      | some c => cases c <;> simp
  · intro hgroups hres
    have hatoms : ∀ r, HasGroup m.group_lookup r → ∀ b ∈ S.res_atoms (S.atom_residue r),
        ∃ rt, m.atom_to_root b = some rt ∧ HasGroup m.group_lookup rt := by
      intro r hr b hb
      obtain ⟨g, hg, hhead⟩ := hfor2 r hr
      have hrg : r ∈ g := List.mem_of_mem_head? hhead
      have hbS : b ∈ S.atoms := hres r (hgroups g hg r hrg) b hb
      obtain ⟨g', hg', hbg'⟩ := hcover b hbS
      exact hfor3 g' hg' b hbg'
    obtain ⟨st2, h2, hinv2⟩ := assign_ions_spec S m hatoms st1 hinv1
    obtain ⟨st', hfin, _, _⟩ := compute_structure_cats_finish S m st2 hinv2
    unfold _compute_structure_cats
    simp only [hm, h1, h2]
    exact ⟨st', hfin⟩

/-- Instance of C1 on `example_molecule`, starting with no atom categorised:
the run returns, and the state it returns has every atom categorised. -/
theorem compute_structure_cats_classifies_all_witness :
    ∃ st', _compute_structure_cats example_molecule example_bonded
        { cat := fun _ => none, structure_cats_dirty := true } = some st'
      ∧ (∀ a ∈ example_molecule.atoms,
          st'.cat a = some StructCat.Solvent ∨ st'.cat a = some StructCat.Ions
            ∨ st'.cat a = some StructCat.Ligand ∨ st'.cat a = some StructCat.Main)
      ∧ st'.structure_cats_dirty = false :=
  have h := compute_structure_cats_classifies_all example_molecule example_bonded
    { cat := fun _ => none, structure_cats_dirty := true }
    (by decide) (by decide) (by decide)
  Exists.elim (h.2 (by decide) (by decide)) (fun st' hst' => ⟨st', hst', h.1 st' hst'⟩)

/-! ## The ligand step in detail -/

theorem set_insert_nodup (a : Nat) :
    ∀ (l : List Nat), l.Pairwise (· < ·) → (set_insert a l).Pairwise (· < ·) := by
  intro l
  induction l with
  | nil => intro _; simp [set_insert]
  | cons b l ih =>
    intro h
    have hb := List.pairwise_cons.mp h
    unfold set_insert
    by_cases h1 : a < b
    · rw [if_pos h1]
      refine List.pairwise_cons.mpr ⟨?_, h⟩
      intro x hx
      rcases List.mem_cons.mp hx with h2 | h2
      · rw [h2]; exact h1
      · exact Nat.lt_trans h1 (hb.1 x h2)
    · rw [if_neg h1]
      by_cases h2 : b < a
      · rw [if_pos h2]
        refine List.pairwise_cons.mpr ⟨?_, ih hb.2⟩
        intro x hx
        rcases (mem_set_insert a x l).mp hx with h3 | h3
        · rw [h3]; exact h2
        · exact hb.1 x h3
      · rw [if_neg h2]
        exact h

theorem residues_of_foldl (S : AtomicStructure) :
    ∀ (grp : List Atom) (rs : List Residue), rs.Pairwise (· < ·) →
      (grp.foldl (fun rs a => set_insert (S.atom_residue a) rs) rs).Pairwise (· < ·)
      ∧ ∀ r, r ∈ grp.foldl (fun rs a => set_insert (S.atom_residue a) rs) rs
          ↔ r ∈ rs ∨ ∃ a ∈ grp, S.atom_residue a = r := by
  intro grp
  induction grp with
  | nil => intro rs h; simp [h]
  | cons x grp ih =>
    intro rs h
    rw [List.foldl_cons]
    obtain ⟨h1, h2⟩ := ih (set_insert (S.atom_residue x) rs) (set_insert_nodup _ rs h)
    refine ⟨h1, ?_⟩
    intro r
    rw [h2, mem_set_insert]
    constructor
    · rintro ((h3 | h3) | ⟨a, ha, har⟩)
      · exact Or.inr ⟨x, by simp, h3.symm⟩
      · exact Or.inl h3
      · exact Or.inr ⟨a, by simp [ha], har⟩
    · rintro (h3 | ⟨a, ha, har⟩)
      · exact Or.inl (Or.inr h3)
      · rcases List.mem_cons.mp ha with h4 | h4
        · subst h4; exact Or.inl (Or.inl har.symm)
        · exact Or.inr ⟨a, h4, har⟩

theorem mem_residues_of (S : AtomicStructure) (grp : List Atom) (r : Residue) :
    r ∈ residues_of S grp ↔ ∃ a ∈ grp, S.atom_residue a = r := by
  unfold residues_of
  rw [(residues_of_foldl S grp [] List.Pairwise.nil).2]
  simp

/-- The size of the set `residues` is the number of distinct residues of the atoms. -/
theorem residues_of_length (S : AtomicStructure) (grp : List Atom) :
    (residues_of S grp).length = ((grp.map S.atom_residue).dedup).length := by
  have hnd : (residues_of S grp).Nodup := by
    have h := (residues_of_foldl S grp [] List.Pairwise.nil).1
    exact List.Pairwise.imp (fun hab => Nat.ne_of_lt hab) h
  apply List.Perm.length_eq
  rw [List.perm_ext_iff_of_nodup hnd (List.nodup_dedup _)]
  intro r
  rw [mem_residues_of, List.mem_dedup, List.mem_map]

theorem longest_foldlM_spec (gl : List (Atom × List Atom)) :
    ∀ (L : List Atom) (init : Option (List Atom)), (∀ r ∈ L, HasGroup gl r) →
      ∃ res, L.foldlM (longest_step gl) init = some res
        ∧ (res = none → init = none ∧ L = [])
        ∧ (∀ l, res = some l →
            (∀ l0, init = some l0 → l0.length ≤ l.length)
            ∧ (∀ r ∈ L, ∀ g, group_of gl r = some g → g.length ≤ l.length)
            ∧ (init = some l ∨ ∃ r ∈ L, group_of gl r = some l)) := by
  intro L
  induction L with
  | nil =>
    intro init _
    refine ⟨init, rfl, fun h => ⟨h, rfl⟩, ?_⟩
    intro l hl
    refine ⟨?_, (fun r hr => by cases hr), Or.inl hl⟩
    intro l0 h0
    rw [hl] at h0
    cases h0
    exact Nat.le_refl _
  | cons x L ih =>
    intro init hL
    obtain ⟨g, hg⟩ := hL x (by simp)
    have hL' : ∀ r ∈ L, HasGroup gl r := fun r hr => hL r (by simp [hr])
    rw [List.foldlM_cons]
    cases init with
    | none =>
      have hstep : longest_step gl none x = some (some g) := by
        unfold longest_step; rw [hg]
      rw [hstep]
      obtain ⟨res, hres, hnone, hsome⟩ := ih (some g) hL'
      refine ⟨res, hres, ?_, ?_⟩
      · intro h
        exact absurd (hnone h).1 (by simp)
      · intro l hl
        obtain ⟨h1, h2, h3⟩ := hsome l hl
        refine ⟨(fun l0 h0 => by cases h0), ?_, ?_⟩
        · intro r hr g' hg'
          rcases List.mem_cons.mp hr with h4 | h4
          · subst h4
            have hgg : g = g' := Option.some.inj (hg.symm.trans hg')
            subst hgg
            exact h1 g rfl
          · exact h2 r h4 g' hg'
        · right
          rcases h3 with h4 | ⟨r, hr, hrl⟩
          · cases h4
            exact ⟨x, by simp, hg⟩
          · exact ⟨r, by simp [hr], hrl⟩
    | some l0 =>
      by_cases hlt : g.length > l0.length
      · have hstep : longest_step gl (some l0) x = some (some g) := by
          unfold longest_step; rw [hg]; simp [hlt]
        rw [hstep]
        obtain ⟨res, hres, hnone, hsome⟩ := ih (some g) hL'
        refine ⟨res, hres, ?_, ?_⟩
        · intro h
          exact absurd (hnone h).1 (by simp)
        · intro l hl
          obtain ⟨h1, h2, h3⟩ := hsome l hl
          have hgl := h1 g rfl
          refine ⟨?_, ?_, ?_⟩
          · intro l1 h0
            cases h0
            omega
          · intro r hr g' hg'
            rcases List.mem_cons.mp hr with h4 | h4
            · subst h4
              have hgg : g = g' := Option.some.inj (hg.symm.trans hg')
              subst hgg
              exact hgl
            · exact h2 r h4 g' hg'
          · right
            rcases h3 with h4 | ⟨r, hr, hrl⟩
            · cases h4
              exact ⟨x, by simp, hg⟩
            · exact ⟨r, by simp [hr], hrl⟩
      · have hstep : longest_step gl (some l0) x = some (some l0) := by
          unfold longest_step; rw [hg]; simp [hlt]
        rw [hstep]
        obtain ⟨res, hres, hnone, hsome⟩ := ih (some l0) hL'
        refine ⟨res, hres, ?_, ?_⟩
        · intro h
          exact absurd (hnone h).1 (by simp)
        · intro l hl
          obtain ⟨h1, h2, h3⟩ := hsome l hl
          have hl0 := h1 l0 rfl
          refine ⟨h1, ?_, ?_⟩
          · intro r hr g' hg'
            rcases List.mem_cons.mp hr with h4 | h4
            · subst h4
              have hgg : g = g' := Option.some.inj (hg.symm.trans hg')
              subst hgg
              omega
            · exact h2 r h4 g' hg'
          · rcases h3 with h4 | ⟨r, hr, hrl⟩
            · exact Or.inl h4
            · exact Or.inr ⟨r, by simp [hr], hrl⟩

theorem ligand_step_chosen (S : AtomicStructure) (gl : List (Atom × List Atom))
    (cutoff : Nat) (ligands : List Atom) (root : Atom) (grp : List Atom)
    (hg : group_of gl root = some grp)
    (hc : grp.length < cutoff ∧ (residues_of S grp).length < 10
      ∧ (S.res_chain (S.atom_residue root) = none
        ∨ ∃ chain, S.res_chain (S.atom_residue root) = some chain
          ∧ (S.chain_residues chain).length < 10)) :
    ligand_step S gl cutoff ligands root = some (ligands ++ [root]) := by
  unfold ligand_step
  rw [hg]
  simp only
  rw [if_pos hc.1, if_pos hc.2.1]
  rcases hc.2.2 with h | ⟨chain, h, hlen⟩
  · rw [h]; simp
  · rw [h]; simp [hlen]

theorem ligand_step_skipped (S : AtomicStructure) (gl : List (Atom × List Atom))
    (cutoff : Nat) (ligands : List Atom) (root : Atom) (grp : List Atom)
    (hg : group_of gl root = some grp)
    (hc : ¬ (grp.length < cutoff ∧ (residues_of S grp).length < 10
      ∧ (S.res_chain (S.atom_residue root) = none
        ∨ ∃ chain, S.res_chain (S.atom_residue root) = some chain
          ∧ (S.chain_residues chain).length < 10))) :
    ligand_step S gl cutoff ligands root = some ligands := by
  unfold ligand_step
  rw [hg]
  simp only
  by_cases h1 : grp.length < cutoff
  · rw [if_pos h1]
    by_cases h2 : (residues_of S grp).length < 10
    · rw [if_pos h2]
      cases h3 : S.res_chain (S.atom_residue root) with
      | none => exact absurd ⟨h1, h2, Or.inl h3⟩ hc
      | some chain =>
        by_cases h4 : (S.chain_residues chain).length < 10
        · exact absurd ⟨h1, h2, Or.inr ⟨chain, h3, h4⟩⟩ hc
        · simp [h4]
    · rw [if_neg h2]
  · rw [if_neg h1]

/-- The vector `ligands` holds exactly the roots of `root_set` that pass the three tests. -/
theorem ligand_foldlM_mem (S : AtomicStructure) (gl : List (Atom × List Atom)) (cutoff : Nat) :
    ∀ (L init res : List Atom), L.foldlM (ligand_step S gl cutoff) init = some res →
      ∀ root, root ∈ res ↔ root ∈ init ∨ (root ∈ L ∧ ∃ grp, group_of gl root = some grp
        ∧ grp.length < cutoff ∧ (residues_of S grp).length < 10
        ∧ (S.res_chain (S.atom_residue root) = none
          ∨ ∃ chain, S.res_chain (S.atom_residue root) = some chain
            ∧ (S.chain_residues chain).length < 10)) := by
  intro L
  induction L with
  | nil =>
    intro init res h root
    simp only [List.foldlM_nil] at h
    have : init = res := Option.some.inj h
    subst this
    simp
  | cons x L ih =>
    intro init res h root
    rw [List.foldlM_cons] at h
    cases hg : group_of gl x with
    | none =>
      have : ligand_step S gl cutoff init x = none := by
        unfold ligand_step; rw [hg]
      rw [this] at h
      cases h
    | some g =>
      by_cases hc : g.length < cutoff ∧ (residues_of S g).length < 10
          ∧ (S.res_chain (S.atom_residue x) = none
            ∨ ∃ chain, S.res_chain (S.atom_residue x) = some chain
              ∧ (S.chain_residues chain).length < 10)
      · rw [ligand_step_chosen S gl cutoff init x g hg hc] at h
        rw [ih _ res h root, List.mem_append, List.mem_singleton, List.mem_cons]
        constructor
        · rintro ((h1 | h1) | ⟨h1, h2⟩)
          · exact Or.inl h1
          · subst h1
            exact Or.inr ⟨Or.inl rfl, g, hg, hc⟩
          · exact Or.inr ⟨Or.inr h1, h2⟩
        · rintro (h1 | ⟨h1 | h1, h2⟩)
          · exact Or.inl (Or.inl h1)
          · exact Or.inl (Or.inr h1)
          · exact Or.inr ⟨h1, h2⟩
      · rw [ligand_step_skipped S gl cutoff init x g hg hc] at h
        rw [ih _ res h root, List.mem_cons]
        constructor
        · rintro (h1 | ⟨h1, h2⟩)
          · exact Or.inl h1
          · exact Or.inr ⟨Or.inr h1, h2⟩
        · rintro (h1 | ⟨h1 | h1, h2⟩)
          · exact Or.inl h1
          · subst h1
            obtain ⟨grp, hgrp, hcond⟩ := h2
            have hgg : g = grp := Option.some.inj (hg.symm.trans hgrp)
            subst hgg
            exact absurd hcond hc
          · exact Or.inr ⟨h1, h2⟩

theorem remaining_roots_hasGroup (S : AtomicStructure) (m : GroupMaps)
    (cat : Atom → Option StructCat) (root_set : List Atom)
    (h : remaining_roots S m cat = some root_set) :
    ∀ r ∈ root_set, HasGroup m.group_lookup r := by
  unfold remaining_roots at h
  obtain ⟨st1, h1, hinv1⟩ := assign_solvent_spec S m.group_lookup cat
  rw [h1] at h
  simp only at h
  cases h2 : assign_ions S m st1 with
  | none => rw [h2] at h; cases h
  | some st2 =>
    rw [h2] at h
    simp only [Option.some.injEq] at h
    rw [← h]
    exact (assign_ions_inv S m st1 st2 hinv1 h2).1

/-! ## Theorem about the ligand step -/

/-- C14: let `root_set` (non-empty) hold the roots remaining after solvent and
ion assignment and `L` be the atom count of the largest of their groups. The
ligand step computes `ligand_cutoff = min (L / 4) 250` and chooses a root as
ligand exactly when it is in `root_set`, its group has fewer atoms than the
cutoff, the atoms of the group lie in fewer than 10 distinct residues, and
the residue of the root has no chain or a chain of fewer than 10 residues.
So no group of `L` atoms is chosen, and none at all when `L < 4`. -/
theorem ligand_choice_exact (S : AtomicStructure) (m : GroupMaps)
    (cat : Atom → Option StructCat) (root_set : List Atom)
    (hrs : remaining_roots S m cat = some root_set) (hne : root_set ≠ []) :
    ∃ L ligands,
      (∀ r ∈ root_set, ∀ g, group_of m.group_lookup r = some g → g.length ≤ L)
      ∧ (∃ r ∈ root_set, ∃ g, group_of m.group_lookup r = some g ∧ g.length = L)
      ∧ ligand_cutoff m.group_lookup root_set = some (min (L / 4) 250)
      ∧ collect_ligands S m.group_lookup root_set = some ligands
      ∧ (∀ root, root ∈ ligands ↔
          (root ∈ root_set ∧ ∃ grp, group_of m.group_lookup root = some grp
            ∧ grp.length < min (L / 4) 250
            ∧ ((grp.map S.atom_residue).dedup).length < 10
            ∧ (S.res_chain (S.atom_residue root) = none
              ∨ ∃ chain, S.res_chain (S.atom_residue root) = some chain
                ∧ (S.chain_residues chain).length < 10)))
      ∧ (∀ root grp, group_of m.group_lookup root = some grp → grp.length = L →
          root ∉ ligands)
      ∧ (L < 4 → ligands = []) := by
  have hroot := remaining_roots_hasGroup S m cat root_set hrs
  obtain ⟨res, hres, hnone, hsome⟩ := longest_foldlM_spec m.group_lookup root_set none hroot
  cases res with
  | none => exact absurd (hnone rfl).2 hne
  | some l =>
    obtain ⟨_, hmax, hex⟩ := hsome l rfl
    have hcut : ligand_cutoff m.group_lookup root_set = some (min (l.length / 4) 250) := by
      unfold ligand_cutoff
      rw [hres]
      rfl
    obtain ⟨ligands, hlig, _⟩ := ligand_foldlM S m.group_lookup (min (l.length / 4) 250)
      root_set [] hroot (fun r hr => by cases hr)
    have hcol : collect_ligands S m.group_lookup root_set = some ligands := by
      unfold collect_ligands
      rw [hcut]
      exact hlig
    have hmem := ligand_foldlM_mem S m.group_lookup _ root_set [] ligands hlig
    have hiff : ∀ root, root ∈ ligands ↔
        (root ∈ root_set ∧ ∃ grp, group_of m.group_lookup root = some grp
          ∧ grp.length < min (l.length / 4) 250
          ∧ ((grp.map S.atom_residue).dedup).length < 10
          ∧ (S.res_chain (S.atom_residue root) = none
            ∨ ∃ chain, S.res_chain (S.atom_residue root) = some chain
              ∧ (S.chain_residues chain).length < 10)) := by
      intro root
      rw [hmem root]
      constructor
      · rintro (h | ⟨h1, grp, h2, h3, h4, h5⟩)
        · cases h
        · exact ⟨h1, grp, h2, h3, by rw [← residues_of_length]; exact h4, h5⟩
      · rintro ⟨h1, grp, h2, h3, h4, h5⟩
        exact Or.inr ⟨h1, grp, h2, h3, by rw [residues_of_length]; exact h4, h5⟩
    refine ⟨l.length, ligands, hmax, ?_, hcut, hcol, hiff, ?_, ?_⟩
    · rcases hex with h | ⟨r, hr, hrl⟩
      · cases h
      · exact ⟨r, hr, l, hrl, rfl⟩
    · intro root grp hgrp hlen hin
      obtain ⟨_, grp', hgrp', hlt, _⟩ := (hiff root).mp hin
      have hgg : grp = grp' := Option.some.inj (hgrp.symm.trans hgrp')
      subst hgg
      have : min (l.length / 4) 250 ≤ l.length / 4 := Nat.min_le_left _ _
      have : l.length / 4 ≤ l.length := Nat.div_le_self _ _
      omega
    · intro hL
      have h0 : min (l.length / 4) 250 = 0 := by
        have : l.length / 4 = 0 := by omega
        rw [this]
        rfl
      apply List.eq_nil_iff_forall_not_mem.mpr
      intro root hin
      obtain ⟨_, grp, _, hlt, _⟩ := (hiff root).mp hin
      rw [h0] at hlt
      omega

/-- Instance of C14 on `example_molecule`: the groups of roots `5` (sixteen atoms)
and `21` (two atoms) remain; `L = 16`, and only root `21` is chosen. -/
theorem ligand_choice_exact_witness :
    remaining_roots example_molecule example_group_maps (fun _ => none) = some [5, 21]
      ∧ ∃ L ligands,
        (∀ r ∈ [5, 21], ∀ g, group_of example_group_maps.group_lookup r = some g → g.length ≤ L)
        ∧ (∃ r ∈ [5, 21], ∃ g, group_of example_group_maps.group_lookup r = some g
            ∧ g.length = L)
        ∧ ligand_cutoff example_group_maps.group_lookup [5, 21] = some (min (L / 4) 250)
        ∧ collect_ligands example_molecule example_group_maps.group_lookup [5, 21]
            = some ligands
        ∧ (∀ root, root ∈ ligands ↔
            (root ∈ [5, 21] ∧ ∃ grp, group_of example_group_maps.group_lookup root = some grp
              ∧ grp.length < min (L / 4) 250
              ∧ ((grp.map example_molecule.atom_residue).dedup).length < 10
              ∧ (example_molecule.res_chain (example_molecule.atom_residue root) = none
                ∨ ∃ chain,
                  example_molecule.res_chain (example_molecule.atom_residue root) = some chain
                  ∧ (example_molecule.chain_residues chain).length < 10)))
        ∧ (∀ root grp, group_of example_group_maps.group_lookup root = some grp →
            grp.length = L → root ∉ ligands)
        ∧ (L < 4 → ligands = []) :=
  ⟨by decide,
   ligand_choice_exact example_molecule example_group_maps (fun _ => none) [5, 21]
     (by decide) (by decide)⟩

/-! ## Which category an atom ends with -/

theorem assign_atoms_apply (c : StructCat) :
    ∀ (atoms : List Atom) (cat : Atom → Option StructCat) (a : Atom),
      assign_atoms c atoms cat a = if a ∈ atoms then some c else cat a := by
  intro atoms
  induction atoms with
  | nil => intro cat a; simp [assign_atoms]
  | cons x atoms ih =>
    intro cat a
    have h := ih (map_set cat x (some c)) a
    unfold assign_atoms at h ⊢
    rw [List.foldl_cons, h]
    by_cases h1 : a ∈ atoms
    · simp [h1]
    · by_cases h2 : a = x
      · simp [h2, map_set]
      · simp [h1, h2, map_set]

theorem assign_atoms_permitted (Φ : Atom → StructCat → Prop) (c : StructCat)
    (atoms : List Atom) (cat : Atom → Option StructCat) (hΦ : ∀ a ∈ atoms, Φ a c) :
    (∀ a, Permitted Φ cat a → Permitted Φ (assign_atoms c atoms cat) a)
    ∧ (∀ a ∈ atoms, Permitted Φ (assign_atoms c atoms cat) a) := by
  constructor
  · intro a ha
    unfold Permitted
    rw [assign_atoms_apply]
    by_cases h : a ∈ atoms
    · rw [if_pos h]
      exact ⟨c, rfl, hΦ a h⟩
    · rw [if_neg h]
      exact ha
  · intro a ha
    unfold Permitted
    rw [assign_atoms_apply, if_pos ha]
    exact ⟨c, rfl, hΦ a ha⟩

/-- A loop that erases roots and assigns category `c` to their groups: the roots
left, and the atoms whose category is permitted afterwards. -/
theorem erase_assign_foldlM_permitted (Φ : Atom → StructCat → Prop)
    (gl : List (Atom × List Atom)) (c : StructCat) :
    ∀ (L : List Atom) (st st' : List Atom × (Atom → Option StructCat)),
      L.foldlM (erase_assign_step gl c) st = some st' →
      (∀ r ∈ L, ∀ g, group_of gl r = some g → ∀ a ∈ g, Φ a c) →
      (∀ r, r ∈ st'.1 ↔ r ∈ st.1 ∧ r ∉ L)
      ∧ (∀ a, Permitted Φ st.2 a → Permitted Φ st'.2 a)
      ∧ (∀ r ∈ L, ∀ g, group_of gl r = some g → ∀ a ∈ g, Permitted Φ st'.2 a) := by
  intro L
  induction L with
  | nil =>
    intro st st' h _
    simp only [List.foldlM_nil] at h
    have : st = st' := Option.some.inj h
    subst this
    exact ⟨fun r => by simp, fun a ha => ha, fun r hr => by cases hr⟩
  | cons x L ih =>
    intro st st' h hΦ
    rw [List.foldlM_cons] at h
    cases hg : group_of gl x with
    | none =>
      have : erase_assign_step gl c st x = none := by
        unfold erase_assign_step; rw [hg]
      rw [this] at h
      cases h
    | some g =>
      have hstep : erase_assign_step gl c st x = some (set_erase x st.1, assign_atoms c g st.2) := by
        unfold erase_assign_step; rw [hg]
      rw [hstep] at h
      obtain ⟨h1, h2, h3⟩ := ih _ st' h (fun r hr => hΦ r (by simp [hr]))
      have hw := assign_atoms_permitted Φ c g st.2 (hΦ x (by simp) g hg)
      refine ⟨?_, ?_, ?_⟩
      · intro r
        rw [h1 r, mem_set_erase, List.mem_cons]
        tauto
      · intro a ha
        exact h2 a (hw.1 a ha)
      · intro r hr g' hg' a ha
        rcases List.mem_cons.mp hr with h4 | h4
        · subst h4
          have hgg : g = g' := Option.some.inj (hg.symm.trans hg')
          subst hgg
          exact h2 a (hw.2 a ha)
        · exact h3 r h4 g' hg' a ha

theorem assign_foldlM_permitted (Φ : Atom → StructCat → Prop)
    (gl : List (Atom × List Atom)) (c : StructCat) :
    ∀ (L : List Atom) (cat cat' : Atom → Option StructCat),
      L.foldlM (assign_step gl c) cat = some cat' →
      (∀ r ∈ L, ∀ g, group_of gl r = some g → ∀ a ∈ g, Φ a c) →
      (∀ a, Permitted Φ cat a → Permitted Φ cat' a)
      ∧ (∀ r ∈ L, ∀ g, group_of gl r = some g → ∀ a ∈ g, Permitted Φ cat' a) := by
  intro L
  induction L with
  | nil =>
    intro cat cat' h _
    simp only [List.foldlM_nil] at h
    have : cat = cat' := Option.some.inj h
    subst this
    exact ⟨fun a ha => ha, fun r hr => by cases hr⟩
  | cons x L ih =>
    intro cat cat' h hΦ
    rw [List.foldlM_cons] at h
    cases hg : group_of gl x with
    | none =>
      have : assign_step gl c cat x = none := by
        unfold assign_step; rw [hg]
      rw [this] at h
      cases h
    | some g =>
      have hstep : assign_step gl c cat x = some (assign_atoms c g cat) := by
        unfold assign_step; rw [hg]
      rw [hstep] at h
      obtain ⟨h2, h3⟩ := ih _ cat' h (fun r hr => hΦ r (by simp [hr]))
      have hw := assign_atoms_permitted Φ c g cat (hΦ x (by simp) g hg)
      refine ⟨fun a ha => h2 a (hw.1 a ha), ?_⟩
      intro r hr g' hg' a ha
      rcases List.mem_cons.mp hr with h4 | h4
      · subst h4
        have hgg : g = g' := Option.some.inj (hg.symm.trans hg')
        subst hgg
        exact h2 a (hw.2 a ha)
      · exact h3 r h4 g' hg' a ha

theorem bound_foldl_permitted (Φ : Atom → StructCat → Prop) (S : AtomicStructure) :
    ∀ (bound : List Residue) (cat : Atom → Option StructCat),
      (∀ br ∈ bound, ∀ b ∈ S.res_atoms br, Φ b StructCat.Ligand) →
      ∀ a, Permitted Φ cat a →
        Permitted Φ
          (bound.foldl (fun f br => assign_atoms StructCat.Ligand (S.res_atoms br) f) cat) a := by
  intro bound
  induction bound with
  | nil => intro cat _ a ha; exact ha
  | cons br bound ih =>
    intro cat hΦ a ha
    rw [List.foldl_cons]
    apply ih _ (fun br' hbr' => hΦ br' (by simp [hbr']))
    exact (assign_atoms_permitted Φ StructCat.Ligand (S.res_atoms br) cat (hΦ br (by simp))).1 a ha

theorem main_step_permitted (Φ : Atom → StructCat → Prop) (S : AtomicStructure)
    (gl : List (Atom × List Atom)) (cat cat' : Atom → Option StructCat) (root : Atom)
    (g : List Atom) (hg : group_of gl root = some g)
    (h : main_step S gl cat root = some cat')
    (hmain : ∀ a ∈ g, Φ a StructCat.Main)
    (hbound : ∀ y ∈ g, ∀ b ∈ S.res_atoms (S.atom_residue y), Φ b StructCat.Ligand) :
    (∀ a, Permitted Φ cat a → Permitted Φ cat' a) ∧ (∀ a ∈ g, Permitted Φ cat' a) := by
  have hw := assign_atoms_permitted Φ StructCat.Main g cat hmain
  unfold main_step at h
  rw [hg] at h
  simp only at h
  split at h
  · have : assign_atoms StructCat.Main g cat = cat' := Option.some.inj h
    rw [← this]
    exact hw
  · have heq := Option.some.inj h
    rw [← heq]
    have hb : ∀ br ∈ (residues_of S g).filter
          (fun r => decide (r ∉ seq_residues_of S (chains_of S (residues_of S g)))),
        ∀ b ∈ S.res_atoms br, Φ b StructCat.Ligand := by
      intro br hbr b hb
      have hbr' := (List.mem_filter.mp hbr).1
      obtain ⟨y, hy, hyr⟩ := (mem_residues_of S g br).mp hbr'
      rw [← hyr] at hb
      exact hbound y hy b hb
    constructor
    · intro a ha
      exact bound_foldl_permitted Φ S _ _ hb a (hw.1 a ha)
    · intro a ha
      exact bound_foldl_permitted Φ S _ _ hb a (hw.2 a ha)

theorem main_foldlM_permitted (Φ : Atom → StructCat → Prop) (S : AtomicStructure)
    (gl : List (Atom × List Atom)) :
    ∀ (L : List Atom) (cat cat' : Atom → Option StructCat),
      L.foldlM (main_step S gl) cat = some cat' →
      (∀ r ∈ L, ∀ g, group_of gl r = some g →
        (∀ a ∈ g, Φ a StructCat.Main)
        ∧ (∀ y ∈ g, ∀ b ∈ S.res_atoms (S.atom_residue y), Φ b StructCat.Ligand)) →
      (∀ a, Permitted Φ cat a → Permitted Φ cat' a)
      ∧ (∀ r ∈ L, ∀ g, group_of gl r = some g → ∀ a ∈ g, Permitted Φ cat' a) := by
  intro L
  induction L with
  | nil =>
    intro cat cat' h _
    simp only [List.foldlM_nil] at h
    have : cat = cat' := Option.some.inj h
    subst this
    exact ⟨fun a ha => ha, fun r hr => by cases hr⟩
  | cons x L ih =>
    intro cat cat' h hΦ
    rw [List.foldlM_cons] at h
    cases hg : group_of gl x with
    | none =>
      have : main_step S gl cat x = none := by
        unfold main_step; rw [hg]
      rw [this] at h
      cases h
    | some g =>
      cases hstep : main_step S gl cat x with
      | none => rw [hstep] at h; cases h
      | some cat1 =>
        rw [hstep] at h
        obtain ⟨h2, h3⟩ := ih _ cat' h (fun r hr => hΦ r (by simp [hr]))
        have hx := hΦ x (by simp) g hg
        have hw := main_step_permitted Φ S gl cat cat1 x g hg hstep hx.1 hx.2
        refine ⟨fun a ha => h2 a (hw.1 a ha), ?_⟩
        intro r hr g' hg' a ha
        rcases List.mem_cons.mp hr with h4 | h4
        · subst h4
          have hgg : g = g' := Option.some.inj (hg.symm.trans hg')
          subst hgg
          exact h2 a (hw.2 a ha)
        · exact h3 r h4 g' hg' a ha

/-- The stages a returning run passes through. -/
theorem run_stages (S : AtomicStructure) (bonded : List (List Atom)) (st st' : CatState)
    (m : GroupMaps) (hm : build_group_maps bonded = some m)
    (hrun : _compute_structure_cats S bonded st = some st') :
    st'.structure_cats_dirty = false
    ∧ ∃ solvents cat1 st1 ions st2, RunStages S m st.cat st'.cat solvents cat1 st1 ions st2 := by
  unfold _compute_structure_cats at hrun
  simp only [hm] at hrun
  cases h1 : assign_solvent S m.group_lookup st.cat with
  | none => rw [h1] at hrun; cases hrun
  | some st1 =>
    rw [h1] at hrun
    simp only at hrun
    cases h2 : assign_ions S m st1 with
    | none => rw [h2] at hrun; cases hrun
    | some st2 =>
      rw [h2] at hrun
      simp only at hrun
      -- the solvent section
      have h1' := h1
      unfold assign_solvent at h1'
      simp only at h1'
      cases hsol : solvent_candidates S m.group_lookup (segregate S m.group_lookup).1
          (segregate S m.group_lookup).2 with
      | none => rw [hsol] at h1'; cases h1'
      | some solvents =>
        rw [hsol] at h1'
        simp only at h1'
        cases hc1 : (segregate S m.group_lookup).1.foldlM
            (assign_step m.group_lookup StructCat.Solvent) st.cat with
        | none => rw [hc1] at h1'; cases h1'
        | some cat1 =>
          rw [hc1] at h1'
          simp only at h1'
          have hbest : (best_solvent_roots solvents).foldlM
              (erase_assign_step m.group_lookup StructCat.Solvent)
              ((segregate S m.group_lookup).2, cat1) = some st1 := by
            unfold best_solvent_roots
            split
            · rename_i hcond
              rw [if_pos hcond] at h1'
              exact h1'
            · rename_i hcond
              rw [if_neg hcond] at h1'
              exact h1'
          -- the ion section
          have h2' := h2
          unfold assign_ions at h2'
          cases hions : collect_ions S m st1.1 with
          | none => rw [hions] at h2'; cases h2'
          | some ions =>
            rw [hions] at h2'
            simp only at h2'
            by_cases hempty : st2.1.isEmpty = true
            · rw [if_pos hempty] at hrun
              have heq := Option.some.inj hrun
              rw [← heq]
              refine ⟨rfl, solvents, cat1, st1, ions, st2, hsol, hc1, hbest, h1, hions, h2', ?_⟩
              exact Or.inl ⟨List.isEmpty_iff.mp hempty, rfl⟩
            · rw [if_neg hempty] at hrun
              cases h3 : assign_ligand_main S m.group_lookup st2 with
              | none => rw [h3] at hrun; cases hrun
              | some cat4 =>
                rw [h3] at hrun
                have heq := Option.some.inj hrun
                rw [← heq]
                refine ⟨rfl, solvents, cat1, st1, ions, st2, hsol, hc1, hbest, h1, hions, h2', ?_⟩
                right
                refine ⟨fun h => hempty (by rw [h]; rfl), ?_⟩
                unfold assign_ligand_main at h3
                cases hlig : collect_ligands S m.group_lookup st2.1 with
                | none => rw [hlig] at h3; cases h3
                | some ligands =>
                  rw [hlig] at h3
                  simp only at h3
                  cases hst3 : ligands.foldlM
                      (erase_assign_step m.group_lookup StructCat.Ligand) st2 with
                  | none => rw [hst3] at h3; cases h3
                  | some st3 =>
                    rw [hst3] at h3
                    exact ⟨ligands, st3, rfl, hst3, h3⟩

theorem collect_ligands_subset (S : AtomicStructure) (gl : List (Atom × List Atom))
    (root_set ligands : List Atom) (h : collect_ligands S gl root_set = some ligands) :
    ∀ r ∈ ligands, r ∈ root_set := by
  unfold collect_ligands at h
  cases hc : ligand_cutoff gl root_set with
  | none => rw [hc] at h; cases h
  | some cutoff =>
    rw [hc] at h
    intro r hr
    rcases (ligand_foldlM_mem S gl cutoff root_set [] ligands h r).mp hr with h1 | h1
    · cases h1
    · exact h1.1

/-- The roots left in `root_set` after the solvent section and after the ion section. -/
theorem run_roots (S : AtomicStructure) (m : GroupMaps) (cat final : Atom → Option StructCat)
    (solvents : List (String × List Atom)) (cat1 : Atom → Option StructCat)
    (st1 : List Atom × (Atom → Option StructCat)) (ions : List Atom)
    (st2 : List Atom × (Atom → Option StructCat))
    (ht : RunStages S m cat final solvents cat1 st1 ions st2) :
    (∀ r, r ∈ st1.1 ↔ r ∈ (segregate S m.group_lookup).2 ∧ r ∉ best_solvent_roots solvents)
    ∧ (∀ r, r ∈ st2.1 ↔ r ∈ st1.1 ∧ r ∉ ions) := by
  obtain ⟨_, _, hbest, _, _, hions, _⟩ := ht
  have h1 := (erase_assign_foldlM_permitted (fun _ _ => True) m.group_lookup StructCat.Solvent
    _ _ st1 hbest (fun _ _ _ _ _ _ => trivial)).1
  have h2 := (erase_assign_foldlM_permitted (fun _ _ => True) m.group_lookup StructCat.Ions
    _ _ st2 hions (fun _ _ _ _ _ _ => trivial)).1
  exact ⟨h1, h2⟩

/-- If every assignment a run can make is permitted by `Φ`, every atom of every
group ends with a category that `Φ` permits. -/
theorem run_permitted (Φ : Atom → StructCat → Prop) (S : AtomicStructure) (m : GroupMaps)
    (cat final : Atom → Option StructCat)
    (solvents : List (String × List Atom)) (cat1 : Atom → Option StructCat)
    (st1 : List Atom × (Atom → Option StructCat)) (ions : List Atom)
    (st2 : List Atom × (Atom → Option StructCat))
    (ht : RunStages S m cat final solvents cat1 st1 ions st2)
    (HS : ∀ r, r ∈ (segregate S m.group_lookup).1 ∨ r ∈ best_solvent_roots solvents →
      ∀ g, group_of m.group_lookup r = some g → ∀ a ∈ g, Φ a StructCat.Solvent)
    (HI : ∀ r ∈ ions, ∀ g, group_of m.group_lookup r = some g → ∀ a ∈ g, Φ a StructCat.Ions)
    (HL : ∀ r ∈ st2.1, ∀ g, group_of m.group_lookup r = some g →
      (∀ a ∈ g, Φ a StructCat.Ligand ∧ Φ a StructCat.Main)
      ∧ (∀ y ∈ g, ∀ b ∈ S.res_atoms (S.atom_residue y), Φ b StructCat.Ligand)) :
    ∀ r g, group_of m.group_lookup r = some g → ∀ a ∈ g, Permitted Φ final a := by
  have hroots := run_roots S m cat final solvents cat1 st1 ions st2 ht
  obtain ⟨_, hc1, hbest, _, _, hions, hfin⟩ := ht
  obtain ⟨_, cov1⟩ := assign_foldlM_permitted Φ m.group_lookup StructCat.Solvent _ cat cat1 hc1
    (fun r hr => HS r (Or.inl hr))
  obtain ⟨_, mono2, cov2⟩ := erase_assign_foldlM_permitted Φ m.group_lookup StructCat.Solvent
    _ _ st1 hbest (fun r hr => HS r (Or.inr hr))
  obtain ⟨_, mono3, cov3⟩ := erase_assign_foldlM_permitted Φ m.group_lookup StructCat.Ions
    _ _ st2 hions HI
  -- after the ion section
  have hst2 : ∀ r g, group_of m.group_lookup r = some g →
      r ∈ st2.1 ∨ ∀ a ∈ g, Permitted Φ st2.2 a := by
    intro r g hg
    by_cases hi : r ∈ ions
    · exact Or.inr (cov3 r hi g hg)
    · by_cases hb : r ∈ best_solvent_roots solvents
      · exact Or.inr (fun a ha => mono3 a (cov2 r hb g hg a ha))
      · rcases (segregate_spec S m.group_lookup r).mpr ⟨g, hg⟩ with hs | hs
        · exact Or.inr (fun a ha => mono3 a (mono2 a (cov1 r hs g hg a ha)))
        · exact Or.inl ((hroots.2 r).mpr ⟨(hroots.1 r).mpr ⟨hs, hb⟩, hi⟩)
  rcases hfin with ⟨hempty, hfinal⟩ | ⟨_, ligands, st3, hlig, hst3, hmain⟩
  · intro r g hg a ha
    rw [hfinal]
    rcases hst2 r g hg with h | h
    · rw [hempty] at h
      cases h
    · exact h a ha
  · have hsub := collect_ligands_subset S m.group_lookup st2.1 ligands hlig
    obtain ⟨mem4, mono4, cov4⟩ := erase_assign_foldlM_permitted Φ m.group_lookup
      StructCat.Ligand _ _ st3 hst3
      (fun r hr g hg a ha => ((HL r (hsub r hr) g hg).1 a ha).1)
    obtain ⟨mono5, cov5⟩ := main_foldlM_permitted Φ S m.group_lookup _ _ final hmain
      (fun r hr g hg =>
        ⟨fun a ha => ((HL r ((mem4 r).mp hr).1 g hg).1 a ha).2,
         (HL r ((mem4 r).mp hr).1 g hg).2⟩)
    intro r g hg a ha
    rcases hst2 r g hg with h | h
    · by_cases hl : r ∈ ligands
      · exact mono5 a (cov4 r hl g hg a ha)
      · exact cov5 r ((mem4 r).mpr ⟨h, hl⟩) g hg a ha
    · exact mono5 a (mono4 a (h a ha))

/-! ## The group maps and the bonded groups -/

theorem mem_omap_insert {V : Type} (k : Nat) (v : V) :
    ∀ (m : List (Nat × V)) (e : Nat × V), e ∈ omap_insert ptr_lt k v m → e = (k, v) ∨ e ∈ m := by
  intro m
  induction m with
  | nil => intro e he; simp [omap_insert] at he; exact Or.inl he
  | cons x m ih =>
    intro e he
    unfold omap_insert at he
    split at he
    · rcases List.mem_cons.mp he with h | h
      · exact Or.inl h
      · exact Or.inr h
    · split at he
      · rcases List.mem_cons.mp he with h | h
        · exact Or.inr (by simp [h])
        · rcases ih e h with h1 | h1
          · exact Or.inl h1
          · exact Or.inr (by simp [h1])
      · rcases List.mem_cons.mp he with h | h
        · exact Or.inl h
        · exact Or.inr (by simp [h])

theorem omap_insert_sorted {V : Type} (k : Nat) (v : V) :
    ∀ (m : List (Nat × V)), SortedKeys m → SortedKeys (omap_insert ptr_lt k v m) := by
  intro m
  induction m with
  | nil => intro _; simp [omap_insert, SortedKeys]
  | cons x m ih =>
    intro h
    have hx := List.pairwise_cons.mp h
    unfold omap_insert
    by_cases h1 : k < x.1
    · simp only [ptr_lt, h1, decide_True, if_true]
      refine List.pairwise_cons.mpr ⟨?_, h⟩
      intro e he
      rcases List.mem_cons.mp he with h2 | h2
      · rw [h2]; exact h1
      · exact Nat.lt_trans h1 (hx.1 e h2)
    · by_cases h2 : x.1 < k
      · simp only [ptr_lt, h1, h2, decide_False, decide_True, Bool.false_eq_true, if_false,
          if_true]
        refine List.pairwise_cons.mpr ⟨?_, ih hx.2⟩
        intro e he
        rcases mem_omap_insert k v m e he with h3 | h3
        · rw [h3]; exact h2
        · exact hx.1 e h3
      · simp only [ptr_lt, h1, h2, decide_False, Bool.false_eq_true, if_false]
        have hk : k = x.1 := by omega
        refine List.pairwise_cons.mpr ⟨?_, hx.2⟩
        intro e he
        rw [hk]
        exact hx.1 e he

theorem sortedKeys_nodup {V : Type} (m : List (Nat × V)) (h : SortedKeys m) :
    (m.map Prod.fst).Nodup := by
  unfold SortedKeys at h
  rw [List.Nodup, List.pairwise_map]
  exact List.Pairwise.imp (fun hab => Nat.ne_of_lt hab) h

/-- The loop over `bonded` keeps `group_lookup` sorted and maps every atom to
the first atom of a group that contains it. -/
theorem build_group_maps_roots :
    ∀ (rest prev : List (List Atom)) (m0 m : GroupMaps),
      rest.foldlM group_step m0 = some m →
      SortedKeys m0.group_lookup →
      (∀ a rt, m0.atom_to_root a = some rt → ∃ g ∈ prev, a ∈ g ∧ g.head? = some rt) →
      SortedKeys m.group_lookup
      ∧ (∀ a rt, m.atom_to_root a = some rt → ∃ g ∈ prev ++ rest, a ∈ g ∧ g.head? = some rt) := by
  intro rest
  induction rest with
  | nil =>
    intro prev m0 m h hs ha
    simp only [List.foldlM_nil] at h
    have : m0 = m := Option.some.inj h
    subst this
    exact ⟨hs, by simpa using ha⟩
  | cons g rest ih =>
    intro prev m0 m h hs ha
    rw [List.foldlM_cons] at h
    cases g with
    | nil => simp [group_step] at h
    | cons r t =>
      have hstep : group_step m0 (r :: t)
          = some { group_lookup := omap_insert ptr_lt r (r :: t) m0.group_lookup,
                   atom_to_root :=
                     (r :: t).foldl (fun f a => map_set f a (some r)) m0.atom_to_root } := rfl
      rw [hstep] at h
      have h2 := ih (prev ++ [r :: t]) _ m h (omap_insert_sorted r (r :: t) _ hs)
        (by
          intro a rt hart
          simp only at hart
          by_cases hag : a ∈ r :: t
          · rw [(atom_to_root_foldl r (r :: t) _ a).1 hag] at hart
            have : r = rt := Option.some.inj hart
            subst this
            exact ⟨r :: t, by simp, hag, rfl⟩
          · rw [(atom_to_root_foldl r (r :: t) _ a).2 hag] at hart
            obtain ⟨g', hg', hag', hh⟩ := ha a rt hart
            exact ⟨g', by simp [hg'], hag', hh⟩)
      have happ : prev ++ (r :: t) :: rest = (prev ++ [r :: t]) ++ rest := by simp
      rw [happ]
      exact h2

/-- Predicate-free summary of the maps built from non-empty, pairwise disjoint
groups: the keys of `group_lookup` are the first atoms of the groups, each with
its group; entries and lookups agree; `atom_to_root` maps exactly the atoms of
a group to its first atom; groups of different roots are disjoint. -/
theorem build_group_maps_exact (bonded : List (List Atom)) (m : GroupMaps)
    (hne : ∀ g ∈ bonded, g ≠ []) (hdis : bonded.Pairwise List.Disjoint)
    (hm : build_group_maps bonded = some m) :
    (∀ r g, group_of m.group_lookup r = some g ↔ g ∈ bonded ∧ g.head? = some r)
    ∧ (∀ r g, (r, g) ∈ m.group_lookup ↔ group_of m.group_lookup r = some g)
    ∧ (∀ a rt, m.atom_to_root a = some rt → ∃ g ∈ bonded, a ∈ g ∧ g.head? = some rt)
    ∧ (∀ g ∈ bonded, ∀ g' ∈ bonded, g ≠ g' → List.Disjoint g g') := by
  obtain ⟨m', hm', hfor1, hfor2, _⟩ := build_group_maps_spec bonded hne hdis
  have : m' = m := Option.some.inj (hm'.symm.trans hm)
  subst this
  have hroots := build_group_maps_roots bonded [] { group_lookup := [], atom_to_root := fun _ => none }
    m' (by simpa [build_group_maps] using hm) List.Pairwise.nil
    (by intro a rt h; cases h)
  have hsorted := hroots.1
  refine ⟨?_, ?_, ?_, ?_⟩
  · intro r g
    constructor
    · intro hg
      obtain ⟨g0, hg0, hh⟩ := hfor2 r ⟨g, hg⟩
      obtain ⟨r', hr', hl⟩ := hfor1 g0 hg0
      have : r' = r := Option.some.inj (hr'.symm.trans hh)
      subst this
      have : g0 = g := Option.some.inj (hl.symm.trans hg)
      subst this
      exact ⟨hg0, hh⟩
    · rintro ⟨hg, hh⟩
      obtain ⟨r', hr', hl⟩ := hfor1 g hg
      have : r' = r := Option.some.inj (hr'.symm.trans hh)
      subst this
      exact hl
  · intro r g
    constructor
    · intro h
      exact lookup_of_mem_of_nodup m'.group_lookup r g (sortedKeys_nodup _ hsorted) h
    · intro h
      exact mem_of_lookup_eq_some m'.group_lookup r g h
  · intro a rt h
    simpa using hroots.2 a rt h
  · intro g hg g' hg' hgg
    exact List.Pairwise.forall (fun _ _ h => List.Disjoint.symm h) hdis hg hg' hgg

/-! ## The small solvents and the ions in detail -/

theorem segregate_step_small (S : AtomicStructure) (st : List Atom × List Atom)
    (e : Atom × List Atom) (h : SmallSolvent S e.1 e.2) :
    segregate_step S st e = (st.1 ++ [e.1], st.2) := by
  unfold segregate_step
  simp only
  rcases h with h | h
  · rw [if_pos h]
  · by_cases h1 : e.2.length < 4 ∧ S.res_name (S.atom_residue e.1) ∈ S.std_solvent_names
    · rw [if_pos h1]
    · rw [if_neg h1, if_pos h]

theorem segregate_step_other (S : AtomicStructure) (st : List Atom × List Atom)
    (e : Atom × List Atom) (h : ¬ SmallSolvent S e.1 e.2) :
    segregate_step S st e = (st.1, set_insert e.1 st.2) := by
  unfold segregate_step
  simp only
  rw [if_neg (fun h1 => h (Or.inl h1)), if_neg (fun h1 => h (Or.inr h1))]

theorem segregate_foldl_exact (S : AtomicStructure) :
    ∀ (L : List (Atom × List Atom)) (st : List Atom × List Atom) (r : Atom),
      (r ∈ (L.foldl (segregate_step S) st).1
        ↔ r ∈ st.1 ∨ ∃ g, (r, g) ∈ L ∧ SmallSolvent S r g)
      ∧ (r ∈ (L.foldl (segregate_step S) st).2
        ↔ r ∈ st.2 ∨ ∃ g, (r, g) ∈ L ∧ ¬ SmallSolvent S r g) := by
  intro L
  induction L with
  | nil => intro st r; simp
  | cons e L ih =>
    intro st r
    rw [List.foldl_cons]
    obtain ⟨ih1, ih2⟩ := ih (segregate_step S st e) r
    rw [ih1, ih2]
    obtain ⟨k, v⟩ := e
    have hmem : ∀ g, (r, g) ∈ (k, v) :: L ↔ (r = k ∧ g = v) ∨ (r, g) ∈ L := by
      intro g
      rw [List.mem_cons, Prod.mk.injEq]
    by_cases hs : SmallSolvent S k v
    · rw [segregate_step_small S st (k, v) hs]
      have h1 : r ∈ st.1 ++ [k] ↔ r ∈ st.1 ∨ r = k := by
        rw [List.mem_append, List.mem_singleton]
      constructor
      · show (r ∈ st.1 ++ [k] ∨ _) ↔ _
        rw [h1]
        constructor
        · rintro ((h | h) | ⟨g, hg, hsg⟩)
          · exact Or.inl h
          · subst h; exact Or.inr ⟨v, (hmem v).mpr (Or.inl ⟨rfl, rfl⟩), hs⟩
          · exact Or.inr ⟨g, (hmem g).mpr (Or.inr hg), hsg⟩
        · rintro (h | ⟨g, hg, hsg⟩)
          · exact Or.inl (Or.inl h)
          · rcases (hmem g).mp hg with ⟨h2, _⟩ | h2
            · exact Or.inl (Or.inr h2)
            · exact Or.inr ⟨g, h2, hsg⟩
      · show (r ∈ st.2 ∨ _) ↔ _
        constructor
        · rintro (h | ⟨g, hg, hsg⟩)
          · exact Or.inl h
          · exact Or.inr ⟨g, (hmem g).mpr (Or.inr hg), hsg⟩
        · rintro (h | ⟨g, hg, hsg⟩)
          · exact Or.inl h
          · rcases (hmem g).mp hg with ⟨h2, h3⟩ | h2
            · subst h2; subst h3; exact absurd hs hsg
            · exact Or.inr ⟨g, h2, hsg⟩
    · rw [segregate_step_other S st (k, v) hs]
      constructor
      · show (r ∈ st.1 ∨ _) ↔ _
        constructor
        · rintro (h | ⟨g, hg, hsg⟩)
          · exact Or.inl h
          · exact Or.inr ⟨g, (hmem g).mpr (Or.inr hg), hsg⟩
        · rintro (h | ⟨g, hg, hsg⟩)
          · exact Or.inl h
          · rcases (hmem g).mp hg with ⟨h2, h3⟩ | h2
            · subst h2; subst h3; exact absurd hsg hs
            · exact Or.inr ⟨g, h2, hsg⟩
      · show (r ∈ set_insert k st.2 ∨ _) ↔ _
        rw [mem_set_insert]
        constructor
        · rintro ((h | h) | ⟨g, hg, hsg⟩)
          · subst h; exact Or.inr ⟨v, (hmem v).mpr (Or.inl ⟨rfl, rfl⟩), hs⟩
          · exact Or.inl h
          · exact Or.inr ⟨g, (hmem g).mpr (Or.inr hg), hsg⟩
        · rintro (h | ⟨g, hg, hsg⟩)
          · exact Or.inl (Or.inr h)
          · rcases (hmem g).mp hg with ⟨h2, _⟩ | h2
            · exact Or.inl (Or.inl h2)
            · exact Or.inr ⟨g, h2, hsg⟩

/-- With distinct keys, the small solvents are the roots whose group passes the
test, and the initial `root_set` holds the other roots. -/
theorem segregate_exact (S : AtomicStructure) (gl : List (Atom × List Atom))
    (hkeys : ∀ r g, (r, g) ∈ gl ↔ group_of gl r = some g) (r : Atom) :
    (r ∈ (segregate S gl).1 ↔ ∃ g, group_of gl r = some g ∧ SmallSolvent S r g)
    ∧ (r ∈ (segregate S gl).2 ↔ ∃ g, group_of gl r = some g ∧ ¬ SmallSolvent S r g) := by
  unfold segregate
  obtain ⟨h1, h2⟩ := segregate_foldl_exact S gl ([], []) r
  rw [h1, h2]
  simp only [List.not_mem_nil, false_or]
  constructor
  · constructor
    · rintro ⟨g, hg, hs⟩; exact ⟨g, (hkeys r g).mp hg, hs⟩
    · rintro ⟨g, hg, hs⟩; exact ⟨g, (hkeys r g).mpr hg, hs⟩
  · constructor
    · rintro ⟨g, hg, hs⟩; exact ⟨g, (hkeys r g).mp hg, hs⟩
    · rintro ⟨g, hg, hs⟩; exact ⟨g, (hkeys r g).mpr hg, hs⟩

theorem count_heavys_lt (S : AtomicStructure) :
    ∀ (grp : List Atom) (n : Nat),
      count_heavys S grp n < 5
        ↔ n + (grp.filter (fun a => decide (S.element_number a > 1))).length < 5 := by
  intro grp
  induction grp with
  | nil => intro n; simp [count_heavys]
  | cons a grp ih =>
    intro n
    unfold count_heavys
    by_cases h : S.element_number a > 1
    · rw [if_pos h, List.filter_cons_of_pos (by simpa using h)]
      by_cases h4 : n + 1 > 4
      · rw [if_pos h4]
        simp only [List.length_cons]
        omega
      · rw [if_neg h4, ih]
        simp only [List.length_cons]
        omega
    · rw [if_neg h, List.filter_cons_of_neg (by simpa using h), ih]

theorem single_ion_foldlM_mem (S : AtomicStructure) (gl : List (Atom × List Atom)) :
    ∀ (L init res : List Atom), L.foldlM (single_ion_step S gl) init = some res →
      ∀ r, r ∈ res ↔ r ∈ init ∨ (r ∈ L ∧ (∃ g, group_of gl r = some g ∧ g.length = 1)
        ∧ S.element_number r > 1 ∧ S.is_noble_gas r = false) := by
  intro L
  induction L with
  | nil =>
    intro init res h r
    simp only [List.foldlM_nil] at h
    have : init = res := Option.some.inj h
    subst this
    simp
  | cons x L ih =>
    intro init res h r
    rw [List.foldlM_cons] at h
    cases hg : group_of gl x with
    | none =>
      have : single_ion_step S gl init x = none := by
        unfold single_ion_step; rw [hg]
      rw [this] at h
      cases h
    | some g =>
      by_cases hc : g.length = 1 ∧ S.element_number x > 1 ∧ S.is_noble_gas x = false
      · have hstep : single_ion_step S gl init x = some (set_insert x init) := by
          unfold single_ion_step; rw [hg]; simp only; rw [if_pos hc.1, if_pos hc.2]
        rw [hstep] at h
        rw [ih _ res h r, mem_set_insert, List.mem_cons]
        constructor
        · rintro ((h1 | h1) | ⟨h1, h2⟩)
          · subst h1
            exact Or.inr ⟨Or.inl rfl, ⟨g, hg, hc.1⟩, hc.2⟩
          · exact Or.inl h1
          · exact Or.inr ⟨Or.inr h1, h2⟩
        · rintro (h1 | ⟨h1 | h1, h2⟩)
          · exact Or.inl (Or.inr h1)
          · exact Or.inl (Or.inl h1)
          · exact Or.inr ⟨h1, h2⟩
      · have hstep : single_ion_step S gl init x = some init := by
          unfold single_ion_step; rw [hg]; simp only
          by_cases h1 : g.length = 1
          · rw [if_pos h1, if_neg (fun h2 => hc ⟨h1, h2⟩)]
          · rw [if_neg h1]
        rw [hstep] at h
        rw [ih _ res h r, List.mem_cons]
        constructor
        · rintro (h1 | ⟨h1, h2⟩)
          · exact Or.inl h1
          · exact Or.inr ⟨Or.inr h1, h2⟩
        · rintro (h1 | ⟨h1 | h1, h2⟩)
          · exact Or.inl h1
          · subst h1
            obtain ⟨⟨g', hg', hlen⟩, h3⟩ := h2
            have hgg : g = g' := Option.some.inj (hg.symm.trans hg')
            subst hgg
            exact absurd ⟨hlen, h3⟩ hc
          · exact Or.inr ⟨h1, h2⟩

theorem seen_roots_foldlM_mem (atom_to_root : Atom → Option Atom) :
    ∀ (L seen res : List Atom), L.foldlM (seen_roots_step atom_to_root) seen = some res →
      ∀ r ∈ res, r ∈ seen ∨ ∃ b ∈ L, atom_to_root b = some r := by
  intro L
  induction L with
  | nil =>
    intro seen res h r hr
    simp only [List.foldlM_nil] at h
    have : seen = res := Option.some.inj h
    subst this
    exact Or.inl hr
  | cons x L ih =>
    intro seen res h r hr
    rw [List.foldlM_cons] at h
    cases hx : atom_to_root x with
    | none =>
      have : seen_roots_step atom_to_root seen x = none := by
        unfold seen_roots_step; rw [hx]
      rw [this] at h
      cases h
    | some rt =>
      by_cases hin : rt ∈ seen
      · have hstep : seen_roots_step atom_to_root seen x = some seen := by
          unfold seen_roots_step; rw [hx]; simp only; rw [if_pos hin]
        rw [hstep] at h
        rcases ih _ res h r hr with h1 | ⟨b, hb, hbr⟩
        · exact Or.inl h1
        · exact Or.inr ⟨b, by simp [hb], hbr⟩
      · have hstep : seen_roots_step atom_to_root seen x = some (set_insert rt seen) := by
          unfold seen_roots_step; rw [hx]; simp only; rw [if_neg hin]
        rw [hstep] at h
        rcases ih _ res h r hr with h1 | ⟨b, hb, hbr⟩
        · rcases (mem_set_insert rt r seen).mp h1 with h2 | h2
          · subst h2
            exact Or.inr ⟨x, by simp, hx⟩
          · exact Or.inl h2
        · exact Or.inr ⟨b, by simp [hb], hbr⟩

theorem add_segment_foldlM_mem (S : AtomicStructure) (gl : List (Atom × List Atom)) :
    ∀ (L ions res : List Atom), L.foldlM (add_segment_step S gl) ions = some res →
      (∀ r ∈ ions, r ∈ res)
      ∧ (∀ r ∈ res, r ∈ ions ∨ (r ∈ L ∧ ∃ g, group_of gl r = some g
          ∧ (g.filter (fun a => decide (S.element_number a > 1))).length < 5)) := by
  intro L
  induction L with
  | nil =>
    intro ions res h
    simp only [List.foldlM_nil] at h
    have : ions = res := Option.some.inj h
    subst this
    exact ⟨fun r hr => hr, fun r hr => Or.inl hr⟩
  | cons x L ih =>
    intro ions res h
    rw [List.foldlM_cons] at h
    cases hstep : add_segment_step S gl ions x with
    | none => rw [hstep] at h; cases h
    | some ions1 =>
      rw [hstep] at h
      obtain ⟨h1, h2⟩ := ih ions1 res h
      have hs : (∀ r ∈ ions, r ∈ ions1)
          ∧ (∀ r ∈ ions1, r ∈ ions ∨ (r = x ∧ ∃ g, group_of gl r = some g
            ∧ (g.filter (fun a => decide (S.element_number a > 1))).length < 5)) := by
        unfold add_segment_step at hstep
        split at hstep
        · have : ions = ions1 := Option.some.inj hstep
          subst this
          exact ⟨fun r hr => hr, fun r hr => Or.inl hr⟩
        · cases hg : group_of gl x with
          | none => rw [hg] at hstep; cases hstep
          | some g =>
            rw [hg] at hstep
            simp only at hstep
            split at hstep
            · rename_i hlt
              have : set_insert x ions = ions1 := Option.some.inj hstep
              subst this
              refine ⟨fun r hr => (mem_set_insert x r ions).mpr (Or.inr hr), ?_⟩
              intro r hr
              rcases (mem_set_insert x r ions).mp hr with h3 | h3
              · subst h3
                refine Or.inr ⟨rfl, g, hg, ?_⟩
                have := (count_heavys_lt S g 0).mp hlt
                omega
              · exact Or.inl h3
            · have : ions = ions1 := Option.some.inj hstep
              subst this
              exact ⟨fun r hr => hr, fun r hr => Or.inl hr⟩
      refine ⟨fun r hr => h1 r (hs.1 r hr), ?_⟩
      intro r hr
      rcases h2 r hr with h3 | ⟨h3, h4⟩
      · rcases hs.2 r h3 with h5 | ⟨h5, h6⟩
        · exact Or.inl h5
        · exact Or.inr ⟨by simp [h5], h6⟩
      · exact Or.inr ⟨by simp [h3], h4⟩

theorem expand_ion_step_mem (S : AtomicStructure) (m : GroupMaps)
    (st st1 : List Residue × List Atom) (x : Atom)
    (h : expand_ion_step S m st x = some st1) :
    (∀ r ∈ st.2, r ∈ st1.2)
    ∧ (∀ r ∈ st1.2, r ∈ st.2 ∨ r = x
        ∨ ((∃ gx, group_of m.group_lookup x = some gx
              ∧ gx.length ≠ (S.res_atoms (S.atom_residue x)).length)
          ∧ (∃ b ∈ S.res_atoms (S.atom_residue x), m.atom_to_root b = some r)
          ∧ ∃ g, group_of m.group_lookup r = some g
              ∧ (g.filter (fun a => decide (S.element_number a > 1))).length < 5)) := by
  unfold expand_ion_step at h
  cases hg : group_of m.group_lookup x with
  | none => rw [hg] at h; cases h
  | some gx =>
    rw [hg] at h
    simp only at h
    split at h
    · have : st = st1 := Option.some.inj h
      subst this
      exact ⟨fun r hr => hr, fun r hr => Or.inl hr⟩
    · rename_i hlen
      split at h
      · have : st = st1 := Option.some.inj h
        subst this
        exact ⟨fun r hr => hr, fun r hr => Or.inl hr⟩
      · cases hseen : (S.res_atoms (S.atom_residue x)).foldlM
            (seen_roots_step m.atom_to_root) [x] with
        | none => rw [hseen] at h; cases h
        | some seen =>
          rw [hseen] at h
          simp only at h
          cases hadd : seen.foldlM (add_segment_step S m.group_lookup) st.2 with
          | none => rw [hadd] at h; cases h
          | some ions =>
            rw [hadd] at h
            have heq := Option.some.inj h
            rw [← heq]
            obtain ⟨h1, h2⟩ := add_segment_foldlM_mem S m.group_lookup seen st.2 ions hadd
            refine ⟨h1, ?_⟩
            intro r hr
            rcases h2 r hr with h3 | ⟨h3, h4⟩
            · exact Or.inl h3
            · rcases seen_roots_foldlM_mem m.atom_to_root _ [x] seen hseen r h3 with h5 | h5
              · simp only [List.mem_singleton] at h5
                exact Or.inr (Or.inl h5)
              · exact Or.inr (Or.inr ⟨⟨gx, rfl, hlen⟩, h5, h4⟩)

theorem expand_ion_foldlM_mem (S : AtomicStructure) (m : GroupMaps) :
    ∀ (L : List Atom) (st res : List Residue × List Atom),
      L.foldlM (expand_ion_step S m) st = some res →
      (∀ r ∈ st.2, r ∈ res.2)
      ∧ (∀ r ∈ res.2, r ∈ st.2 ∨ r ∈ L
          ∨ ∃ x ∈ L, (∃ gx, group_of m.group_lookup x = some gx
                ∧ gx.length ≠ (S.res_atoms (S.atom_residue x)).length)
            ∧ (∃ b ∈ S.res_atoms (S.atom_residue x), m.atom_to_root b = some r)
            ∧ ∃ g, group_of m.group_lookup r = some g
                ∧ (g.filter (fun a => decide (S.element_number a > 1))).length < 5) := by
  intro L
  induction L with
  | nil =>
    intro st res h
    simp only [List.foldlM_nil] at h
    have : st = res := Option.some.inj h
    subst this
    exact ⟨fun r hr => hr, fun r hr => Or.inl hr⟩
  | cons x L ih =>
    intro st res h
    rw [List.foldlM_cons] at h
    cases hstep : expand_ion_step S m st x with
    | none => rw [hstep] at h; cases h
    | some st1 =>
      rw [hstep] at h
      obtain ⟨h1, h2⟩ := ih st1 res h
      obtain ⟨s1, s2⟩ := expand_ion_step_mem S m st st1 x hstep
      refine ⟨fun r hr => h1 r (s1 r hr), ?_⟩
      intro r hr
      rcases h2 r hr with h3 | h3 | ⟨y, hy, h4⟩
      · rcases s2 r h3 with h5 | h5 | h5
        · exact Or.inl h5
        · exact Or.inr (Or.inl (by simp [h5]))
        · exact Or.inr (Or.inr ⟨x, by simp, h5⟩)
      · exact Or.inr (Or.inl (by simp [h3]))
      · exact Or.inr (Or.inr ⟨y, by simp [hy], h4⟩)

/-- The set `ions`: it holds every single-atom ion of `root_set`, and any other
member was added by the expansion of such an ion. -/
theorem collect_ions_mem (S : AtomicStructure) (m : GroupMaps) (root_set ions : List Atom)
    (h : collect_ions S m root_set = some ions) :
    (∀ r, (r ∈ root_set ∧ (∃ g, group_of m.group_lookup r = some g ∧ g.length = 1)
        ∧ S.element_number r > 1 ∧ S.is_noble_gas r = false) → r ∈ ions)
    ∧ (∀ r ∈ ions,
        (r ∈ root_set ∧ (∃ g, group_of m.group_lookup r = some g ∧ g.length = 1)
          ∧ S.element_number r > 1 ∧ S.is_noble_gas r = false)
        ∨ (S.num_bonds > 0
          ∧ ∃ x, (x ∈ root_set ∧ (∃ g, group_of m.group_lookup x = some g ∧ g.length = 1)
              ∧ S.element_number x > 1 ∧ S.is_noble_gas x = false)
            ∧ (∃ gx, group_of m.group_lookup x = some gx
                ∧ gx.length ≠ (S.res_atoms (S.atom_residue x)).length)
            ∧ (∃ b ∈ S.res_atoms (S.atom_residue x), m.atom_to_root b = some r)
            ∧ ∃ g, group_of m.group_lookup r = some g
                ∧ (g.filter (fun a => decide (S.element_number a > 1))).length < 5)) := by
  unfold collect_ions at h
  cases h0 : root_set.foldlM (single_ion_step S m.group_lookup) [] with
  | none => rw [h0] at h; cases h
  | some ions0 =>
    rw [h0] at h
    simp only at h
    have hmem0 := single_ion_foldlM_mem S m.group_lookup root_set [] ions0 h0
    have hsingle : ∀ r, r ∈ ions0 ↔ (r ∈ root_set
        ∧ (∃ g, group_of m.group_lookup r = some g ∧ g.length = 1)
        ∧ S.element_number r > 1 ∧ S.is_noble_gas r = false) := by
      intro r
      rw [hmem0 r]
      simp
    by_cases hb : S.num_bonds > 0
    · rw [if_pos hb] at h
      cases hexp : ions0.foldlM (expand_ion_step S m) ([], ions0) with
      | none => rw [hexp] at h; cases h
      | some st =>
        rw [hexp] at h
        have heq := Option.some.inj h
        rw [← heq]
        obtain ⟨h1, h2⟩ := expand_ion_foldlM_mem S m ions0 ([], ions0) st hexp
        constructor
        · intro r hr
          exact h1 r ((hsingle r).mpr hr)
        · intro r hr
          rcases h2 r hr with h3 | h3 | ⟨x, hx, h4⟩
          · exact Or.inl ((hsingle r).mp h3)
          · exact Or.inl ((hsingle r).mp h3)
          · exact Or.inr ⟨hb, x, (hsingle x).mp hx, h4⟩
    · rw [if_neg hb] at h
      have heq := Option.some.inj h
      rw [← heq]
      exact ⟨fun r hr => (hsingle r).mpr hr, fun r hr => Or.inl ((hsingle r).mp hr)⟩

/-! ## Facts shared by the theorems about categories -/

theorem groups_disjoint_of_ne (bonded : List (List Atom)) (m : GroupMaps)
    (hne : ∀ g ∈ bonded, g ≠ []) (hdis : bonded.Pairwise List.Disjoint)
    (hm : build_group_maps bonded = some m) (r r' : Atom) (g g' : List Atom)
    (hg : group_of m.group_lookup r = some g) (hg' : group_of m.group_lookup r' = some g')
    (hrr : r ≠ r') : ∀ a ∈ g, a ∉ g' := by
  obtain ⟨hex, _, _, hd⟩ := build_group_maps_exact bonded m hne hdis hm
  obtain ⟨hb, hh⟩ := (hex r g).mp hg
  obtain ⟨hb', hh'⟩ := (hex r' g').mp hg'
  have hgg : g ≠ g' := by
    intro h
    rw [h, hh'] at hh
    exact hrr (Option.some.inj hh).symm
  intro a ha ha'
  exact hd g hb g' hb' hgg ha ha'

theorem group_eq_of_mem (bonded : List (List Atom))
    (hdis : bonded.Pairwise List.Disjoint) (g g' : List Atom) (hg : g ∈ bonded)
    (hg' : g' ∈ bonded) (a : Atom) (ha : a ∈ g) (ha' : a ∈ g') : g = g' := by
  by_contra hne
  exact List.Pairwise.forall (fun _ _ h => List.Disjoint.symm h) hdis hg hg' hne ha ha'

theorem small_not_in_root_set (S : AtomicStructure) (gl : List (Atom × List Atom))
    (hkeys : ∀ r g, (r, g) ∈ gl ↔ group_of gl r = some g) (r : Atom)
    (h1 : r ∈ (segregate S gl).1) : r ∉ (segregate S gl).2 := by
  intro h2
  obtain ⟨g, hg, hs⟩ := ((segregate_exact S gl hkeys r).1).mp h1
  obtain ⟨g', hg', hns⟩ := ((segregate_exact S gl hkeys r).2).mp h2
  have : g = g' := Option.some.inj (hg.symm.trans hg')
  subst this
  exact hns hs

theorem run_stages_assign_ions (S : AtomicStructure) (m : GroupMaps)
    (cat final : Atom → Option StructCat)
    (solvents : List (String × List Atom)) (cat1 : Atom → Option StructCat)
    (st1 : List Atom × (Atom → Option StructCat)) (ions : List Atom)
    (st2 : List Atom × (Atom → Option StructCat))
    (ht : RunStages S m cat final solvents cat1 st1 ions st2) :
    assign_ions S m st1 = some st2 := by
  obtain ⟨_, _, _, _, hions, hfold, _⟩ := ht
  unfold assign_ions
  rw [hions]
  exact hfold

theorem head_mem_of_head? (g : List Atom) (r : Atom) (h : g.head? = some r) : r ∈ g :=
  List.mem_of_mem_head? h

theorem singleton_of_head_length (g : List Atom) (r : Atom) (h : g.head? = some r)
    (hlen : g.length = 1) : g = [r] := by
  cases g with
  | nil => simp at hlen
  | cons a t =>
    cases t with
    | nil =>
      simp only [List.head?_cons, Option.some.injEq] at h
      rw [h]
    | cons b t => simp at hlen

/-! ## Theorems about the small solvents -/

/-- The run on `example_molecule` returns. -/
theorem example_molecule_returns :
    ∃ st', _compute_structure_cats example_molecule example_bonded
      { cat := fun _ => none, structure_cats_dirty := true } = some st' :=
  Option.isSome_iff_exists.mp (by decide)

/-- Failure of C11 as stated, on `example_bound_water`: the groups are non-empty, disjoint and
contain every atom; the group `[1, 2]` has fewer than 4 atoms and its root atom `1` is in a
residue with the standard solvent name `HOH`; yet atom `1` ends in category `Ions`, because
the expansion of the ion `3` reaches the group through the residue they share. -/
theorem small_solvent_overridden :
    (∀ g ∈ example_bound_water_groups, g ≠ [])
      ∧ (∀ a ∈ example_bound_water.atoms, ∃ g ∈ example_bound_water_groups, a ∈ g)
      ∧ example_bound_water_groups.Pairwise (fun g h => ∀ a ∈ g, a ∉ h)
      ∧ [1, 2] ∈ example_bound_water_groups
      ∧ SmallSolvent example_bound_water 1 [1, 2]
      ∧ (_compute_structure_cats example_bound_water example_bound_water_groups
          { cat := fun _ => none, structure_cats_dirty := true }).map (fun st => st.cat 1)
        = some (some StructCat.Ions) := by
  decide

/-- C11, amended: let `bonded` be the bonded groups (non-empty, pairwise
disjoint) and `g` one of them that passes the small-solvent test. When the
solvent section ends, every atom of `g` has category `Solvent`; and when
`_compute_structure_cats` returns it still has, provided no atom of `g` is
listed by the residue of an atom of another bonded group. -/
theorem small_solvent_category (S : AtomicStructure) (bonded : List (List Atom))
    (st st' : CatState)
    (hne : ∀ g ∈ bonded, g ≠ [])
    (hdis : bonded.Pairwise (fun g h => ∀ a ∈ g, a ∉ h))
    (hrun : _compute_structure_cats S bonded st = some st')
    (g : List Atom) (hg : g ∈ bonded) (root : Atom) (hroot : g.head? = some root)
    (hsmall : SmallSolvent S root g) :
    (∃ m st1, build_group_maps bonded = some m
        ∧ assign_solvent S m.group_lookup st.cat = some st1
        ∧ ∀ a ∈ g, st1.2 a = some StructCat.Solvent)
    ∧ ((∀ g' ∈ bonded, g' ≠ g → ∀ y ∈ g', ∀ b ∈ S.res_atoms (S.atom_residue y), b ∉ g) →
        ∀ a ∈ g, st'.cat a = some StructCat.Solvent) := by
  have hdis' : bonded.Pairwise List.Disjoint :=
    List.Pairwise.imp (fun {g h} hgh a ha hb => hgh a ha hb) hdis
  obtain ⟨m, hm, _⟩ := build_group_maps_spec bonded hne hdis'
  obtain ⟨hex, hkeys, hatr, _⟩ := build_group_maps_exact bonded m hne hdis' hm
  obtain ⟨_, solvents, cat1, st1, ions, st2, ht⟩ := run_stages S bonded st st' m hm hrun
  have hlook : group_of m.group_lookup root = some g := (hex root g).mpr ⟨hg, hroot⟩
  have hsm : root ∈ (segregate S m.group_lookup).1 :=
    ((segregate_exact S m.group_lookup hkeys root).1).mpr ⟨g, hlook, hsmall⟩
  have hnot : root ∉ (segregate S m.group_lookup).2 :=
    small_not_in_root_set S m.group_lookup hkeys root hsm
  have hroots := run_roots S m st.cat st'.cat solvents cat1 st1 ions st2 ht
  have hfinish : ∀ (cat : Atom → Option StructCat) (a : Atom),
      Permitted (fun a c => a ∈ g → c = StructCat.Solvent) cat a → a ∈ g →
      cat a = some StructCat.Solvent := by
    intro cat a hp ha
    obtain ⟨c, hc, hΦ⟩ := hp
    rw [hc, hΦ ha]
  constructor
  · obtain ⟨_, hc1, hbest, h1, _⟩ := ht
    refine ⟨m, st1, hm, h1, ?_⟩
    intro a ha
    obtain ⟨_, cov1⟩ := assign_foldlM_permitted (fun a c => a ∈ g → c = StructCat.Solvent)
      m.group_lookup StructCat.Solvent _ st.cat cat1 hc1 (fun _ _ _ _ _ _ _ => rfl)
    obtain ⟨_, mono2, _⟩ := erase_assign_foldlM_permitted
      (fun a c => a ∈ g → c = StructCat.Solvent) m.group_lookup StructCat.Solvent
      _ _ st1 hbest (fun _ _ _ _ _ _ _ => rfl)
    exact hfinish _ a (mono2 a (cov1 root hsm g hlook a ha)) ha
  · intro hiso a ha
    have hother : ∀ r, r ≠ root → ∀ g', group_of m.group_lookup r = some g' →
        (∀ b ∈ g', b ∉ g)
        ∧ (∀ y ∈ g', ∀ b ∈ S.res_atoms (S.atom_residue y), b ∉ g) := by
      intro r hr g' hg'
      have hd := groups_disjoint_of_ne bonded m hne hdis' hm r root g' g hg' hlook hr
      refine ⟨hd, ?_⟩
      have hb' := ((hex r g').mp hg').1
      have hgg : g' ≠ g := by
        intro h
        have h2 := ((hex r g').mp hg').2
        rw [h, hroot] at h2
        exact hr (Option.some.inj h2).symm
      exact hiso g' hb' hgg
    have hrs : ∀ r ∈ st1.1, r ≠ root := by
      intro r hr h
      rw [h] at hr
      exact hnot ((hroots.1 root).mp hr).1
    have hperm := run_permitted (fun a c => a ∈ g → c = StructCat.Solvent) S m st.cat st'.cat
      solvents cat1 st1 ions st2 ht
      (fun _ _ _ _ _ _ _ => rfl)
      (by
        intro r hr g' hg' b hb hbg
        have hrne : r ≠ root := by
          obtain ⟨_, _, _, _, hions, _⟩ := ht
          rcases (collect_ions_mem S m st1.1 ions hions).2 r hr with h | ⟨_, x, hx, _, hbx, _⟩
          · exact hrs r h.1
          · intro hrr
            obtain ⟨b', hb', hab⟩ := hbx
            rw [hrr] at hab
            obtain ⟨g2, hg2, hb2, hh2⟩ := hatr b' root hab
            have hg2g : g2 = g :=
              Option.some.inj (((hex root g2).mpr ⟨hg2, hh2⟩).symm.trans hlook)
            rw [hg2g] at hb2
            obtain ⟨gx, hgx, _⟩ := hx.2.1
            have hxin : x ∈ gx := head_mem_of_head? gx x ((hex x gx).mp hgx).2
            exact (hother x (hrs x hx.1) gx hgx).2 x hxin b' hb' hb2
        exact absurd hbg ((hother r hrne g' hg').1 b hb))
      (by
        intro r hr g' hg'
        have hrne : r ≠ root := hrs r ((hroots.2 r).mp hr).1
        have ho := hother r hrne g' hg'
        refine ⟨fun b hb => ⟨fun hbg => absurd hbg (ho.1 b hb),
          fun hbg => absurd hbg (ho.1 b hb)⟩, ?_⟩
        intro y hy b hb hbg
        exact absurd hbg (ho.2 y hy b hb))
    exact hfinish _ a (hperm root g hlook a ha) ha

/-- Instance of C11 (amended) on `example_molecule`: the water molecule `[1, 2, 3]`
shares its residue with no other group and ends in category `Solvent`. -/
theorem small_solvent_category_witness :
    ∃ st', _compute_structure_cats example_molecule example_bonded
        { cat := fun _ => none, structure_cats_dirty := true } = some st'
      ∧ ∀ a ∈ [1, 2, 3], st'.cat a = some StructCat.Solvent :=
  Exists.elim example_molecule_returns (fun st' hst' =>
    ⟨st', hst',
     (small_solvent_category example_molecule example_bonded
        { cat := fun _ => none, structure_cats_dirty := true } st'
        (by decide) (by decide) hst' [1, 2, 3] (by decide) 1 rfl (by decide)).2
       (by decide)⟩)

/-! ## Theorems about the ions -/

/-- The run on `example_bound_water` returns. -/
theorem example_bound_water_returns :
    ∃ st', _compute_structure_cats example_bound_water example_bound_water_groups
      { cat := fun _ => none, structure_cats_dirty := true } = some st' :=
  Option.isSome_iff_exists.mp (by decide)

/-- The values of `ion_section_sets` are values of the run. -/
theorem ion_section_sets_stages (S : AtomicStructure) (bonded : List (List Atom))
    (m : GroupMaps) (cat final : Atom → Option StructCat)
    (solvents : List (String × List Atom)) (cat1 : Atom → Option StructCat)
    (st1 : List Atom × (Atom → Option StructCat)) (ions : List Atom)
    (st2 : List Atom × (Atom → Option StructCat))
    (hm : build_group_maps bonded = some m)
    (ht : RunStages S m cat final solvents cat1 st1 ions st2)
    (rs ions' : List Atom) (hsets : ion_section_sets S bonded cat = some (rs, ions')) :
    rs = st1.1 ∧ ions' = ions := by
  obtain ⟨_, _, _, h1, hions, _⟩ := ht
  unfold ion_section_sets at hsets
  rw [hm] at hsets
  simp only at hsets
  rw [h1] at hsets
  simp only at hsets
  rw [hions] at hsets
  simp only [Option.some.injEq, Prod.mk.injEq] at hsets
  exact ⟨hsets.1.symm, hsets.2.symm⟩

/-- Failure of C13 as stated, on `example_bound_heme`: the groups are non-empty, disjoint and
contain every atom; the group `[9]` is a single atom, still in `root_set` when the ion
section starts (hence not assigned to solvent), of atomic number 26 and not a noble gas;
yet atom `9` ends in category `Ligand`, assigned by the main section to the atoms of the
bound residue of the chain that lists it. -/
theorem single_atom_ion_overridden :
    (∀ g ∈ example_bound_heme_groups, g ≠ [])
      ∧ (∀ a ∈ example_bound_heme.atoms, ∃ g ∈ example_bound_heme_groups, a ∈ g)
      ∧ example_bound_heme_groups.Pairwise (fun g h => ∀ a ∈ g, a ∉ h)
      ∧ [9] ∈ example_bound_heme_groups
      ∧ ion_section_sets example_bound_heme example_bound_heme_groups (fun _ => none)
        = some ([1, 9], [9])
      ∧ example_bound_heme.element_number 9 > 1
      ∧ example_bound_heme.is_noble_gas 9 = false
      ∧ (_compute_structure_cats example_bound_heme example_bound_heme_groups
          { cat := fun _ => none, structure_cats_dirty := true }).map (fun st => st.cat 9)
        = some (some StructCat.Ligand) := by
  decide

/-- C13, amended: let `bonded` be the bonded groups (non-empty, pairwise
disjoint), `rs` the set `root_set` when the ion section starts and `ions` the
set of roots that the ion section assigns. Every group of one atom `x` that is
in `rs` (not assigned to solvent), with atomic number above 1 and not a noble
gas, has category `Ions` when the ion section ends; when
`_compute_structure_cats` returns its category is `Ions`, or else `Ligand` and
then `x` is listed by the residue of an atom of another group. A group of
several atoms that is made an ion (its root is in `ions`, or one of its atoms
ends in category `Ions`) is so only when the structure has a bond, the group
has fewer than 5 atoms of atomic number above 1, and it contains an atom of
the residue of such a single-atom ion whose residue has other atoms. -/
theorem ion_assignment (S : AtomicStructure) (bonded : List (List Atom))
    (st st' : CatState) (rs ions : List Atom)
    (hne : ∀ g ∈ bonded, g ≠ [])
    (hdis : bonded.Pairwise (fun g h => ∀ a ∈ g, a ∉ h))
    (hsets : ion_section_sets S bonded st.cat = some (rs, ions))
    (hrun : _compute_structure_cats S bonded st = some st') :
    (∀ x, [x] ∈ bonded → x ∈ rs → S.element_number x > 1 → S.is_noble_gas x = false →
        (∃ m st1 st2, build_group_maps bonded = some m
          ∧ assign_solvent S m.group_lookup st.cat = some st1
          ∧ assign_ions S m st1 = some st2
          ∧ st2.2 x = some StructCat.Ions)
        ∧ (st'.cat x = some StructCat.Ions
          ∨ (st'.cat x = some StructCat.Ligand
            ∧ ∃ g ∈ bonded, x ∉ g ∧ ∃ y ∈ g, x ∈ S.res_atoms (S.atom_residue y))))
    ∧ (∀ g ∈ bonded, g.length ≠ 1 →
        ((∃ r, g.head? = some r ∧ r ∈ ions) ∨ (∃ a ∈ g, st'.cat a = some StructCat.Ions)) →
        S.num_bonds > 0
        ∧ (g.filter (fun a => decide (S.element_number a > 1))).length < 5
        ∧ ∃ x, [x] ∈ bonded ∧ x ∈ rs ∧ S.element_number x > 1 ∧ S.is_noble_gas x = false
            ∧ (S.res_atoms (S.atom_residue x)).length ≠ 1
            ∧ ∃ b ∈ S.res_atoms (S.atom_residue x), b ∈ g) := by
  have hdis' : bonded.Pairwise List.Disjoint :=
    List.Pairwise.imp (fun {g h} hgh a ha hb => hgh a ha hb) hdis
  obtain ⟨m, hm, _⟩ := build_group_maps_spec bonded hne hdis'
  obtain ⟨hex, hkeys, hatr, _⟩ := build_group_maps_exact bonded m hne hdis' hm
  obtain ⟨_, solvents, cat1, st1, ions0, st2, ht⟩ := run_stages S bonded st st' m hm hrun
  obtain ⟨hrs, hio⟩ := ion_section_sets_stages S bonded m st.cat st'.cat solvents cat1 st1
    ions0 st2 hm ht rs ions hsets
  subst hrs
  subst hio
  have hroots := run_roots S m st.cat st'.cat solvents cat1 st1 ions st2 ht
  have hions : collect_ions S m st1.1 = some ions := ht.2.2.2.2.1
  have hfold : ions.foldlM (erase_assign_step m.group_lookup StructCat.Ions) st1 = some st2 :=
    ht.2.2.2.2.2.1
  have hmemb := collect_ions_mem S m st1.1 ions hions
  constructor
  · intro x hx hxrs hel hnob
    have hlook : group_of m.group_lookup x = some [x] := (hex x [x]).mpr ⟨hx, rfl⟩
    have hxi : x ∈ ions := hmemb.1 x ⟨hxrs, ⟨[x], hlook, rfl⟩, hel, hnob⟩
    have hother : ∀ r, r ≠ x → ∀ g, group_of m.group_lookup r = some g → x ∉ g := by
      intro r hr g hg hxg
      exact groups_disjoint_of_ne bonded m hne hdis' hm r x g [x] hg hlook hr x hxg
        (List.mem_singleton.mpr rfl)
    constructor
    · refine ⟨m, st1, st2, hm, ht.2.2.2.1,
        run_stages_assign_ions S m st.cat st'.cat solvents cat1 st1 ions st2 ht, ?_⟩
      obtain ⟨_, _, cov⟩ := erase_assign_foldlM_permitted
        (fun _ c => c = StructCat.Ions) m.group_lookup StructCat.Ions
        ions st1 st2 hfold (fun _ _ _ _ _ _ => rfl)
      obtain ⟨c, hc, hΦ⟩ := cov x hxi [x] hlook x (List.mem_singleton.mpr rfl)
      rw [hc, hΦ]
    · have hperm := run_permitted
        (fun a c => a = x → (c = StructCat.Ions
          ∨ (c = StructCat.Ligand
            ∧ ∃ g ∈ bonded, x ∉ g ∧ ∃ y ∈ g, x ∈ S.res_atoms (S.atom_residue y))))
        S m st.cat st'.cat solvents cat1 st1 ions st2 ht
        (by
          intro r hr g hg a ha hax
          exfalso
          rw [hax] at ha
          have hrx : r ≠ x := by
            intro h
            rw [h] at hr
            rcases hr with hr | hr
            · exact small_not_in_root_set S m.group_lookup hkeys x hr
                ((hroots.1 x).mp hxrs).1
            · exact ((hroots.1 x).mp hxrs).2 hr
          exact hother r hrx g hg ha)
        (fun _ _ _ _ _ _ _ => Or.inl rfl)
        (by
          intro r hr g hg
          have hrx : r ≠ x := by
            intro h
            rw [h] at hr
            exact ((hroots.2 x).mp hr).2 hxi
          have hxg : x ∉ g := hother r hrx g hg
          have hgb : g ∈ bonded := ((hex r g).mp hg).1
          refine ⟨fun a ha => ⟨?_, ?_⟩, ?_⟩
          · intro hax
            rw [hax] at ha
            exact absurd ha hxg
          · intro hax
            rw [hax] at ha
            exact absurd ha hxg
          · intro y hy b hb hbx
            rw [hbx] at hb
            exact Or.inr ⟨rfl, g, hgb, hxg, y, hy, hb⟩)
      obtain ⟨c, hc, hΦ⟩ := hperm x [x] hlook x (List.mem_singleton.mpr rfl)
      rcases hΦ rfl with h | ⟨h, h'⟩
      · left
        rw [hc, h]
      · right
        refine ⟨?_, h'⟩
        rw [hc, h]
  · intro g hg hlen hmade
    have hroot : ∃ r, g.head? = some r ∧ r ∈ ions := by
      rcases hmade with h | ⟨a, ha, hcat⟩
      · exact h
      · have hperm := run_permitted
          (fun a c => c = StructCat.Ions →
            ∀ g ∈ bonded, a ∈ g → ∃ r, g.head? = some r ∧ r ∈ ions)
          S m st.cat st'.cat solvents cat1 st1 ions st2 ht
          (by
            intro _ _ _ _ _ _ h
            cases h)
          (by
            intro r hr g1 hg1 b hb _ g2 hg2 hb2
            have hb1 := (hex r g1).mp hg1
            have : g1 = g2 := group_eq_of_mem bonded hdis' g1 g2 hb1.1 hg2 b hb hb2
            subst this
            exact ⟨r, hb1.2, hr⟩)
          (by
            intro r hr g1 hg1
            refine ⟨fun b hb => ⟨?_, ?_⟩, ?_⟩
            · intro h
              cases h
            · intro h
              cases h
            · intro _ _ _ _ h
              cases h)
        cases hh : g.head? with
        | none =>
          exfalso
          cases g with
          | nil => exact hne [] hg rfl
          | cons a t => simp at hh
        | some r =>
          have hlook : group_of m.group_lookup r = some g := (hex r g).mpr ⟨hg, hh⟩
          obtain ⟨c, hc, hΦ⟩ := hperm r g hlook a ha
          rw [hc] at hcat
          have hcI : c = StructCat.Ions := Option.some.inj hcat
          have := hΦ hcI g hg ha
          rw [hh] at this
          exact this
    obtain ⟨r, hh, hri⟩ := hroot
    have hlook : group_of m.group_lookup r = some g := (hex r g).mpr ⟨hg, hh⟩
    rcases hmemb.2 r hri with ⟨_, ⟨g1, hg1, hl1⟩, _⟩ | ⟨hnb, x, hx, hgx, hbx, hheavy⟩
    · exfalso
      have : g1 = g := Option.some.inj (hg1.symm.trans hlook)
      rw [this] at hl1
      exact hlen hl1
    · refine ⟨hnb, ?_, ?_⟩
      · obtain ⟨g3, hg3, hl3⟩ := hheavy
        have : g3 = g := Option.some.inj (hg3.symm.trans hlook)
        rw [this] at hl3
        exact hl3
      · obtain ⟨hxrs, ⟨g4, hg4, hl4⟩, hel, hnob⟩ := hx
        have hb4 := (hex x g4).mp hg4
        have hg4x : g4 = [x] := singleton_of_head_length g4 x hb4.2 hl4
        refine ⟨x, ?_, hxrs, hel, hnob, ?_, ?_⟩
        · rw [← hg4x]
          exact hb4.1
        · obtain ⟨gx, hgx1, hgx2⟩ := hgx
          have : gx = g4 := Option.some.inj (hgx1.symm.trans hg4)
          rw [this, hl4] at hgx2
          exact fun h => hgx2 h.symm
        · obtain ⟨b, hb, hbr⟩ := hbx
          obtain ⟨g5, hg5, hb5, hh5⟩ := hatr b r hbr
          have : g5 = g :=
            Option.some.inj (((hex r g5).mpr ⟨hg5, hh5⟩).symm.trans hlook)
          rw [this] at hb5
          exact ⟨b, hb, hb5⟩

/-- Instance of C13 (amended) on `example_bound_water`: the single atom `3` ends in
category `Ions`, and the group `[1, 2]`, made an ion, has fewer than 5 heavy atoms and
contains atom `2` of the residue of atom `3`. -/
theorem ion_assignment_witness :
    ∃ st', _compute_structure_cats example_bound_water example_bound_water_groups
        { cat := fun _ => none, structure_cats_dirty := true } = some st'
      ∧ (st'.cat 3 = some StructCat.Ions
          ∨ (st'.cat 3 = some StructCat.Ligand
            ∧ ∃ g ∈ example_bound_water_groups, 3 ∉ g
              ∧ ∃ y ∈ g, 3 ∈ example_bound_water.res_atoms (example_bound_water.atom_residue y)))
      ∧ (example_bound_water.num_bonds > 0
        ∧ (([1, 2] : List Atom).filter
            (fun a => decide (example_bound_water.element_number a > 1))).length < 5
        ∧ ∃ x, [x] ∈ example_bound_water_groups ∧ x ∈ [3]
            ∧ example_bound_water.element_number x > 1
            ∧ example_bound_water.is_noble_gas x = false
            ∧ (example_bound_water.res_atoms (example_bound_water.atom_residue x)).length ≠ 1
            ∧ ∃ b ∈ example_bound_water.res_atoms (example_bound_water.atom_residue x),
                b ∈ [1, 2]) :=
  Exists.elim example_bound_water_returns (fun st' hst' =>
    ⟨st', hst',
     ((ion_assignment example_bound_water example_bound_water_groups
        { cat := fun _ => none, structure_cats_dirty := true } st' [3] [1, 3]
        (by decide) (by decide) (by decide) hst').1 3 (by decide) (by decide) (by decide)
        (by decide)).2,
     (ion_assignment example_bound_water example_bound_water_groups
        { cat := fun _ => none, structure_cats_dirty := true } st' [3] [1, 3]
        (by decide) (by decide) (by decide) hst').2 [1, 2] (by decide) (by decide)
        (Or.inl ⟨1, rfl, by decide⟩)⟩)

/-! ## The order of `std::string` and the map `solvents` -/

theorem lex_lt_irrefl : ∀ l : List Nat, lex_lt l l = false := by
  intro l
  induction l with
  | nil => rfl
  | cons a l ih => simp [lex_lt, ih]

theorem lex_lt_trans : ∀ a b c : List Nat,
    lex_lt a b = true → lex_lt b c = true → lex_lt a c = true := by
  intro a
  induction a with
  | nil =>
    intro b c h1 h2
    cases b with
    | nil => simp [lex_lt] at h1
    | cons y b =>
      cases c with
      | nil => simp [lex_lt] at h2
      | cons z c => simp [lex_lt]
  | cons x a ih =>
    intro b c h1 h2
    cases b with
    | nil => simp [lex_lt] at h1
    | cons y b =>
      cases c with
      | nil => simp [lex_lt] at h2
      | cons z c =>
        simp only [lex_lt] at h1 h2 ⊢
        by_cases hxy : x < y
        · by_cases hyz : y < z
          · have : x < z := by omega
            simp [this]
          · by_cases hzy : z < y
            · simp [hyz, hzy] at h2
            · have : y = z := by omega
              subst this
              simp [hxy]
        · by_cases hyx : y < x
          · simp [hxy, hyx] at h1
          · have : x = y := by omega
            subst this
            simp only [hxy, if_false] at h1
            by_cases hxz : x < z
            · simp [hxz]
            · by_cases hzx : z < x
              · simp [hxz, hzx] at h2
              · simp only [hxz, hzx, if_false] at h2 ⊢
                exact ih b c (by simpa using h1) (by simpa using h2)

theorem lex_lt_total : ∀ a b : List Nat,
    lex_lt a b = false → lex_lt b a = false → a = b := by
  intro a
  induction a with
  | nil =>
    intro b h1 _
    cases b with
    | nil => rfl
    | cons y b => simp [lex_lt] at h1
  | cons x a ih =>
    intro b h1 h2
    cases b with
    | nil => simp [lex_lt] at h2
    | cons y b =>
      simp only [lex_lt] at h1 h2
      by_cases hxy : x < y
      · simp [hxy] at h1
      · by_cases hyx : y < x
        · simp [hyx] at h2
        · have : x = y := by omega
          subst this
          simp only [hxy, if_false] at h1 h2
          rw [ih b (by simpa using h1) (by simpa using h2)]

theorem char_codes_injective (s t : String)
    (h : s.toList.map Char.toNat = t.toList.map Char.toNat) : s = t := by
  have hinj : Function.Injective Char.toNat := by
    intro c d hcd
    rw [← Char.ofNat_toNat c, ← Char.ofNat_toNat d, hcd]
  exact String.ext (List.map_injective_iff.mpr hinj h)

theorem string_lt_irrefl (s : String) : string_lt s s = false := lex_lt_irrefl _

theorem string_lt_trans (s t u : String) (h1 : string_lt s t = true)
    (h2 : string_lt t u = true) : string_lt s u = true := lex_lt_trans _ _ _ h1 h2

theorem string_lt_total (s t : String) (h1 : string_lt s t = false)
    (h2 : string_lt t s = false) : s = t :=
  char_codes_injective s t (lex_lt_total _ _ h1 h2)

theorem string_lt_ne (s t : String) (h : string_lt s t = true) : s ≠ t := by
  intro hst
  rw [hst, string_lt_irrefl] at h
  cases h

/-- Keys of `m[k].push_back(a)`: the keys of `m` and `k`. -/
theorem omap_push_keys {V : Type} (k : String) (a : V) :
    ∀ (m : List (String × List V)) (e : String × List V),
      e ∈ omap_push string_lt k a m → e.1 = k ∨ ∃ e' ∈ m, e'.1 = e.1 := by
  intro m
  induction m with
  | nil =>
    intro e he
    simp only [omap_push, List.mem_singleton] at he
    rw [he]
    exact Or.inl rfl
  | cons x m ih =>
    intro e he
    unfold omap_push at he
    split at he
    · rcases List.mem_cons.mp he with h | h
      · rw [h]
        exact Or.inl rfl
      · exact Or.inr ⟨e, h, rfl⟩
    · split at he
      · rcases List.mem_cons.mp he with h | h
        · exact Or.inr ⟨x, List.mem_cons_self _ _, by rw [h]⟩
        · rcases ih e h with h1 | ⟨e', he', h1⟩
          · exact Or.inl h1
          · exact Or.inr ⟨e', List.mem_cons_of_mem _ he', h1⟩
      · rcases List.mem_cons.mp he with h | h
        · exact Or.inr ⟨x, List.mem_cons_self _ _, by rw [h]⟩
        · exact Or.inr ⟨e, List.mem_cons_of_mem _ h, rfl⟩

theorem omap_push_sorted {V : Type} (k : String) (a : V) :
    ∀ (m : List (String × List V)),
      m.Pairwise (fun e1 e2 => string_lt e1.1 e2.1 = true) →
      (omap_push string_lt k a m).Pairwise (fun e1 e2 => string_lt e1.1 e2.1 = true) := by
  intro m
  induction m with
  | nil => intro _; simp [omap_push]
  | cons x m ih =>
    intro h
    have hx := List.pairwise_cons.mp h
    unfold omap_push
    split
    · rename_i h1
      refine List.pairwise_cons.mpr ⟨?_, h⟩
      intro e he
      rcases List.mem_cons.mp he with h2 | h2
      · rw [h2]
        exact h1
      · exact string_lt_trans _ _ _ h1 (hx.1 e h2)
    · split
      · rename_i h1 h2
        refine List.pairwise_cons.mpr ⟨?_, ih hx.2⟩
        intro e he
        rcases omap_push_keys k a m e he with h3 | ⟨e', he', h3⟩
        · show string_lt x.1 e.1 = true
          rw [h3]
          exact h2
        · show string_lt x.1 e.1 = true
          rw [← h3]
          exact hx.1 e' he'
      · refine List.pairwise_cons.mpr ⟨?_, hx.2⟩
        intro e he
        exact hx.1 e he

theorem lookup_none_of_lt {V : Type} (k : String) :
    ∀ (m : List (String × V)), (∀ e ∈ m, string_lt k e.1 = true) → m.lookup k = none := by
  intro m
  induction m with
  | nil => intro _; rfl
  | cons x m ih =>
    intro h
    obtain ⟨x1, x2⟩ := x
    have hne : k ≠ x1 := string_lt_ne k x1 (h (x1, x2) (List.mem_cons_self _ _))
    rw [List.lookup_cons]
    have : (k == x1) = false := by simpa using hne
    rw [this]
    exact ih (fun e he => h e (List.mem_cons_of_mem _ he))

/-- Lookup after `m[k].push_back(a)` on a sorted map. -/
theorem omap_push_lookup {V : Type} (k : String) (a : V) :
    ∀ (m : List (String × List V)),
      m.Pairwise (fun e1 e2 => string_lt e1.1 e2.1 = true) →
      ∀ n, ((omap_push string_lt k a m).lookup n).getD []
        = (m.lookup n).getD [] ++ (if n = k then [a] else []) := by
  intro m
  induction m with
  | nil =>
    intro _ n
    by_cases hn : n = k
    · simp [omap_push, List.lookup, hn]
    · have : (n == k) = false := by simpa using hn
      simp [omap_push, List.lookup, hn, this]
  | cons x m ih =>
    intro h n
    obtain ⟨x1, x2⟩ := x
    have hx := List.pairwise_cons.mp h
    unfold omap_push
    split
    · rename_i h1
      by_cases hn : n = k
      · subst hn
        have hnone : ((x1, x2) :: m).lookup n = none := by
          apply lookup_none_of_lt
          intro e he
          rcases List.mem_cons.mp he with h2 | h2
          · rw [h2]
            exact h1
          · exact string_lt_trans _ _ _ h1 (hx.1 e h2)
        rw [hnone]
        simp [List.lookup]
      · have : (n == k) = false := by simpa using hn
        rw [List.lookup_cons, this]
        simp [hn]
    · split
      · rename_i h1 h2
        by_cases hn : n = x1
        · have hnk : n ≠ k := by
            rw [hn]
            exact string_lt_ne _ _ h2
          subst hn
          rw [List.lookup_cons, List.lookup_cons]
          simp [hnk]
        · have : (n == x1) = false := by simpa using hn
          rw [List.lookup_cons, List.lookup_cons, this]
          exact ih hx.2 n
      · rename_i h1 h2
        have hk : k = x1 :=
          string_lt_total k x1 (by simpa using h1) (by simpa using h2)
        subst hk
        by_cases hn : n = k
        · subst hn
          simp [List.lookup]
        · have : (n == k) = false := by simpa using hn
          rw [List.lookup_cons, List.lookup_cons, this]
          simp [hn]

theorem mem_of_lookup_string {V : Type} (k : String) (v : V) :
    ∀ (m : List (String × V)), m.lookup k = some v → (k, v) ∈ m := by
  intro m
  induction m with
  | nil => intro h; cases h
  | cons x m ih =>
    intro h
    obtain ⟨x1, x2⟩ := x
    rw [List.lookup_cons] at h
    by_cases hk : k = x1
    · subst hk
      simp only [beq_self_eq_true, Option.some.injEq] at h
      rw [h]
      exact List.mem_cons_self _ _
    · have : (k == x1) = false := by simpa using hk
      rw [this] at h
      exact List.mem_cons_of_mem _ (ih h)

theorem lookup_of_mem_sorted {V : Type} (k : String) (v : V) :
    ∀ (m : List (String × V)), m.Pairwise (fun e1 e2 => string_lt e1.1 e2.1 = true) →
      (k, v) ∈ m → m.lookup k = some v := by
  intro m
  induction m with
  | nil => intro _ h; cases h
  | cons x m ih =>
    intro hs h
    obtain ⟨x1, x2⟩ := x
    have hx := List.pairwise_cons.mp hs
    rw [List.lookup_cons]
    rcases List.mem_cons.mp h with h1 | h1
    · simp only [Prod.mk.injEq] at h1
      rw [h1.1, h1.2]
      simp
    · have hne : k ≠ x1 := (string_lt_ne x1 k (hx.1 (k, v) h1)).symm
      have : (k == x1) = false := by simpa using hne
      rw [this]
      exact ih hx.2 h1

/-- The loop collecting potential solvents keeps `solvents` sorted and appends to
the entry of each name the potential solvents of that name, in the order
of `root_set`. -/
theorem candidate_foldlM_spec (S : AtomicStructure) (gl : List (Atom × List Atom)) :
    ∀ (L : List Atom) (m0 m : List (String × List Atom)),
      L.foldlM (candidate_step S gl) m0 = some m →
      m0.Pairwise (fun e1 e2 => string_lt e1.1 e2.1 = true) →
      m.Pairwise (fun e1 e2 => string_lt e1.1 e2.1 = true)
      ∧ ∀ n, (m.lookup n).getD [] = (m0.lookup n).getD []
          ++ L.filter (fun r => potential_solvent S gl r
              && decide (S.res_name (S.atom_residue r) = n)) := by
  intro L
  induction L with
  | nil =>
    intro m0 m h hs
    simp only [List.foldlM_nil] at h
    have : m0 = m := Option.some.inj h
    subst this
    exact ⟨hs, fun n => by simp⟩
  | cons x L ih =>
    intro m0 m h hs
    rw [List.foldlM_cons] at h
    cases hstep : candidate_step S gl m0 x with
    | none => rw [hstep] at h; cases h
    | some m1 =>
      rw [hstep] at h
      have hbind : L.foldlM (candidate_step S gl) m1 = some m := h
      unfold candidate_step at hstep
      cases hg : group_of gl x with
      | none => rw [hg] at hstep; cases hstep
      | some grp =>
        rw [hg] at hstep
        simp only at hstep
        by_cases h1 : grp.length > 10
        · rw [if_pos h1] at hstep
          have : m0 = m1 := Option.some.inj hstep
          subst this
          obtain ⟨hs', hl⟩ := ih m0 m hbind hs
          refine ⟨hs', fun n => ?_⟩
          rw [hl n]
          have hp : potential_solvent S gl x = false := by
            simp only [potential_solvent, hg]
            exact decide_eq_false (fun hc => hc.1 h1)
          simp [List.filter_cons, hp]
        · rw [if_neg h1] at hstep
          by_cases h2 : grp.length ≠ (S.res_atoms (S.atom_residue x)).length
          · rw [if_pos h2] at hstep
            have : m0 = m1 := Option.some.inj hstep
            subst this
            obtain ⟨hs', hl⟩ := ih m0 m hbind hs
            refine ⟨hs', fun n => ?_⟩
            rw [hl n]
            have hp : potential_solvent S gl x = false := by
              simp only [potential_solvent, hg]
              exact decide_eq_false (fun hc => hc.2 h2)
            simp [List.filter_cons, hp]
          · rw [if_neg h2] at hstep
            have heq := Option.some.inj hstep
            subst heq
            obtain ⟨hs', hl⟩ := ih _ m hbind (omap_push_sorted _ x m0 hs)
            refine ⟨hs', fun n => ?_⟩
            rw [hl n, omap_push_lookup _ x m0 hs n]
            have hp : potential_solvent S gl x = true := by
              simp only [potential_solvent, hg]
              exact decide_eq_true ⟨h1, h2⟩
            by_cases hn : n = S.res_name (S.atom_residue x)
            · simp [List.filter_cons, hp, hn]
            · have hn' : ¬ S.res_name (S.atom_residue x) = n := fun h => hn h.symm
              simp [List.filter_cons, hp, hn, hn']

/-- The loop choosing the best solvent name: the size it ends with is at least the
size it starts with and at least the size of every entry, and is the size
of the entry with the name it ends with unless the loop changed nothing. -/
theorem best_solvent_foldl_spec :
    ∀ (m : List (String × List Atom)) (init : String × Nat),
      init.2 ≤ (m.foldl best_solvent_step init).2
      ∧ (∀ e ∈ m, e.2.length ≤ (m.foldl best_solvent_step init).2)
      ∧ (m.foldl best_solvent_step init = init
        ∨ ∃ e ∈ m, e.1 = (m.foldl best_solvent_step init).1
            ∧ e.2.length = (m.foldl best_solvent_step init).2) := by
  intro m
  induction m with
  | nil =>
    intro init
    exact ⟨Nat.le_refl _, (fun e he => absurd he (List.not_mem_nil e)), Or.inl rfl⟩
  | cons x m ih =>
    intro init
    rw [List.foldl_cons]
    obtain ⟨h1, h2, h3⟩ := ih (best_solvent_step init x)
    have hstep : init.2 ≤ (best_solvent_step init x).2
        ∧ x.2.length ≤ (best_solvent_step init x).2
        ∧ (best_solvent_step init x = init
          ∨ best_solvent_step init x = (x.1, x.2.length)) := by
      unfold best_solvent_step
      by_cases h : x.2.length < init.2
      · rw [if_pos h]
        exact ⟨Nat.le_refl _, Nat.le_of_lt h, Or.inl rfl⟩
      · rw [if_neg h]
        exact ⟨Nat.le_of_not_lt h, Nat.le_refl _, Or.inr rfl⟩
    refine ⟨Nat.le_trans hstep.1 h1, ?_, ?_⟩
    · intro e he
      rcases List.mem_cons.mp he with h | h
      · rw [h]
        exact Nat.le_trans hstep.2.1 h1
      · exact h2 e h
    · rcases h3 with h3 | ⟨e, he, h4, h5⟩
      · rcases hstep.2.2 with h6 | h6
        · left
          rw [h3, h6]
        · right
          refine ⟨x, List.mem_cons_self _ _, ?_, ?_⟩
          · rw [h3, h6]
          · rw [h3, h6]
      · exact Or.inr ⟨e, List.mem_cons_of_mem _ he, h4, h5⟩

theorem segregate_foldl_sorted (S : AtomicStructure) :
    ∀ (gl : List (Atom × List Atom)) (st : List Atom × List Atom),
      st.2.Pairwise (· < ·) → (gl.foldl (segregate_step S) st).2.Pairwise (· < ·) := by
  intro gl
  induction gl with
  | nil => intro st h; exact h
  | cons x gl ih =>
    intro st h
    rw [List.foldl_cons]
    apply ih
    unfold segregate_step
    simp only
    split
    · exact h
    · split
      · exact h
      · exact set_insert_nodup x.1 st.2 h

theorem segregate_root_set_nodup (S : AtomicStructure) (gl : List (Atom × List Atom)) :
    (segregate S gl).2.Nodup := by
  have h := segregate_foldl_sorted S gl ([], []) List.Pairwise.nil
  exact List.Pairwise.imp (fun hab => Nat.ne_of_lt hab) h

/-- The roots assigned on account of the best solvent name: they are the
potential solvents of `root_set` with one residue name, at least 10, and no
residue name has more potential solvents. -/
theorem best_solvent_roots_spec (S : AtomicStructure) (gl : List (Atom × List Atom))
    (small root_set : List Atom) (solvents : List (String × List Atom))
    (hsolv : solvent_candidates S gl small root_set = some solvents)
    (hne : best_solvent_roots solvents ≠ []) :
    ∃ best, best_solvent_roots solvents
        = root_set.filter (fun r => potential_solvent S gl r
            && decide (S.res_name (S.atom_residue r) = best))
      ∧ 10 ≤ (best_solvent_roots solvents).length
      ∧ ∀ n, (root_set.filter (fun r => potential_solvent S gl r
            && decide (S.res_name (S.atom_residue r) = n))).length
          ≤ (best_solvent_roots solvents).length := by
  unfold solvent_candidates at hsolv
  have hs0 : (omap_insert string_lt "small solvents" small []).Pairwise
      (fun e1 e2 => string_lt e1.1 e2.1 = true) := by
    simp [omap_insert]
  obtain ⟨hsorted, hlook⟩ := candidate_foldlM_spec S gl root_set _ solvents hsolv hs0
  have hcond : best_solvent_name solvents ≠ ""
      ∧ best_solvent_name solvents ≠ "small solvents" := by
    by_contra hc
    apply hne
    unfold best_solvent_roots
    rw [if_neg hc]
  have hL : best_solvent_roots solvents
      = (solvents.lookup (best_solvent_name solvents)).getD [] := by
    unfold best_solvent_roots
    rw [if_pos hcond]
  obtain ⟨h1, h2, h3⟩ := best_solvent_foldl_spec solvents ("", 10)
  have hentry : ∃ e ∈ solvents, e.1 = best_solvent_name solvents
      ∧ e.2.length = (solvents.foldl best_solvent_step ("", 10)).2 := by
    rcases h3 with h3 | h3
    · exfalso
      apply hcond.1
      unfold best_solvent_name
      rw [h3]
    · exact h3
  obtain ⟨e, he, he1, he2⟩ := hentry
  have hle : solvents.lookup (best_solvent_name solvents) = some e.2 := by
    apply lookup_of_mem_sorted _ _ solvents hsorted
    rw [← he1]
    exact he
  have hlen : (best_solvent_roots solvents).length
      = (solvents.foldl best_solvent_step ("", 10)).2 := by
    rw [hL, hle]
    exact he2
  refine ⟨best_solvent_name solvents, ?_, ?_, ?_⟩
  · rw [hL, hlook (best_solvent_name solvents)]
    have hne_ss : (best_solvent_name solvents == "small solvents") = false := by
      simpa using hcond.2
    simp [omap_insert, List.lookup, hne_ss]
  · rw [hlen]
    exact h1
  · intro n
    rw [hlen]
    have hn := hlook n
    cases hln : solvents.lookup n with
    | none =>
      rw [hln] at hn
      have hnil : root_set.filter (fun r => potential_solvent S gl r
            && decide (S.res_name (S.atom_residue r) = n)) = [] := by
        have := (List.append_eq_nil.mp hn.symm).2
        exact this
      rw [hnil]
      exact Nat.zero_le _
    | some l =>
      rw [hln] at hn
      have hmem := mem_of_lookup_string n l solvents hln
      have hl := h2 (n, l) hmem
      have : (root_set.filter (fun r => potential_solvent S gl r
            && decide (S.res_name (S.atom_residue r) = n))).length ≤ l.length := by
        have h4 : l.length = _ := congrArg List.length hn
        rw [List.length_append] at h4
        omega
      exact Nat.le_trans this hl

/-! ## Theorems about the solvent chosen by residue name -/

/-- The run on `example_solvent_box` returns, with atom `1` in category `Solvent`. -/
theorem example_solvent_box_returns :
    ∃ st', _compute_structure_cats example_solvent_box example_solvent_box_groups
        { cat := fun _ => none, structure_cats_dirty := true } = some st'
      ∧ st'.cat 1 = some StructCat.Solvent :=
  Option.map_eq_some'.mp (by decide)

/-- Category `Solvent` at return is only found in the groups of the small solvents and
of the roots listed under the best solvent name. -/
theorem solvent_category_roots (S : AtomicStructure) (bonded : List (List Atom))
    (st st' : CatState) (m : GroupMaps)
    (hne : ∀ g ∈ bonded, g ≠ []) (hdis : bonded.Pairwise List.Disjoint)
    (hm : build_group_maps bonded = some m)
    (hrun : _compute_structure_cats S bonded st = some st') :
    ∃ solvents, solvent_candidates S m.group_lookup (segregate S m.group_lookup).1
        (segregate S m.group_lookup).2 = some solvents
      ∧ ∀ g ∈ bonded, ∀ root, g.head? = some root → ∀ a ∈ g,
          st'.cat a = some StructCat.Solvent →
          root ∈ (segregate S m.group_lookup).1 ∨ root ∈ best_solvent_roots solvents := by
  obtain ⟨hex, _, _, _⟩ := build_group_maps_exact bonded m hne hdis hm
  obtain ⟨_, solvents, cat1, st1, ions, st2, ht⟩ := run_stages S bonded st st' m hm hrun
  refine ⟨solvents, ht.1, ?_⟩
  have hperm := run_permitted
    (fun a c => c = StructCat.Solvent → ∀ g ∈ bonded, ∀ root, g.head? = some root → a ∈ g →
      root ∈ (segregate S m.group_lookup).1 ∨ root ∈ best_solvent_roots solvents)
    S m st.cat st'.cat solvents cat1 st1 ions st2 ht
    (by
      intro r hr g0 hg0 a ha _ g hg root hroot hag
      have hb0 := (hex r g0).mp hg0
      have : g0 = g := group_eq_of_mem bonded hdis g0 g hb0.1 hg a ha hag
      subst this
      have : r = root := Option.some.inj (hb0.2.symm.trans hroot)
      subst this
      exact hr)
    (by
      intro _ _ _ _ _ _ h
      cases h)
    (by
      intro r hr g1 hg1
      refine ⟨fun b hb => ⟨?_, ?_⟩, ?_⟩
      · intro h
        cases h
      · intro h
        cases h
      · intro _ _ _ _ h
        cases h)
  intro g hg root hroot a ha hcat
  have hlook : group_of m.group_lookup root = some g := (hex root g).mpr ⟨hg, hroot⟩
  obtain ⟨c, hc, hΦ⟩ := hperm root g hlook a ha
  rw [hc] at hcat
  exact hΦ (Option.some.inj hcat) g hg root hroot ha

/-- C12: let `bonded` be the bonded groups (non-empty, pairwise disjoint). An atom
of a group `g` with root `root` ends `_compute_structure_cats` in category `Solvent`
only if `g` is a small solvent, or `g` has at most 10 atoms, as many atoms as
the residue of `root`, and there are at least 10 roots of candidate groups (not
small solvents, at most 10 atoms, as many atoms as the root's residue) with the
residue name of `root`, `root` among them, and no residue name has more such
roots. In particular, when no residue name has 10 such roots, no atom of a
group that is not a small solvent ends in category `Solvent`. -/
theorem solvent_only_if (S : AtomicStructure) (bonded : List (List Atom))
    (st st' : CatState)
    (hne : ∀ g ∈ bonded, g ≠ [])
    (hdis : bonded.Pairwise (fun g h => ∀ a ∈ g, a ∉ h))
    (hrun : _compute_structure_cats S bonded st = some st') :
    (∀ g ∈ bonded, ∀ root, g.head? = some root → ∀ a ∈ g,
        st'.cat a = some StructCat.Solvent →
        SmallSolvent S root g
        ∨ (g.length ≤ 10 ∧ g.length = (S.res_atoms (S.atom_residue root)).length
          ∧ ∃ roots : List Atom, roots.Nodup ∧ 10 ≤ roots.length ∧ root ∈ roots
            ∧ (∀ r ∈ roots, CandidateRoot S bonded (S.res_name (S.atom_residue root)) r)
            ∧ ∀ n (others : List Atom), others.Nodup →
                (∀ r ∈ others, CandidateRoot S bonded n r) → others.length ≤ roots.length))
    ∧ ((∀ n (roots : List Atom), roots.Nodup → (∀ r ∈ roots, CandidateRoot S bonded n r) →
          roots.length < 10) →
        ∀ g ∈ bonded, ∀ root, g.head? = some root → ¬ SmallSolvent S root g →
          ∀ a ∈ g, st'.cat a ≠ some StructCat.Solvent) := by
  have hdis' : bonded.Pairwise List.Disjoint :=
    List.Pairwise.imp (fun {g h} hgh a ha hb => hgh a ha hb) hdis
  obtain ⟨m, hm, _⟩ := build_group_maps_spec bonded hne hdis'
  obtain ⟨hex, hkeys, _, _⟩ := build_group_maps_exact bonded m hne hdis' hm
  obtain ⟨solvents, hsolv, hroots⟩ := solvent_category_roots S bonded st st' m hne hdis' hm hrun
  have hcand : ∀ n r, r ∈ (segregate S m.group_lookup).2.filter
        (fun r => potential_solvent S m.group_lookup r
          && decide (S.res_name (S.atom_residue r) = n))
      ↔ CandidateRoot S bonded n r := by
    intro n r
    rw [List.mem_filter]
    constructor
    · rintro ⟨hr, hp⟩
      obtain ⟨g, hg, hns⟩ := ((segregate_exact S m.group_lookup hkeys r).2).mp hr
      have hb := (hex r g).mp hg
      simp only [potential_solvent, hg, Bool.and_eq_true, decide_eq_true_eq] at hp
      exact ⟨g, hb.1, hb.2, hns, by omega, by omega, hp.2⟩
    · rintro ⟨g, hg, hh, hns, h10, hres, hname⟩
      have hlook : group_of m.group_lookup r = some g := (hex r g).mpr ⟨hg, hh⟩
      refine ⟨((segregate_exact S m.group_lookup hkeys r).2).mpr ⟨g, hlook, hns⟩, ?_⟩
      simp only [potential_solvent, hlook, Bool.and_eq_true, decide_eq_true_eq]
      exact ⟨⟨by omega, by omega⟩, hname⟩
  have main : ∀ g ∈ bonded, ∀ root, g.head? = some root → ∀ a ∈ g,
      st'.cat a = some StructCat.Solvent →
      SmallSolvent S root g
      ∨ (g.length ≤ 10 ∧ g.length = (S.res_atoms (S.atom_residue root)).length
        ∧ ∃ roots : List Atom, roots.Nodup ∧ 10 ≤ roots.length ∧ root ∈ roots
          ∧ (∀ r ∈ roots, CandidateRoot S bonded (S.res_name (S.atom_residue root)) r)
          ∧ ∀ n (others : List Atom), others.Nodup →
              (∀ r ∈ others, CandidateRoot S bonded n r) → others.length ≤ roots.length) := by
    intro g hg root hroot a ha hcat
    have hlook : group_of m.group_lookup root = some g := (hex root g).mpr ⟨hg, hroot⟩
    rcases hroots g hg root hroot a ha hcat with hsmall | hbest
    · left
      obtain ⟨g', hg', hs⟩ := ((segregate_exact S m.group_lookup hkeys root).1).mp hsmall
      have : g' = g := Option.some.inj (hg'.symm.trans hlook)
      rw [this] at hs
      exact hs
    · right
      obtain ⟨best, hL, h10, hmax⟩ := best_solvent_roots_spec S m.group_lookup _ _ solvents
        hsolv (List.ne_nil_of_mem hbest)
      have hrootc : CandidateRoot S bonded best root := by
        rw [← hcand best root, ← hL]
        exact hbest
      have hname : S.res_name (S.atom_residue root) = best := by
        obtain ⟨_, _, _, _, _, _, h⟩ := hrootc
        exact h
      obtain ⟨g', hg', hh', _, hlen, hres, _⟩ := hrootc
      have hgg : g' = g :=
        Option.some.inj (((hex root g').mpr ⟨hg', hh'⟩).symm.trans hlook)
      rw [hgg] at hlen hres
      refine ⟨hlen, hres, best_solvent_roots solvents, ?_, h10, hbest, ?_, ?_⟩
      · rw [hL]
        exact List.Nodup.filter _ (segregate_root_set_nodup S m.group_lookup)
      · intro r hr
        rw [hname, ← hcand best r, ← hL]
        exact hr
      · intro n others hnd hall
        have hsub : others ⊆ (segregate S m.group_lookup).2.filter
            (fun r => potential_solvent S m.group_lookup r
              && decide (S.res_name (S.atom_residue r) = n)) := by
          intro r hr
          exact (hcand n r).mpr (hall r hr)
        exact Nat.le_trans (List.Subperm.length_le (List.subperm_of_subset hnd hsub)) (hmax n)
  refine ⟨main, ?_⟩
  intro hfew g hg root hroot hns a ha hcat
  rcases main g hg root hroot a ha hcat with h | ⟨_, _, roots, hnd, h10, _, hall, _⟩
  · exact hns h
  · have := hfew _ roots hnd hall
    omega

/-- Instance of C12 on `example_solvent_box`: atom `1` ends in category `Solvent`, and
its group `[1]` is a small solvent or one of at least 10 candidate groups that share
its residue name. -/
theorem solvent_only_if_witness :
    ∃ st', _compute_structure_cats example_solvent_box example_solvent_box_groups
        { cat := fun _ => none, structure_cats_dirty := true } = some st'
      ∧ st'.cat 1 = some StructCat.Solvent
      ∧ (SmallSolvent example_solvent_box 1 [1]
        ∨ (([1] : List Atom).length ≤ 10
          ∧ ([1] : List Atom).length
            = (example_solvent_box.res_atoms (example_solvent_box.atom_residue 1)).length
          ∧ ∃ roots : List Atom, roots.Nodup ∧ 10 ≤ roots.length ∧ 1 ∈ roots
            ∧ (∀ r ∈ roots, CandidateRoot example_solvent_box example_solvent_box_groups
                (example_solvent_box.res_name (example_solvent_box.atom_residue 1)) r)
            ∧ ∀ n (others : List Atom), others.Nodup →
                (∀ r ∈ others,
                  CandidateRoot example_solvent_box example_solvent_box_groups n r) →
                others.length ≤ roots.length)) :=
  Exists.elim example_solvent_box_returns (fun st' hst' =>
    ⟨st', hst'.1, hst'.2,
     (solvent_only_if example_solvent_box example_solvent_box_groups
        { cat := fun _ => none, structure_cats_dirty := true } st'
        (by decide) (by decide) hst'.1).1 [1] (by decide) 1 rfl 1 (by decide) hst'.2⟩)

end atomstruct
